import Mathlib

/-! # EPR-B signal correlations and entangled craytons

A shallow embedding of the two simulation programs of the repository,

* `src/Programming-Languages-Besides-Ada/eprb_signal_correlations.c` (namespace `EPRB`),
* `src/How_to_Entangle_Craytons/How_to_Entangle_Craytons.c` (namespace `Craytons`),

followed by theorems about them.

Conventions of the embedding.

* The C type `double` (`scalar`, `cray_ban`) is a type parameter `scalar` carrying a linear
  ordered field structure; theorems about real angles instantiate it with `ℝ`.  The three
  functions of `<math.h>` the programs call are passed in a record `libm`.  This is the
  arithmetic of exact numbers: it has no rounding, no infinity and no NaN.
* What depends on the rounding of `double`, on a division by zero or on the square root of a
  negative number is stated over a second embedding of the estimator functions, of names
  ending in `_double`, in which `double` is the IEEE 754 binary64 format (section "The
  arithmetic of `double`").
* The C type `int` is `Int`: a counter does not overflow in the embedding, and the theorems
  that need the range of `int` assume it.
* A global variable that a function reads and writes (the generator state) is an explicit
  argument and an explicit component of the result.
* `assert` makes a function fallible: it returns `Option`, and `none` is a failed assertion.
* The local variables of the two estimator functions are definitions of their own, each a
  function of the record of the eight frequencies computed first.
* An array `raw_data[RUN_LENGTH]` is the list of its elements in index order.
-/

/-! ## The two programs -/

/-- The functions of `<math.h>` used by the two programs.  They are total functions of exact
numbers: the NaN that `sqrt` returns on a negative `double` is represented by `double.sqrt`
only. -/
structure libm (scalar : Type) where
  cos : scalar → scalar
  sin : scalar → scalar
  sqrt : scalar → scalar

namespace EPRB

variable {scalar : Type} [LinearOrderedField scalar]

/-- Source: `typedef enum { COUNTERCLOCKWISE, CLOCKWISE } signal;` -/
inductive signal where
  | COUNTERCLOCKWISE
  | CLOCKWISE
  deriving DecidableEq, Repr

/-- Source: `typedef enum { CIRCLED_PLUS, CIRCLED_MINUS } tag;` -/
inductive tag where
  | CIRCLED_PLUS
  | CIRCLED_MINUS
  deriving DecidableEq, Repr

/-- Source: `typedef struct { tag τ; signal σ; } tagged_signal;` -/
structure tagged_signal where
  τ : tag
  σ : signal
  deriving DecidableEq, Repr

/-- Source: `typedef struct { tagged_signal pair[2]; } tagged_signal_pair;`
the two array elements are the fields `pair0` and `pair1`. -/
structure tagged_signal_pair where
  pair0 : tagged_signal
  pair1 : tagged_signal
  deriving DecidableEq, Repr

/-- Source: `#define LCG_A UINT64_C(0xF1357AEA2E62A9C5)`. -/
def LCG_A : Nat := 0xF1357AEA2E62A9C5

/-- Source: `#define LCG_C UINT64_C(0x0000000000000001)`. -/
def LCG_C : Nat := 0x0000000000000001

/-- Source: `#define RUN_LENGTH 1000000`. -/
def RUN_LENGTH : Nat := 1000000

/-- Source: `random_scalar`.  The global `uint64_t seed` is the argument; the result is the
returned scalar and the updated seed, or `none` when the assertion fails.  The `uint64_t`
arithmetic of the update is arithmetic modulo `2 ^ 64`. -/
def random_scalar (scalar : Type) [LinearOrderedField scalar] (seed : Nat) :
    Option (scalar × Nat) :=
  let randval : scalar := ((seed >>> 16 : Nat) : scalar) / 281474976710656
  if 0 ≤ randval ∧ randval < 1 then
    some (randval, ((LCG_A * seed) + LCG_C) % 2 ^ 64)
  else
    none

/-- Source: `assign_tag`. -/
def assign_tag (m : libm scalar) (ζ : scalar) (σ : signal) (seed : Nat) :
    Option (tagged_signal × Nat) :=
  match random_scalar scalar seed with
  | none => none
  | some (r, seed1) =>
    let x : scalar := if σ = signal.COUNTERCLOCKWISE then m.cos ζ else m.sin ζ
    some ({ τ := if r < x * x then tag.CIRCLED_PLUS else tag.CIRCLED_MINUS, σ := σ }, seed1)

/-- Source: the body of the `for` loop of `collect_data`, run for the `n` remaining indices;
the elements written to `raw_data` are returned in index order. -/
def collect_data_loop (m : libm scalar) (ζ1 ζ2 : scalar) :
    Nat → Nat → Option (List tagged_signal_pair × Nat)
  | 0, seed => some ([], seed)
  | n + 1, seed =>
    match random_scalar scalar seed with
    | none => none
    | some (r, seed1) =>
      let σ : signal := if r < 0.5 then signal.COUNTERCLOCKWISE else signal.CLOCKWISE
      match assign_tag m ζ1 σ seed1 with
      | none => none
      | some (p0, seed2) =>
        match assign_tag m ζ2 σ seed2 with
        | none => none
        | some (p1, seed3) =>
          match collect_data_loop m ζ1 ζ2 n seed3 with
          | none => none
          | some (rest, seed4) => some ({ pair0 := p0, pair1 := p1 } :: rest, seed4)

/-- Source: `collect_data`; the loop runs over the indices `0 .. RUN_LENGTH - 1`. -/
def collect_data (m : libm scalar) (ζ1 ζ2 : scalar) (seed : Nat) :
    Option (List tagged_signal_pair × Nat) :=
  collect_data_loop m ζ1 ζ2 RUN_LENGTH seed

/-- Source: the `for` loop of `count` over the remaining array elements, with the running
value of the local `n`; `none` when the assertion fails. -/
def count_loop (σ : signal) (τ1 τ2 : tag) : List tagged_signal_pair → Nat → Option Nat
  | [], n => some n
  | p :: rest, n =>
    if p.pair0.σ = p.pair1.σ then
      count_loop σ τ1 τ2 rest
        (n + if p.pair0.σ = σ ∧ p.pair0.τ = τ1 ∧ p.pair1.τ = τ2 then 1 else 0)
    else
      none

/-- Source: `count`. -/
def count (raw_data : List tagged_signal_pair) (σ : signal) (τ1 τ2 : tag) : Option Nat :=
  count_loop σ τ1 τ2 raw_data 0

/-- Source: `frequency`.  The division is the field division; `frequency_double` has the
division of `double`, which rounds. -/
def frequency (raw_data : List tagged_signal_pair) (σ : signal) (τ1 τ2 : tag) :
    Option scalar :=
  match count raw_data σ τ1 τ2 with
  | none => none
  | some n => some ((n : scalar) / (RUN_LENGTH : scalar))

/-- Source: `cosine_sign`. -/
def cosine_sign (m : libm scalar) (φ : scalar) : scalar :=
  if m.cos φ < 0 then -1 else 1

/-- Source: `sine_sign`. -/
def sine_sign (m : libm scalar) (φ : scalar) : scalar :=
  if m.sin φ < 0 then -1 else 1

/-- Source: `cc_sign`. -/
def cc_sign (m : libm scalar) (φ1 φ2 : scalar) : scalar :=
  cosine_sign m φ1 * cosine_sign m φ2

/-- Source: `cs_sign`. -/
def cs_sign (m : libm scalar) (φ1 φ2 : scalar) : scalar :=
  cosine_sign m φ1 * sine_sign m φ2

/-- Source: `sc_sign`. -/
def sc_sign (m : libm scalar) (φ1 φ2 : scalar) : scalar :=
  sine_sign m φ1 * cosine_sign m φ2

/-- Source: `ss_sign`. -/
def ss_sign (m : libm scalar) (φ1 φ2 : scalar) : scalar :=
  sine_sign m φ1 * sine_sign m φ2

/-- The first eight locals of `estimate_ρ_from_raw_data`, under their source names. -/
structure frequencies (scalar : Type) where
  ac2c2 : scalar
  ac2s2 : scalar
  as2c2 : scalar
  as2s2 : scalar
  cs2s2 : scalar
  cs2c2 : scalar
  cc2s2 : scalar
  cc2c2 : scalar

/-- Source: the eight assignments `ac2c2 = frequency (raw_data, COUNTERCLOCKWISE,
CIRCLED_PLUS, CIRCLED_PLUS); ...` of `estimate_ρ_from_raw_data`, in source order, with
the function `frequency (raw_data, ·, ·, ·)` as the argument `freq`. -/
def gather_frequencies (freq : signal → tag → tag → Option scalar) :
    Option (frequencies scalar) :=
  match freq signal.COUNTERCLOCKWISE tag.CIRCLED_PLUS tag.CIRCLED_PLUS with
  | none => none
  | some ac2c2 =>
  match freq signal.COUNTERCLOCKWISE tag.CIRCLED_PLUS tag.CIRCLED_MINUS with
  | none => none
  | some ac2s2 =>
  match freq signal.COUNTERCLOCKWISE tag.CIRCLED_MINUS tag.CIRCLED_PLUS with
  | none => none
  | some as2c2 =>
  match freq signal.COUNTERCLOCKWISE tag.CIRCLED_MINUS tag.CIRCLED_MINUS with
  | none => none
  | some as2s2 =>
  match freq signal.CLOCKWISE tag.CIRCLED_PLUS tag.CIRCLED_PLUS with
  | none => none
  | some cs2s2 =>
  match freq signal.CLOCKWISE tag.CIRCLED_PLUS tag.CIRCLED_MINUS with
  | none => none
  | some cs2c2 =>
  match freq signal.CLOCKWISE tag.CIRCLED_MINUS tag.CIRCLED_PLUS with
  | none => none
  | some cc2s2 =>
  match freq signal.CLOCKWISE tag.CIRCLED_MINUS tag.CIRCLED_MINUS with
  | none => none
  | some cc2c2 =>
    some { ac2c2 := ac2c2, ac2s2 := ac2s2, as2c2 := as2c2, as2s2 := as2s2,
           cs2s2 := cs2s2, cs2c2 := cs2c2, cc2s2 := cc2s2, cc2c2 := cc2c2 }

/-- Source: `c2c2 = ac2c2 + cc2c2;` -/
def c2c2 (f : frequencies scalar) : scalar := f.ac2c2 + f.cc2c2

/-- Source: `c2s2 = ac2s2 + cc2s2;` -/
def c2s2 (f : frequencies scalar) : scalar := f.ac2s2 + f.cc2s2

/-- Source: `s2c2 = as2c2 + cs2c2;` -/
def s2c2 (f : frequencies scalar) : scalar := f.as2c2 + f.cs2c2

/-- Source: `s2s2 = as2s2 + cs2s2;` -/
def s2s2 (f : frequencies scalar) : scalar := f.as2s2 + f.cs2s2

/-- Source: `cc = cc_sign (φ1, φ2) * sqrt (c2c2);` -/
def cc (m : libm scalar) (f : frequencies scalar) (φ1 φ2 : scalar) : scalar :=
  cc_sign m φ1 φ2 * m.sqrt (c2c2 f)

/-- Source: `cs = cs_sign (φ1, φ2) * sqrt (c2s2);` -/
def cs (m : libm scalar) (f : frequencies scalar) (φ1 φ2 : scalar) : scalar :=
  cs_sign m φ1 φ2 * m.sqrt (c2s2 f)

/-- Source: `sc = sc_sign (φ1, φ2) * sqrt (s2c2);` -/
def sc (m : libm scalar) (f : frequencies scalar) (φ1 φ2 : scalar) : scalar :=
  sc_sign m φ1 φ2 * m.sqrt (s2c2 f)

/-- Source: `ss = ss_sign (φ1, φ2) * sqrt (s2s2);` -/
def ss (m : libm scalar) (f : frequencies scalar) (φ1 φ2 : scalar) : scalar :=
  ss_sign m φ1 φ2 * m.sqrt (s2s2 f)

/-- Source: `c12 = cc + ss;` -/
def c12 (m : libm scalar) (f : frequencies scalar) (φ1 φ2 : scalar) : scalar :=
  cc m f φ1 φ2 + ss m f φ1 φ2

/-- Source: `s12 = sc - cs;` -/
def s12 (m : libm scalar) (f : frequencies scalar) (φ1 φ2 : scalar) : scalar :=
  sc m f φ1 φ2 - cs m f φ1 φ2

/-- Source: the arithmetic of `estimate_ρ_from_raw_data` after the eight frequencies,
ending in `return (c12 * c12) - (s12 * s12);`. -/
def estimate_ρ_from_frequencies (m : libm scalar) (f : frequencies scalar)
    (φ1 φ2 : scalar) : scalar :=
  (c12 m f φ1 φ2 * c12 m f φ1 φ2) - (s12 m f φ1 φ2 * s12 m f φ1 φ2)

/-- Source: the body of `estimate_ρ_from_raw_data`, with the function
`frequency (raw_data, ·, ·, ·)` as the argument `freq`. -/
def estimate_ρ_body (m : libm scalar) (freq : signal → tag → tag → Option scalar)
    (φ1 φ2 : scalar) : Option scalar :=
  match gather_frequencies freq with
  | none => none
  | some f => some (estimate_ρ_from_frequencies m f φ1 φ2)

/-- Source: `estimate_ρ_from_raw_data`; `none` when an assertion of `count` fails. -/
def estimate_ρ_from_raw_data (m : libm scalar) (raw_data : List tagged_signal_pair)
    (φ1 φ2 : scalar) : Option scalar :=
  estimate_ρ_body m (frequency raw_data) φ1 φ2

end EPRB

namespace Craytons

variable {scalar : Type} [LinearOrderedField scalar]

/-- Source: `while(i> 65537)i= i-65537;` in `number_between_zero_and_one`: the value of `i`
when the loop ends.  The C type `int` is modelled by `Int`. -/
def number_between_zero_and_one_loop (i : Int) : Int :=
  if 65537 < i then number_between_zero_and_one_loop (i - 65537) else i
termination_by (i - 65537).toNat
decreasing_by omega

/-- Source: `number_between_zero_and_one`.  The global `a_global_variable` is the argument;
the result is the returned number and the updated global. -/
def number_between_zero_and_one (scalar : Type) [LinearOrderedField scalar]
    (a_global_variable : Int) : scalar × Int :=
  let i : Int := number_between_zero_and_one_loop (a_global_variable * 75)
  (((1.0 : scalar) * (i : scalar)) / 65537.0, i)

/-- Source: `typedef enum{updown,sideways}crayton;` -/
inductive crayton where
  | updown
  | sideways
  deriving DecidableEq, Repr

/-- Source: `typedef struct{crayton k1;crayton k2;}crayton_pair;` -/
structure crayton_pair where
  k1 : crayton
  k2 : crayton
  deriving DecidableEq, Repr

/-- Source: `crayton_source`. -/
def crayton_source (scalar : Type) [LinearOrderedField scalar] (a_global_variable : Int) :
    crayton_pair × Int :=
  let r := number_between_zero_and_one scalar a_global_variable
  if r.1 < 0.5 then
    ({ k1 := crayton.updown, k2 := crayton.sideways }, r.2)
  else
    ({ k1 := crayton.sideways, k2 := crayton.updown }, r.2)

/-- Source: `law_of_logodaedalus`. -/
def law_of_logodaedalus (m : libm scalar) (angle : scalar)
    (crayton_that_will_be_sent : crayton) (a_global_variable : Int) : Int × Int :=
  let x : scalar :=
    if crayton_that_will_be_sent = crayton.updown then m.sin angle else m.cos angle
  let r := number_between_zero_and_one scalar a_global_variable
  if r.1 < x * x then (1, r.2) else (-1, r.2)

/-- Source: `event_data`. -/
structure event_data where
  pair : crayton_pair
  way_k1_was_sent : Int
  way_k2_was_sent : Int
  deriving DecidableEq, Repr

/-- Source: `experimental_event`. -/
def experimental_event (m : libm scalar) (angle1 angle2 : scalar) (a_global_variable : Int) :
    event_data × Int :=
  let src := crayton_source scalar a_global_variable
  let w1 := law_of_logodaedalus m angle1 src.1.k1 src.2
  let w2 := law_of_logodaedalus m angle2 src.1.k2 w1.2
  ({ pair := src.1, way_k1_was_sent := w1.1, way_k2_was_sent := w2.1 }, w2.2)

/-- Source: `series_data`. -/
structure series_data (scalar : Type) where
  angle1 : scalar
  angle2 : scalar
  number_of_events : Int
  number_of_updown_sideways_plus_plus : Int
  number_of_updown_sideways_plus_minus : Int
  number_of_updown_sideways_minus_plus : Int
  number_of_updown_sideways_minus_minus : Int
  number_of_sideways_updown_plus_plus : Int
  number_of_sideways_updown_plus_minus : Int
  number_of_sideways_updown_minus_plus : Int
  number_of_sideways_updown_minus_minus : Int

/-- Source: the nested `if` of the loop body of `experimental_series`, which adds the event
`edata` to the table `sdata`. -/
def record_event (sdata : series_data scalar) (edata : event_data) : series_data scalar :=
  if edata.pair.k1 = crayton.updown then
    if edata.way_k1_was_sent = 1 then
      if edata.way_k2_was_sent = 1 then
        { sdata with number_of_updown_sideways_plus_plus :=
            sdata.number_of_updown_sideways_plus_plus + 1 }
      else
        { sdata with number_of_updown_sideways_plus_minus :=
            sdata.number_of_updown_sideways_plus_minus + 1 }
    else
      if edata.way_k2_was_sent = 1 then
        { sdata with number_of_updown_sideways_minus_plus :=
            sdata.number_of_updown_sideways_minus_plus + 1 }
      else
        { sdata with number_of_updown_sideways_minus_minus :=
            sdata.number_of_updown_sideways_minus_minus + 1 }
  else
    if edata.way_k1_was_sent = 1 then
      if edata.way_k2_was_sent = 1 then
        { sdata with number_of_sideways_updown_plus_plus :=
            sdata.number_of_sideways_updown_plus_plus + 1 }
      else
        { sdata with number_of_sideways_updown_plus_minus :=
            sdata.number_of_sideways_updown_plus_minus + 1 }
    else
      if edata.way_k2_was_sent = 1 then
        { sdata with number_of_sideways_updown_minus_plus :=
            sdata.number_of_sideways_updown_minus_plus + 1 }
      else
        { sdata with number_of_sideways_updown_minus_minus :=
            sdata.number_of_sideways_updown_minus_minus + 1 }

/-- Source: `for(int i= 0;i!=n;i= i+1) { ... }` of `experimental_series`, from the loop
variable `i`, the table `sdata` and the generator state.  Each test of `i != n` uses one unit
of `fuel`; `none` means the fuel ran out before the loop ended.  The loop variable is an
unbounded integer, so that the embedding follows the program for every `n ≥ 0`; for a
negative `n` the `int` variable `i` of the program overflows before it reaches `n`, which
the embedding does not represent. -/
def experimental_series_loop (m : libm scalar) (angle1 angle2 : scalar) (n : Int) :
    Nat → Int → series_data scalar → Int → Option (series_data scalar × Int)
  | 0, _, _, _ => none
  | fuel + 1, i, sdata, a_global_variable =>
    if i ≠ n then
      let ev := experimental_event m angle1 angle2 a_global_variable
      experimental_series_loop m angle1 angle2 n fuel (i + 1) (record_event sdata ev.1) ev.2
    else
      some (sdata, a_global_variable)

/-- Source: the table `sdata` of `experimental_series` before its loop. -/
def initial_series_data (angle1 angle2 : scalar) (n : Int) : series_data scalar :=
  { angle1 := angle1
    angle2 := angle2
    number_of_events := n
    number_of_updown_sideways_plus_plus := 0
    number_of_updown_sideways_plus_minus := 0
    number_of_updown_sideways_minus_plus := 0
    number_of_updown_sideways_minus_minus := 0
    number_of_sideways_updown_plus_plus := 0
    number_of_sideways_updown_plus_minus := 0
    number_of_sideways_updown_minus_plus := 0
    number_of_sideways_updown_minus_minus := 0 }

/-- Source: `experimental_series`. -/
def experimental_series (m : libm scalar) (fuel : Nat) (angle1 angle2 : scalar) (n : Int)
    (a_global_variable : Int) : Option (series_data scalar × Int) :=
  experimental_series_loop m angle1 angle2 n fuel 0 (initial_series_data angle1 angle2 n)
    a_global_variable

/-- The eight locals `freq_of_...` of `correlation_coefficient_estimate`. -/
structure frequencies (scalar : Type) where
  freq_of_updown_sideways_plus_plus : scalar
  freq_of_updown_sideways_plus_minus : scalar
  freq_of_updown_sideways_minus_plus : scalar
  freq_of_updown_sideways_minus_minus : scalar
  freq_of_sideways_updown_plus_plus : scalar
  freq_of_sideways_updown_plus_minus : scalar
  freq_of_sideways_updown_minus_plus : scalar
  freq_of_sideways_updown_minus_minus : scalar

/-- Source: the eight definitions `double freq_of_... = (1.0*sdata.number_of_...)/
sdata.number_of_events;` of `correlation_coefficient_estimate`.  The division is the
field division: what C does when `number_of_events` is zero is not represented here, but in
`frequencies_of_double`. -/
def frequencies_of (sdata : series_data scalar) : frequencies scalar :=
  { freq_of_updown_sideways_plus_plus :=
      ((1.0 : scalar) * (sdata.number_of_updown_sideways_plus_plus : scalar))
        / (sdata.number_of_events : scalar)
    freq_of_updown_sideways_plus_minus :=
      ((1.0 : scalar) * (sdata.number_of_updown_sideways_plus_minus : scalar))
        / (sdata.number_of_events : scalar)
    freq_of_updown_sideways_minus_plus :=
      ((1.0 : scalar) * (sdata.number_of_updown_sideways_minus_plus : scalar))
        / (sdata.number_of_events : scalar)
    freq_of_updown_sideways_minus_minus :=
      ((1.0 : scalar) * (sdata.number_of_updown_sideways_minus_minus : scalar))
        / (sdata.number_of_events : scalar)
    freq_of_sideways_updown_plus_plus :=
      ((1.0 : scalar) * (sdata.number_of_sideways_updown_plus_plus : scalar))
        / (sdata.number_of_events : scalar)
    freq_of_sideways_updown_plus_minus :=
      ((1.0 : scalar) * (sdata.number_of_sideways_updown_plus_minus : scalar))
        / (sdata.number_of_events : scalar)
    freq_of_sideways_updown_minus_plus :=
      ((1.0 : scalar) * (sdata.number_of_sideways_updown_minus_plus : scalar))
        / (sdata.number_of_events : scalar)
    freq_of_sideways_updown_minus_minus :=
      ((1.0 : scalar) * (sdata.number_of_sideways_updown_minus_minus : scalar))
        / (sdata.number_of_events : scalar) }

/-- Source: `double estimate_of_cos2_phi1_cos2_phi2= freq_of_updown_sideways_minus_plus+
freq_of_sideways_updown_plus_minus;` -/
def estimate_of_cos2_phi1_cos2_phi2 (f : frequencies scalar) : scalar :=
  f.freq_of_updown_sideways_minus_plus + f.freq_of_sideways_updown_plus_minus

/-- Source: `double estimate_of_cos2_phi1_sin2_phi2= freq_of_updown_sideways_minus_minus+
freq_of_sideways_updown_plus_plus;` -/
def estimate_of_cos2_phi1_sin2_phi2 (f : frequencies scalar) : scalar :=
  f.freq_of_updown_sideways_minus_minus + f.freq_of_sideways_updown_plus_plus

/-- Source: `double estimate_of_sin2_phi1_cos2_phi2= freq_of_updown_sideways_plus_plus+
freq_of_sideways_updown_minus_minus;` -/
def estimate_of_sin2_phi1_cos2_phi2 (f : frequencies scalar) : scalar :=
  f.freq_of_updown_sideways_plus_plus + f.freq_of_sideways_updown_minus_minus

/-- Source: `double estimate_of_sin2_phi1_sin2_phi2= freq_of_updown_sideways_plus_minus+
freq_of_sideways_updown_minus_plus;` -/
def estimate_of_sin2_phi1_sin2_phi2 (f : frequencies scalar) : scalar :=
  f.freq_of_updown_sideways_plus_minus + f.freq_of_sideways_updown_minus_plus

/-- Source: `double estimate_of_cos_phi1_minus_phi2= sqrt(estimate_of_cos2_phi1_cos2_phi2)+
sqrt(estimate_of_sin2_phi1_sin2_phi2);` -/
def estimate_of_cos_phi1_minus_phi2 (m : libm scalar) (f : frequencies scalar) : scalar :=
  m.sqrt (estimate_of_cos2_phi1_cos2_phi2 f) + m.sqrt (estimate_of_sin2_phi1_sin2_phi2 f)

/-- Source: `double estimate_of_sin_phi1_minus_phi2= sqrt(estimate_of_sin2_phi1_cos2_phi2)-
sqrt(estimate_of_cos2_phi1_sin2_phi2);` -/
def estimate_of_sin_phi1_minus_phi2 (m : libm scalar) (f : frequencies scalar) : scalar :=
  m.sqrt (estimate_of_sin2_phi1_cos2_phi2 f) - m.sqrt (estimate_of_cos2_phi1_sin2_phi2 f)

/-- Source: `double estimate_of_correlation_coefficient= -((estimate_of_cos_phi1_minus_phi2*
estimate_of_cos_phi1_minus_phi2)-(estimate_of_sin_phi1_minus_phi2*
estimate_of_sin_phi1_minus_phi2));` -/
def estimate_of_correlation_coefficient (m : libm scalar) (f : frequencies scalar) : scalar :=
  -((estimate_of_cos_phi1_minus_phi2 m f * estimate_of_cos_phi1_minus_phi2 m f) -
    (estimate_of_sin_phi1_minus_phi2 m f * estimate_of_sin_phi1_minus_phi2 m f))

/-- Source: `correlation_coefficient_estimate`. -/
def correlation_coefficient_estimate (m : libm scalar) (sdata : series_data scalar) : scalar :=
  estimate_of_correlation_coefficient m (frequencies_of sdata)

end Craytons

/-! ## Definitions used to state the theorems

These are not functions of the programs: they name the event models, the streams of draws
and the renamings of literals that the theorems speak about. -/

namespace EPRB

variable {scalar : Type} [LinearOrderedField scalar]

/-- The exact probabilities of the eight classes of a trial in the event model of
`collect_data`: the orientation is either one with probability `1/2`, and `assign_tag`
gives `CIRCLED_PLUS` with probability `cos² ζ` to a `COUNTERCLOCKWISE` signal and with
probability `sin² ζ` to a `CLOCKWISE` one, independently for the two signals. -/
def exact_probability (m : libm scalar) (φ1 φ2 : scalar) : signal → tag → tag → scalar
  | signal.COUNTERCLOCKWISE, tag.CIRCLED_PLUS, tag.CIRCLED_PLUS =>
    1 / 2 * m.cos φ1 ^ 2 * m.cos φ2 ^ 2
  | signal.COUNTERCLOCKWISE, tag.CIRCLED_PLUS, tag.CIRCLED_MINUS =>
    1 / 2 * m.cos φ1 ^ 2 * m.sin φ2 ^ 2
  | signal.COUNTERCLOCKWISE, tag.CIRCLED_MINUS, tag.CIRCLED_PLUS =>
    1 / 2 * m.sin φ1 ^ 2 * m.cos φ2 ^ 2
  | signal.COUNTERCLOCKWISE, tag.CIRCLED_MINUS, tag.CIRCLED_MINUS =>
    1 / 2 * m.sin φ1 ^ 2 * m.sin φ2 ^ 2
  | signal.CLOCKWISE, tag.CIRCLED_PLUS, tag.CIRCLED_PLUS =>
    1 / 2 * m.sin φ1 ^ 2 * m.sin φ2 ^ 2
  | signal.CLOCKWISE, tag.CIRCLED_PLUS, tag.CIRCLED_MINUS =>
    1 / 2 * m.sin φ1 ^ 2 * m.cos φ2 ^ 2
  | signal.CLOCKWISE, tag.CIRCLED_MINUS, tag.CIRCLED_PLUS =>
    1 / 2 * m.cos φ1 ^ 2 * m.sin φ2 ^ 2
  | signal.CLOCKWISE, tag.CIRCLED_MINUS, tag.CIRCLED_MINUS =>
    1 / 2 * m.cos φ1 ^ 2 * m.cos φ2 ^ 2

/-- The result of `estimate_ρ_from_raw_data` when `frequency` returns the values `freq`. -/
def estimate_ρ_with_frequencies (m : libm scalar) (freq : signal → tag → tag → scalar)
    (φ1 φ2 : scalar) : Option scalar :=
  estimate_ρ_body m (fun σ τ1 τ2 => some (freq σ τ1 τ2)) φ1 φ2

/-- The first `N` values returned by `N` successive calls of `random_scalar`, in order, and
the seed left by the last call; `none` when an assertion fails. -/
def random_scalars (scalar : Type) [LinearOrderedField scalar] :
    Nat → Nat → Option (List scalar × Nat)
  | 0, seed => some ([], seed)
  | N + 1, seed =>
    match random_scalar scalar seed with
    | none => none
    | some (r, seed1) =>
      match random_scalars scalar N seed1 with
      | none => none
      | some (rs, seed2) => some (r :: rs, seed2)

/-- The tagged signal that the tagging rule gives to a signal of orientation `σ` measured at
angle `ζ` when the draw is `r`: `x = cos ζ` for `COUNTERCLOCKWISE`, `x = sin ζ` otherwise, tag
`CIRCLED_PLUS` if `r < x²` and `CIRCLED_MINUS` otherwise, orientation `σ`. -/
def tagged_from_draw (m : libm scalar) (ζ : scalar) (σ : signal) (r : scalar) :
    tagged_signal :=
  { τ := if r < (if σ = signal.COUNTERCLOCKWISE then m.cos ζ else m.sin ζ) ^ 2
         then tag.CIRCLED_PLUS else tag.CIRCLED_MINUS
    σ := σ }

/-- The orientation drawn from `r`: `COUNTERCLOCKWISE` if `r < 0.5`, else `CLOCKWISE`. -/
def orientation_from_draw (r : scalar) : signal :=
  if r < 0.5 then signal.COUNTERCLOCKWISE else signal.CLOCKWISE

/-- The transposed data: the two tagged signals of every trial swapped. -/
def transpose (raw_data : List tagged_signal_pair) : List tagged_signal_pair :=
  raw_data.map fun p => { pair0 := p.pair1, pair1 := p.pair0 }

end EPRB

namespace Craytons

variable {scalar : Type} [LinearOrderedField scalar]

/-- The two outcomes of `law_of_logodaedalus` as the counters of `series_data` name them:
`plus` is `+1`, `minus` is `-1`. -/
inductive way where
  | plus
  | minus
  deriving DecidableEq, Repr

/-- The outcome as `experimental_series` classifies an `int`: `plus` when it is `+1`,
`minus` otherwise. -/
def way_of (i : Int) : way := if i = 1 then way.plus else way.minus

/-- The counter of `sdata` named by the orientation of the first crayton and the two
outcomes: `number_of_updown_sideways_..` when the first crayton is `updown`,
`number_of_sideways_updown_..` when it is `sideways`. -/
def series_data.counter (sdata : series_data scalar) : crayton → way → way → Int
  | crayton.updown, way.plus, way.plus => sdata.number_of_updown_sideways_plus_plus
  | crayton.updown, way.plus, way.minus => sdata.number_of_updown_sideways_plus_minus
  | crayton.updown, way.minus, way.plus => sdata.number_of_updown_sideways_minus_plus
  | crayton.updown, way.minus, way.minus => sdata.number_of_updown_sideways_minus_minus
  | crayton.sideways, way.plus, way.plus => sdata.number_of_sideways_updown_plus_plus
  | crayton.sideways, way.plus, way.minus => sdata.number_of_sideways_updown_plus_minus
  | crayton.sideways, way.minus, way.plus => sdata.number_of_sideways_updown_minus_plus
  | crayton.sideways, way.minus, way.minus => sdata.number_of_sideways_updown_minus_minus

/-- The sum of the eight counters of a table. -/
def series_data.total (sdata : series_data scalar) : Int :=
  sdata.number_of_updown_sideways_plus_plus + sdata.number_of_updown_sideways_plus_minus
    + sdata.number_of_updown_sideways_minus_plus + sdata.number_of_updown_sideways_minus_minus
    + sdata.number_of_sideways_updown_plus_plus + sdata.number_of_sideways_updown_plus_minus
    + sdata.number_of_sideways_updown_minus_plus + sdata.number_of_sideways_updown_minus_minus

/-- The record of the eight frequencies whose value for the class named by the orientation
of the first crayton and the two outcomes is given by `p`. -/
def frequencies.of_classes (p : crayton → way → way → scalar) : frequencies scalar :=
  { freq_of_updown_sideways_plus_plus := p crayton.updown way.plus way.plus
    freq_of_updown_sideways_plus_minus := p crayton.updown way.plus way.minus
    freq_of_updown_sideways_minus_plus := p crayton.updown way.minus way.plus
    freq_of_updown_sideways_minus_minus := p crayton.updown way.minus way.minus
    freq_of_sideways_updown_plus_plus := p crayton.sideways way.plus way.plus
    freq_of_sideways_updown_plus_minus := p crayton.sideways way.plus way.minus
    freq_of_sideways_updown_minus_plus := p crayton.sideways way.minus way.plus
    freq_of_sideways_updown_minus_minus := p crayton.sideways way.minus way.minus }

/-- The orientation of the second crayton of a pair whose first crayton is `k`, as
`crayton_source` makes pairs. -/
def complementary : crayton → crayton
  | crayton.updown => crayton.sideways
  | crayton.sideways => crayton.updown

/-- The probability that a crayton of orientation `k` measured at `angle` gets the outcome
`w`: it is tagged `+1` with probability `sin² angle` when sent `updown` and `cos² angle`
when sent `sideways`, and `-1` with the complementary probability. -/
def probability_of_way (m : libm scalar) (angle : scalar) (k : crayton) : way → scalar
  | way.plus => (if k = crayton.updown then m.sin angle else m.cos angle) ^ 2
  | way.minus => 1 - (if k = crayton.updown then m.sin angle else m.cos angle) ^ 2

/-- The exact probabilities of the eight classes of an event in the event model: the first
crayton is `updown` or `sideways` with probability `1/2` each, the second crayton has the
complementary orientation, and the two outcomes are independent given the orientation. -/
def exact_probability (m : libm scalar) (angle1 angle2 : scalar) (k1 : crayton)
    (w1 w2 : way) : scalar :=
  1 / 2 * probability_of_way m angle1 k1 w1 * probability_of_way m angle2 (complementary k1) w2

/-- The events of `n` successive calls of `experimental_event`, in order, and the generator
state left by the last call. -/
def experimental_events (m : libm scalar) (angle1 angle2 : scalar) :
    Nat → Int → List event_data × Int
  | 0, a_global_variable => ([], a_global_variable)
  | n + 1, a_global_variable =>
    let ev := experimental_event m angle1 angle2 a_global_variable
    let rest := experimental_events m angle1 angle2 n ev.2
    (ev.1 :: rest.1, rest.2)

end Craytons

/-- The renaming of literals `o`, `t1`, `t2` (orientations, outcomes of the first signal,
outcomes of the second signal) carries the pairing of `correlation_coefficient_estimate`
onto the pairing of `estimate_ρ_from_raw_data`: whatever the frequencies `g` of the eight
classes of the latter, each of its four terms is the term of the same name of the former,
computed on the frequencies of the renamed classes. -/
def same_pairing (scalar : Type) [LinearOrderedField scalar]
    (o : Craytons.crayton → EPRB.signal) (t1 t2 : Craytons.way → EPRB.tag) : Prop :=
  ∀ g : EPRB.signal → EPRB.tag → EPRB.tag → scalar,
    (EPRB.gather_frequencies (fun σ τ1 τ2 => some (g σ τ1 τ2))).map EPRB.c2c2
      = some (Craytons.estimate_of_cos2_phi1_cos2_phi2
          (Craytons.frequencies.of_classes fun k w1 w2 => g (o k) (t1 w1) (t2 w2)))
    ∧ (EPRB.gather_frequencies (fun σ τ1 τ2 => some (g σ τ1 τ2))).map EPRB.c2s2
      = some (Craytons.estimate_of_cos2_phi1_sin2_phi2
          (Craytons.frequencies.of_classes fun k w1 w2 => g (o k) (t1 w1) (t2 w2)))
    ∧ (EPRB.gather_frequencies (fun σ τ1 τ2 => some (g σ τ1 τ2))).map EPRB.s2c2
      = some (Craytons.estimate_of_sin2_phi1_cos2_phi2
          (Craytons.frequencies.of_classes fun k w1 w2 => g (o k) (t1 w1) (t2 w2)))
    ∧ (EPRB.gather_frequencies (fun σ τ1 τ2 => some (g σ τ1 τ2))).map EPRB.s2s2
      = some (Craytons.estimate_of_sin2_phi1_sin2_phi2
          (Craytons.frequencies.of_classes fun k w1 w2 => g (o k) (t1 w1) (t2 w2)))

/-- The renaming of orientations: `updown` to `COUNTERCLOCKWISE`, `sideways` to
`CLOCKWISE`. -/
def orientation_renaming : Craytons.crayton → EPRB.signal
  | Craytons.crayton.updown => EPRB.signal.COUNTERCLOCKWISE
  | Craytons.crayton.sideways => EPRB.signal.CLOCKWISE

/-- The renaming of outcomes that keeps the sign: `+1` to `CIRCLED_PLUS`, `-1` to
`CIRCLED_MINUS`. -/
def tag_renaming : Craytons.way → EPRB.tag
  | Craytons.way.plus => EPRB.tag.CIRCLED_PLUS
  | Craytons.way.minus => EPRB.tag.CIRCLED_MINUS

/-- The renaming of outcomes that flips the sign: `+1` to `CIRCLED_MINUS`, `-1` to
`CIRCLED_PLUS`. -/
def tag_renaming_flipped : Craytons.way → EPRB.tag
  | Craytons.way.plus => EPRB.tag.CIRCLED_MINUS
  | Craytons.way.minus => EPRB.tag.CIRCLED_PLUS

namespace Craytons

/-- The numbers returned by `N` successive calls of `number_between_zero_and_one`, in order,
and the generator state left by the last call. -/
def numbers_between_zero_and_one (scalar : Type) [LinearOrderedField scalar] :
    Nat → Int → List scalar × Int
  | 0, a_global_variable => ([], a_global_variable)
  | N + 1, a_global_variable =>
    let r := number_between_zero_and_one scalar a_global_variable
    let rest := numbers_between_zero_and_one scalar N r.2
    (r.1 :: rest.1, rest.2)

/-- The table of a series of two events at the angles `angle1` and `angle2`, one of class
`(updown, -1, +1)` and one of class `(updown, +1, -1)`. -/
def two_opposite_events_table {scalar : Type} (angle1 angle2 : scalar) :
    series_data scalar :=
  { angle1 := angle1
    angle2 := angle2
    number_of_events := 2
    number_of_updown_sideways_plus_plus := 0
    number_of_updown_sideways_plus_minus := 1
    number_of_updown_sideways_minus_plus := 1
    number_of_updown_sideways_minus_minus := 0
    number_of_sideways_updown_plus_plus := 0
    number_of_sideways_updown_plus_minus := 0
    number_of_sideways_updown_minus_plus := 0
    number_of_sideways_updown_minus_minus := 0 }

/-- The table of a series of one event at the angles `angle1` and `angle2`, of class
`(updown, +1, +1)`. -/
def one_event_table {scalar : Type} (angle1 angle2 : scalar) : series_data scalar :=
  { angle1 := angle1
    angle2 := angle2
    number_of_events := 1
    number_of_updown_sideways_plus_plus := 1
    number_of_updown_sideways_plus_minus := 0
    number_of_updown_sideways_minus_plus := 0
    number_of_updown_sideways_minus_minus := 0
    number_of_sideways_updown_plus_plus := 0
    number_of_sideways_updown_plus_minus := 0
    number_of_sideways_updown_minus_plus := 0
    number_of_sideways_updown_minus_minus := 0 }

end Craytons

namespace EPRB

/-- Source: the update `seed = (LCG_A * seed) + LCG_C;` of `random_scalar`, in `uint64_t`
arithmetic: the seed after one call as a function of the seed before it. -/
def next_seed (seed : Nat) : Nat := ((LCG_A * seed) + LCG_C) % 2 ^ 64

/-- The number of trials of `raw_data` in the class `(σ, τ1, τ2)`: orientation `σ` and tags
`τ1`, `τ2` of the first and of the second signal. -/
def trials_in_class (raw_data : List tagged_signal_pair) (σ : signal) (τ1 τ2 : tag) : Nat :=
  raw_data.countP fun p => decide (p.pair0.σ = σ ∧ p.pair0.τ = τ1 ∧ p.pair1.τ = τ2)

/-- A trial whose two signals carry different orientations. -/
def mixed_trial : tagged_signal_pair :=
  { pair0 := { τ := tag.CIRCLED_PLUS, σ := signal.COUNTERCLOCKWISE }
    pair1 := { τ := tag.CIRCLED_PLUS, σ := signal.CLOCKWISE } }

end EPRB

namespace Craytons

/-- A degenerate table with `number_of_events = 1` whose counters have been set by hand so
that the combined term for `cos²φ1·cos²φ2` is `-1`: the counter of `(updown, -1, +1)` is
`-1`, those of `(updown, +1, +1)` and `(updown, +1, -1)` are `1`, the others `0`. -/
def degenerate_table (scalar : Type) [LinearOrderedField scalar] : series_data scalar :=
  { angle1 := 0
    angle2 := 0
    number_of_events := 1
    number_of_updown_sideways_plus_plus := 1
    number_of_updown_sideways_plus_minus := 1
    number_of_updown_sideways_minus_plus := -1
    number_of_updown_sideways_minus_minus := 0
    number_of_sideways_updown_plus_plus := 0
    number_of_sideways_updown_plus_minus := 0
    number_of_sideways_updown_minus_plus := 0
    number_of_sideways_updown_minus_minus := 0 }

end Craytons

/-! ## The arithmetic of `double`

The estimator functions once more, over the numbers the compiled programs compute with: the
IEEE 754 binary64 format, in which each operation and `sqrt` return the exact result
rounded once, to nearest, ties to even (no fused multiply-add, no intermediate result kept
in a wider format), with subnormal numbers, overflow to an infinity, and NaN. -/

/-- A value of the C type `double`, an IEEE 754 binary64 number: a finite number, given by
its value; plus or minus infinity; or a NaN.  The sign of a zero and the payload of a NaN
are not represented. -/
inductive double where
  | finite (value : ℚ)
  | infinity (positive : Bool)
  | nan
  deriving DecidableEq

/-- The integer nearest to `x`, the even one of the two when `x` is half-way between two
integers. -/
def round_half_even (x : ℚ) : Int :=
  if x - ⌊x⌋ < 1 / 2 then ⌊x⌋
  else if 1 / 2 < x - ⌊x⌋ then ⌊x⌋ + 1
  else if ⌊x⌋ % 2 = 0 then ⌊x⌋ else ⌊x⌋ + 1

/-- The exponent `e` of the `double` format at `q`: the `double`s around `q` are the
multiples of `2 ^ (e - 52)`.  It is the integer `e` with `2 ^ e ≤ |q| < 2 ^ (e + 1)` for a
`q` in the normal range and `-1022`, the exponent of the subnormal numbers, below it. -/
def double_exponent (q : ℚ) : Int := max (Int.log 2 |q|) (-1022)

/-- Rounding to nearest, ties to even, in the `double` format, the range of the exponent
left unbounded above: the multiple of `2 ^ (double_exponent q - 52)` nearest to `q`. -/
def round_double (q : ℚ) : ℚ :=
  if q = 0 then 0
  else (round_half_even (q / 2 ^ (double_exponent q - 52)) : ℚ) * 2 ^ (double_exponent q - 52)

/-- The `double` that an operation returns whose exact result is `q`: the rounded `q`, or an
infinity of the sign of `q` when the rounded magnitude reaches `2 ^ 1024` (overflow). -/
def double.of_rat (q : ℚ) : double :=
  if 2 ^ 1024 ≤ |round_double q| then double.infinity (decide (0 < q))
  else double.finite (round_double q)

/-- The conversion of an integer to `double`. -/
def double.of_int (k : Int) : double := double.of_rat (k : ℚ)

/-- The negation `-x` of `double`. -/
def double.neg : double → double
  | double.finite a => double.finite (-a)
  | double.infinity s => double.infinity (!s)
  | double.nan => double.nan

/-- The addition `x + y` of `double`. -/
def double.add : double → double → double
  | double.finite a, double.finite b => double.of_rat (a + b)
  | double.finite _, double.infinity s => double.infinity s
  | double.infinity s, double.finite _ => double.infinity s
  | double.infinity s, double.infinity t => if s = t then double.infinity s else double.nan
  | double.nan, _ => double.nan
  | _, double.nan => double.nan

/-- The subtraction `x - y` of `double`. -/
def double.sub (x y : double) : double := double.add x (double.neg y)

/-- The multiplication `x * y` of `double`. -/
def double.mul : double → double → double
  | double.finite a, double.finite b => double.of_rat (a * b)
  | double.finite a, double.infinity s =>
    if a = 0 then double.nan else double.infinity (decide (0 < a) == s)
  | double.infinity s, double.finite b =>
    if b = 0 then double.nan else double.infinity (s == decide (0 < b))
  | double.infinity s, double.infinity t => double.infinity (s == t)
  | double.nan, _ => double.nan
  | _, double.nan => double.nan

/-- The division `x / y` of `double`.  A zero divisor is taken to be `+0`, which is what
the conversion of the integer `0` gives: the two programs divide by converted integers
only. -/
def double.div : double → double → double
  | double.finite a, double.finite b =>
    if b = 0 then (if a = 0 then double.nan else double.infinity (decide (0 < a)))
    else double.of_rat (a / b)
  | double.finite _, double.infinity _ => double.finite 0
  | double.infinity s, double.finite b => double.infinity (s == decide (0 ≤ b))
  | double.infinity _, double.infinity _ => double.nan
  | double.nan, _ => double.nan
  | _, double.nan => double.nan

/-- The square root of a positive number rounded to nearest, ties to even, to 53
significant bits; `0` for other numbers.  With `s` such that `2 ^ 104 ≤ q * 4 ^ s < 2 ^ 106`
the result is `M1 / 2 ^ s` for the integer `M1` nearest to the square root of `q * 4 ^ s`:
`M` is the integer part of that root, and `M1` is `M` or `M + 1` as `q * 4 ^ s` is below
or above `(M + 1/2) ^ 2`. -/
def sqrt_double (q : ℚ) : ℚ :=
  if q ≤ 0 then 0
  else
    let s : Int := 52 - Int.log 2 q / 2
    let X : ℚ := q * 4 ^ s
    let M : Nat := Nat.sqrt ⌊X⌋₊
    let M1 : Nat :=
      if 4 * X < ((2 * M + 1 : Nat) : ℚ) ^ 2 then M
      else if ((2 * M + 1 : Nat) : ℚ) ^ 2 < 4 * X then M + 1
      else if M % 2 = 0 then M else M + 1
    (M1 : ℚ) / 2 ^ s

/-- The function `sqrt` of `<math.h>` on `double`: the correctly rounded square root, a NaN
for a negative number. -/
def double.sqrt : double → double
  | double.finite a => if a < 0 then double.nan else double.finite (sqrt_double a)
  | double.infinity s => if s then double.infinity true else double.nan
  | double.nan => double.nan

instance : Neg double := ⟨double.neg⟩

instance : Add double := ⟨double.add⟩

instance : Sub double := ⟨double.sub⟩

instance : Mul double := ⟨double.mul⟩

instance : Div double := ⟨double.div⟩

namespace Craytons

/-- Source: the eight definitions `double freq_of_... = (1.0*sdata.number_of_...)/
sdata.number_of_events;` of `correlation_coefficient_estimate`, in the arithmetic of
`double`: each counter and `number_of_events` are converted from `int`. -/
def frequencies_of_double {scalar : Type} (sdata : series_data scalar) : frequencies double :=
  { freq_of_updown_sideways_plus_plus :=
      (double.of_rat 1.0 * double.of_int sdata.number_of_updown_sideways_plus_plus)
        / double.of_int sdata.number_of_events
    freq_of_updown_sideways_plus_minus :=
      (double.of_rat 1.0 * double.of_int sdata.number_of_updown_sideways_plus_minus)
        / double.of_int sdata.number_of_events
    freq_of_updown_sideways_minus_plus :=
      (double.of_rat 1.0 * double.of_int sdata.number_of_updown_sideways_minus_plus)
        / double.of_int sdata.number_of_events
    freq_of_updown_sideways_minus_minus :=
      (double.of_rat 1.0 * double.of_int sdata.number_of_updown_sideways_minus_minus)
        / double.of_int sdata.number_of_events
    freq_of_sideways_updown_plus_plus :=
      (double.of_rat 1.0 * double.of_int sdata.number_of_sideways_updown_plus_plus)
        / double.of_int sdata.number_of_events
    freq_of_sideways_updown_plus_minus :=
      (double.of_rat 1.0 * double.of_int sdata.number_of_sideways_updown_plus_minus)
        / double.of_int sdata.number_of_events
    freq_of_sideways_updown_minus_plus :=
      (double.of_rat 1.0 * double.of_int sdata.number_of_sideways_updown_minus_plus)
        / double.of_int sdata.number_of_events
    freq_of_sideways_updown_minus_minus :=
      (double.of_rat 1.0 * double.of_int sdata.number_of_sideways_updown_minus_minus)
        / double.of_int sdata.number_of_events }

/-- Source: `double estimate_of_cos2_phi1_cos2_phi2= freq_of_updown_sideways_minus_plus+
freq_of_sideways_updown_plus_minus;` in the arithmetic of `double`. -/
def estimate_of_cos2_phi1_cos2_phi2_double (f : frequencies double) : double :=
  f.freq_of_updown_sideways_minus_plus + f.freq_of_sideways_updown_plus_minus

/-- Source: `double estimate_of_cos2_phi1_sin2_phi2= freq_of_updown_sideways_minus_minus+
freq_of_sideways_updown_plus_plus;` in the arithmetic of `double`. -/
def estimate_of_cos2_phi1_sin2_phi2_double (f : frequencies double) : double :=
  f.freq_of_updown_sideways_minus_minus + f.freq_of_sideways_updown_plus_plus

/-- Source: `double estimate_of_sin2_phi1_cos2_phi2= freq_of_updown_sideways_plus_plus+
freq_of_sideways_updown_minus_minus;` in the arithmetic of `double`. -/
def estimate_of_sin2_phi1_cos2_phi2_double (f : frequencies double) : double :=
  f.freq_of_updown_sideways_plus_plus + f.freq_of_sideways_updown_minus_minus

/-- Source: `double estimate_of_sin2_phi1_sin2_phi2= freq_of_updown_sideways_plus_minus+
freq_of_sideways_updown_minus_plus;` in the arithmetic of `double`. -/
def estimate_of_sin2_phi1_sin2_phi2_double (f : frequencies double) : double :=
  f.freq_of_updown_sideways_plus_minus + f.freq_of_sideways_updown_minus_plus

/-- Source: `double estimate_of_cos_phi1_minus_phi2= sqrt(estimate_of_cos2_phi1_cos2_phi2)+
sqrt(estimate_of_sin2_phi1_sin2_phi2);` in the arithmetic of `double`. -/
def estimate_of_cos_phi1_minus_phi2_double (f : frequencies double) : double :=
  double.sqrt (estimate_of_cos2_phi1_cos2_phi2_double f)
    + double.sqrt (estimate_of_sin2_phi1_sin2_phi2_double f)

/-- Source: `double estimate_of_sin_phi1_minus_phi2= sqrt(estimate_of_sin2_phi1_cos2_phi2)-
sqrt(estimate_of_cos2_phi1_sin2_phi2);` in the arithmetic of `double`. -/
def estimate_of_sin_phi1_minus_phi2_double (f : frequencies double) : double :=
  double.sqrt (estimate_of_sin2_phi1_cos2_phi2_double f)
    - double.sqrt (estimate_of_cos2_phi1_sin2_phi2_double f)

/-- Source: `double estimate_of_correlation_coefficient= -((estimate_of_cos_phi1_minus_phi2*
estimate_of_cos_phi1_minus_phi2)-(estimate_of_sin_phi1_minus_phi2*
estimate_of_sin_phi1_minus_phi2));` in the arithmetic of `double`. -/
def estimate_of_correlation_coefficient_double (f : frequencies double) : double :=
  -((estimate_of_cos_phi1_minus_phi2_double f * estimate_of_cos_phi1_minus_phi2_double f) -
    (estimate_of_sin_phi1_minus_phi2_double f * estimate_of_sin_phi1_minus_phi2_double f))

/-- Source: `correlation_coefficient_estimate`, in the arithmetic of `double`. -/
def correlation_coefficient_estimate_double {scalar : Type} (sdata : series_data scalar) :
    double :=
  estimate_of_correlation_coefficient_double (frequencies_of_double sdata)

/-- A table of six events: four of class `(updown, -1, +1)`, one of class `(updown, -1, -1)`
and one of class `(updown, +1, -1)`. -/
def six_events_table {scalar : Type} (angle1 angle2 : scalar) : series_data scalar :=
  { angle1 := angle1
    angle2 := angle2
    number_of_events := 6
    number_of_updown_sideways_plus_plus := 0
    number_of_updown_sideways_plus_minus := 1
    number_of_updown_sideways_minus_plus := 4
    number_of_updown_sideways_minus_minus := 1
    number_of_sideways_updown_plus_plus := 0
    number_of_sideways_updown_plus_minus := 0
    number_of_sideways_updown_minus_plus := 0
    number_of_sideways_updown_minus_minus := 0 }

end Craytons

namespace EPRB

/-- Source: `frequency`, in the arithmetic of `double`: the count, a `size_t`, and
`RUN_LENGTH`, an `int`, are converted to `double` and divided. -/
def frequency_double (raw_data : List tagged_signal_pair) (σ : signal) (τ1 τ2 : tag) :
    Option double :=
  match count raw_data σ τ1 τ2 with
  | none => none
  | some n => some (double.of_int (n : Int) / double.of_int (RUN_LENGTH : Int))

/-- An array of `RUN_LENGTH` trials: 600000 of the class `(COUNTERCLOCKWISE, CIRCLED_PLUS,
CIRCLED_MINUS)`, then 300000 of the class `(COUNTERCLOCKWISE, CIRCLED_PLUS, CIRCLED_PLUS)`,
then 100000 of the class `(CLOCKWISE, CIRCLED_PLUS, CIRCLED_PLUS)`. -/
def uneven_array : List tagged_signal_pair :=
  List.replicate 600000
      { pair0 := { τ := tag.CIRCLED_PLUS, σ := signal.COUNTERCLOCKWISE }
        pair1 := { τ := tag.CIRCLED_MINUS, σ := signal.COUNTERCLOCKWISE } }
    ++ List.replicate 300000
      { pair0 := { τ := tag.CIRCLED_PLUS, σ := signal.COUNTERCLOCKWISE }
        pair1 := { τ := tag.CIRCLED_PLUS, σ := signal.COUNTERCLOCKWISE } }
    ++ List.replicate 100000
      { pair0 := { τ := tag.CIRCLED_PLUS, σ := signal.CLOCKWISE }
        pair1 := { τ := tag.CIRCLED_PLUS, σ := signal.CLOCKWISE } }

end EPRB

/-! ## Theorems -/

section RealLemmas

open Real

theorem sqrt_sq_mul_sq (a b : ℝ) : √(a ^ 2 * b ^ 2) = |a| * |b| := by
  rw [← mul_pow, Real.sqrt_sq_eq_abs, abs_mul]

theorem neg_one_mul_abs_of_neg {x : ℝ} (h : x < 0) : -1 * |x| = x := by
  rw [abs_of_neg h]; ring

end RealLemmas

namespace EPRB

open Real

theorem cosine_sign_mul_abs (φ : ℝ) :
    cosine_sign (libm.mk Real.cos Real.sin Real.sqrt) φ * |Real.cos φ| = Real.cos φ := by
  unfold cosine_sign
  split_ifs with h
  · exact neg_one_mul_abs_of_neg h
  · rw [abs_of_nonneg (not_lt.mp h)]; ring

theorem sine_sign_mul_abs (φ : ℝ) :
    sine_sign (libm.mk Real.cos Real.sin Real.sqrt) φ * |Real.sin φ| = Real.sin φ := by
  unfold sine_sign
  split_ifs with h
  · exact neg_one_mul_abs_of_neg h
  · rw [abs_of_nonneg (not_lt.mp h)]; ring

theorem c12_exact (φ1 φ2 : ℝ) (f : frequencies ℝ)
    (h1 : c2c2 f = Real.cos φ1 ^ 2 * Real.cos φ2 ^ 2)
    (h4 : s2s2 f = Real.sin φ1 ^ 2 * Real.sin φ2 ^ 2) :
    c12 (libm.mk Real.cos Real.sin Real.sqrt) f φ1 φ2 = Real.cos (φ1 - φ2) := by
  have hc1 := cosine_sign_mul_abs φ1
  have hc2 := cosine_sign_mul_abs φ2
  have hs1 := sine_sign_mul_abs φ1
  have hs2 := sine_sign_mul_abs φ2
  simp only [c12, cc, ss, cc_sign, ss_sign, h1, h4, sqrt_sq_mul_sq, Real.cos_sub]
  linear_combination
    (cosine_sign (libm.mk Real.cos Real.sin Real.sqrt) φ2 * |Real.cos φ2|) * hc1
      + Real.cos φ1 * hc2
      + (sine_sign (libm.mk Real.cos Real.sin Real.sqrt) φ2 * |Real.sin φ2|) * hs1
      + Real.sin φ1 * hs2

theorem s12_exact (φ1 φ2 : ℝ) (f : frequencies ℝ)
    (h2 : c2s2 f = Real.cos φ1 ^ 2 * Real.sin φ2 ^ 2)
    (h3 : s2c2 f = Real.sin φ1 ^ 2 * Real.cos φ2 ^ 2) :
    s12 (libm.mk Real.cos Real.sin Real.sqrt) f φ1 φ2 = Real.sin (φ1 - φ2) := by
  have hc1 := cosine_sign_mul_abs φ1
  have hc2 := cosine_sign_mul_abs φ2
  have hs1 := sine_sign_mul_abs φ1
  have hs2 := sine_sign_mul_abs φ2
  simp only [s12, sc, cs, sc_sign, cs_sign, h2, h3, sqrt_sq_mul_sq, Real.sin_sub]
  linear_combination
    (cosine_sign (libm.mk Real.cos Real.sin Real.sqrt) φ2 * |Real.cos φ2|) * hs1
      + Real.sin φ1 * hc2
      - (sine_sign (libm.mk Real.cos Real.sin Real.sqrt) φ2 * |Real.sin φ2|) * hc1
      - Real.cos φ1 * hs2

theorem estimate_ρ_exact_value (φ1 φ2 : ℝ) :
    estimate_ρ_with_frequencies (libm.mk Real.cos Real.sin Real.sqrt)
        (exact_probability (libm.mk Real.cos Real.sin Real.sqrt) φ1 φ2) φ1 φ2
      = some (Real.cos (φ1 - φ2) ^ 2 - Real.sin (φ1 - φ2) ^ 2) := by
  simp only [estimate_ρ_with_frequencies, estimate_ρ_body, gather_frequencies,
    exact_probability, estimate_ρ_from_frequencies]
  rw [c12_exact φ1 φ2 _ (by simp only [c2c2]; ring) (by simp only [s2s2]; ring),
    s12_exact φ1 φ2 _ (by simp only [c2s2]; ring) (by simp only [s2c2]; ring)]
  congr 1
  ring

theorem estimate_ρ_exact_cos_two_mul (φ1 φ2 : ℝ) :
    estimate_ρ_with_frequencies (libm.mk Real.cos Real.sin Real.sqrt)
        (exact_probability (libm.mk Real.cos Real.sin Real.sqrt) φ1 φ2) φ1 φ2
      = some (Real.cos (2 * (φ1 - φ2))) := by
  rw [estimate_ρ_exact_value, Real.cos_two_mul']

/-- C1 (as amended): fed with the exact probabilities of its event model, the arithmetic of
`estimate_ρ_from_raw_data` returns `cos(φ1-φ2)² - sin(φ1-φ2)²`, which is `cos(2(φ1-φ2))`,
with no negation; at `φ1 = 0`, `φ2 = π/8` this is `cos(π/4) = √2/2`. -/
theorem estimate_ρ_exact_probabilities (φ1 φ2 : ℝ) :
    estimate_ρ_with_frequencies (libm.mk Real.cos Real.sin Real.sqrt)
        (exact_probability (libm.mk Real.cos Real.sin Real.sqrt) φ1 φ2) φ1 φ2
      = some (Real.cos (φ1 - φ2) ^ 2 - Real.sin (φ1 - φ2) ^ 2)
    ∧ Real.cos (φ1 - φ2) ^ 2 - Real.sin (φ1 - φ2) ^ 2 = Real.cos (2 * (φ1 - φ2))
    ∧ estimate_ρ_with_frequencies (libm.mk Real.cos Real.sin Real.sqrt)
        (exact_probability (libm.mk Real.cos Real.sin Real.sqrt) 0 (π / 8)) 0 (π / 8)
      = some (√2 / 2) := by
  refine ⟨estimate_ρ_exact_value φ1 φ2, (Real.cos_two_mul' _).symm, ?_⟩
  rw [estimate_ρ_exact_cos_two_mul, show 2 * (0 - π / 8) = -(π / 4) by ring, Real.cos_neg,
    Real.cos_pi_div_four]

/-- C1 (counterexample): at `φ1 = 0`, `φ2 = π/8` the value returned on the exact
probabilities is not `-cos(2(φ1-φ2)) = -cos(π/4)`. -/
theorem estimate_ρ_exact_probabilities_not_neg_cos :
    estimate_ρ_with_frequencies (libm.mk Real.cos Real.sin Real.sqrt)
        (exact_probability (libm.mk Real.cos Real.sin Real.sqrt) 0 (π / 8)) 0 (π / 8)
      ≠ some (-Real.cos (2 * (0 - π / 8))) := by
  rw [estimate_ρ_exact_cos_two_mul, show 2 * (0 - π / 8) = -(π / 4) by ring, Real.cos_neg,
    Real.cos_pi_div_four]
  intro h
  have h2 : (0 : ℝ) < √2 / 2 := by positivity
  have h3 := Option.some.inj h
  linarith

end EPRB

namespace Craytons
open Real

theorem exact_terms (a1 a2 : ℝ) :
    estimate_of_cos2_phi1_cos2_phi2
        (frequencies.of_classes (exact_probability (libm.mk Real.cos Real.sin Real.sqrt) a1 a2))
      = Real.cos a1 ^ 2 * Real.cos a2 ^ 2
    ∧ estimate_of_cos2_phi1_sin2_phi2
        (frequencies.of_classes (exact_probability (libm.mk Real.cos Real.sin Real.sqrt) a1 a2))
      = Real.cos a1 ^ 2 * Real.sin a2 ^ 2
    ∧ estimate_of_sin2_phi1_cos2_phi2
        (frequencies.of_classes (exact_probability (libm.mk Real.cos Real.sin Real.sqrt) a1 a2))
      = Real.sin a1 ^ 2 * Real.cos a2 ^ 2
    ∧ estimate_of_sin2_phi1_sin2_phi2
        (frequencies.of_classes (exact_probability (libm.mk Real.cos Real.sin Real.sqrt) a1 a2))
      = Real.sin a1 ^ 2 * Real.sin a2 ^ 2 := by
  have e1 : Real.sin a1 ^ 2 = 1 - Real.cos a1 ^ 2 := by
    have := Real.sin_sq_add_cos_sq a1; linarith
  have e2 : Real.sin a2 ^ 2 = 1 - Real.cos a2 ^ 2 := by
    have := Real.sin_sq_add_cos_sq a2; linarith
  simp only [estimate_of_cos2_phi1_cos2_phi2, estimate_of_cos2_phi1_sin2_phi2,
    estimate_of_sin2_phi1_cos2_phi2, estimate_of_sin2_phi1_sin2_phi2, frequencies.of_classes,
    exact_probability, probability_of_way, complementary, if_true, if_false,
    reduceCtorEq, e1, e2]
  refine ⟨?_, ?_, ?_, ?_⟩ <;> ring

theorem exact_estimate_abs (a1 a2 : ℝ) :
    estimate_of_correlation_coefficient (libm.mk Real.cos Real.sin Real.sqrt)
        (frequencies.of_classes (exact_probability (libm.mk Real.cos Real.sin Real.sqrt) a1 a2))
      = -((|Real.cos a1| * |Real.cos a2| + |Real.sin a1| * |Real.sin a2|) ^ 2
          - (|Real.sin a1| * |Real.cos a2| - |Real.cos a1| * |Real.sin a2|) ^ 2) := by
  obtain ⟨h1, h2, h3, h4⟩ := exact_terms a1 a2
  simp only [estimate_of_correlation_coefficient, estimate_of_cos_phi1_minus_phi2,
    estimate_of_sin_phi1_minus_phi2, h1, h2, h3, h4, sqrt_sq_mul_sq]
  ring

/-- C2 (as amended): for angles whose four products `cos·cos`, `cos·sin`, `sin·cos`,
`sin·sin` are non-negative (both angles in `[0, π/2]`, as in every call of `main`), the
estimator fed with the exact probabilities of the crayton event model takes square roots
that equal the four products, and returns exactly `-cos(2(angle1-angle2))`; it restores no
sign. -/
theorem correlation_coefficient_exact_probabilities (angle1 angle2 : ℝ)
    (hcc : 0 ≤ Real.cos angle1 * Real.cos angle2) (hcs : 0 ≤ Real.cos angle1 * Real.sin angle2)
    (hsc : 0 ≤ Real.sin angle1 * Real.cos angle2) (hss : 0 ≤ Real.sin angle1 * Real.sin angle2) :
    √(estimate_of_cos2_phi1_cos2_phi2 (frequencies.of_classes
        (exact_probability (libm.mk Real.cos Real.sin Real.sqrt) angle1 angle2)))
      = Real.cos angle1 * Real.cos angle2
    ∧ √(estimate_of_cos2_phi1_sin2_phi2 (frequencies.of_classes
        (exact_probability (libm.mk Real.cos Real.sin Real.sqrt) angle1 angle2)))
      = Real.cos angle1 * Real.sin angle2
    ∧ √(estimate_of_sin2_phi1_cos2_phi2 (frequencies.of_classes
        (exact_probability (libm.mk Real.cos Real.sin Real.sqrt) angle1 angle2)))
      = Real.sin angle1 * Real.cos angle2
    ∧ √(estimate_of_sin2_phi1_sin2_phi2 (frequencies.of_classes
        (exact_probability (libm.mk Real.cos Real.sin Real.sqrt) angle1 angle2)))
      = Real.sin angle1 * Real.sin angle2
    ∧ estimate_of_correlation_coefficient (libm.mk Real.cos Real.sin Real.sqrt)
        (frequencies.of_classes
          (exact_probability (libm.mk Real.cos Real.sin Real.sqrt) angle1 angle2))
      = -Real.cos (2 * (angle1 - angle2)) := by
  obtain ⟨h1, h2, h3, h4⟩ := exact_terms angle1 angle2
  have r1 : √(Real.cos angle1 ^ 2 * Real.cos angle2 ^ 2) = Real.cos angle1 * Real.cos angle2 := by
    rw [← mul_pow, Real.sqrt_sq hcc]
  have r2 : √(Real.cos angle1 ^ 2 * Real.sin angle2 ^ 2) = Real.cos angle1 * Real.sin angle2 := by
    rw [← mul_pow, Real.sqrt_sq hcs]
  have r3 : √(Real.sin angle1 ^ 2 * Real.cos angle2 ^ 2) = Real.sin angle1 * Real.cos angle2 := by
    rw [← mul_pow, Real.sqrt_sq hsc]
  have r4 : √(Real.sin angle1 ^ 2 * Real.sin angle2 ^ 2) = Real.sin angle1 * Real.sin angle2 := by
    rw [← mul_pow, Real.sqrt_sq hss]
  refine ⟨by rw [h1, r1], by rw [h2, r2], by rw [h3, r3], by rw [h4, r4], ?_⟩
  simp only [estimate_of_correlation_coefficient, estimate_of_cos_phi1_minus_phi2,
    estimate_of_sin_phi1_minus_phi2, h1, h2, h3, h4, r1, r2, r3, r4]
  rw [Real.cos_two_mul', Real.cos_sub, Real.sin_sub]
  ring

theorem cos_pi_div_eight_nonneg : 0 ≤ Real.cos (π / 8) :=
  Real.cos_nonneg_of_neg_pi_div_two_le_of_le (by linarith [Real.pi_pos])
    (by linarith [Real.pi_pos])

theorem sin_pi_div_eight_nonneg : 0 ≤ Real.sin (π / 8) :=
  Real.sin_nonneg_of_nonneg_of_le_pi (by linarith [Real.pi_pos]) (by linarith [Real.pi_pos])

/-- C2 (witness): the first series of `main`, `angle1 = 0` and `angle2 = π/8`. -/
theorem correlation_coefficient_exact_probabilities_witness :
    (0 ≤ Real.cos 0 * Real.cos (π / 8) ∧ 0 ≤ Real.cos 0 * Real.sin (π / 8)
      ∧ 0 ≤ Real.sin 0 * Real.cos (π / 8) ∧ 0 ≤ Real.sin 0 * Real.sin (π / 8))
    ∧ estimate_of_correlation_coefficient (libm.mk Real.cos Real.sin Real.sqrt)
        (frequencies.of_classes
          (exact_probability (libm.mk Real.cos Real.sin Real.sqrt) 0 (π / 8)))
      = -Real.cos (2 * (0 - π / 8)) :=
  have hcc : 0 ≤ Real.cos 0 * Real.cos (π / 8) := by
    rw [Real.cos_zero, one_mul]; exact cos_pi_div_eight_nonneg
  have hcs : 0 ≤ Real.cos 0 * Real.sin (π / 8) := by
    rw [Real.cos_zero, one_mul]; exact sin_pi_div_eight_nonneg
  have hsc : 0 ≤ Real.sin 0 * Real.cos (π / 8) := by rw [Real.sin_zero, zero_mul]
  have hss : 0 ≤ Real.sin 0 * Real.sin (π / 8) := by rw [Real.sin_zero, zero_mul]
  ⟨⟨hcc, hcs, hsc, hss⟩,
    (correlation_coefficient_exact_probabilities 0 (π / 8) hcc hcs hsc hss).2.2.2.2⟩

/-- C2 (counterexample): at `angle1 = π/4`, `angle2 = -π/4` the estimator fed with the exact
probabilities returns `-1`, not `-cos(2(angle1-angle2)) = 1`, and the square root
of its `cos²φ1·sin²φ2` term is not the negative product `cos φ1 · sin φ2`. -/
theorem correlation_coefficient_exact_probabilities_unsigned :
    estimate_of_correlation_coefficient (libm.mk Real.cos Real.sin Real.sqrt)
        (frequencies.of_classes
          (exact_probability (libm.mk Real.cos Real.sin Real.sqrt) (π / 4) (-(π / 4))))
      ≠ -Real.cos (2 * (π / 4 - -(π / 4)))
    ∧ estimate_of_correlation_coefficient (libm.mk Real.cos Real.sin Real.sqrt)
        (frequencies.of_classes
          (exact_probability (libm.mk Real.cos Real.sin Real.sqrt) (π / 4) (-(π / 4))))
      = -1
    ∧ -Real.cos (2 * (π / 4 - -(π / 4))) = 1
    ∧ √(estimate_of_cos2_phi1_sin2_phi2 (frequencies.of_classes
        (exact_probability (libm.mk Real.cos Real.sin Real.sqrt) (π / 4) (-(π / 4)))))
      ≠ Real.cos (π / 4) * Real.sin (-(π / 4)) := by
  have hx : (0 : ℝ) < √2 / 2 := by positivity
  have hxx : (√2 / 2) * (√2 / 2) = 1 / 2 := by
    have := Real.mul_self_sqrt (show (0 : ℝ) ≤ 2 by norm_num)
    linear_combination (1 / 4) * this
  have hest : estimate_of_correlation_coefficient (libm.mk Real.cos Real.sin Real.sqrt)
      (frequencies.of_classes
        (exact_probability (libm.mk Real.cos Real.sin Real.sqrt) (π / 4) (-(π / 4))))
      = -1 := by
    rw [exact_estimate_abs, Real.cos_neg, Real.sin_neg, abs_neg, Real.cos_pi_div_four,
      Real.sin_pi_div_four, abs_of_pos hx, hxx]
    norm_num
  have hcos : -Real.cos (2 * (π / 4 - -(π / 4))) = 1 := by
    rw [show 2 * (π / 4 - -(π / 4)) = π by ring, Real.cos_pi]; norm_num
  refine ⟨by rw [hest, hcos]; norm_num, hest, hcos, ?_⟩
  · intro h
    have h0 := Real.sqrt_nonneg (estimate_of_cos2_phi1_sin2_phi2 (frequencies.of_classes
        (exact_probability (libm.mk Real.cos Real.sin Real.sqrt) (π / 4) (-(π / 4)))))
    rw [h, Real.sin_neg, Real.cos_pi_div_four, Real.sin_pi_div_four] at h0
    nlinarith

end Craytons

namespace Craytons

theorem record_event_counter {scalar : Type} (sdata : series_data scalar) (edata : event_data)
    (k : crayton) (w1 w2 : way) :
    (record_event sdata edata).counter k w1 w2
      = sdata.counter k w1 w2
        + if k = edata.pair.k1 ∧ w1 = way_of edata.way_k1_was_sent
            ∧ w2 = way_of edata.way_k2_was_sent then 1 else 0 := by
  rcases edata with ⟨⟨k1, k2⟩, i1, i2⟩
  unfold record_event way_of
  cases k1 <;> cases k <;> cases w1 <;> cases w2 <;>
    by_cases h1 : i1 = 1 <;> by_cases h2 : i2 = 1 <;>
    simp [series_data.counter, h1, h2]

theorem record_event_number_of_events {scalar : Type} (sdata : series_data scalar)
    (edata : event_data) :
    (record_event sdata edata).number_of_events = sdata.number_of_events := by
  unfold record_event
  split_ifs <;> rfl

theorem total_eq_sum_counter {scalar : Type} (sdata : series_data scalar) :
    sdata.total
      = sdata.counter crayton.updown way.plus way.plus
        + sdata.counter crayton.updown way.plus way.minus
        + sdata.counter crayton.updown way.minus way.plus
        + sdata.counter crayton.updown way.minus way.minus
        + sdata.counter crayton.sideways way.plus way.plus
        + sdata.counter crayton.sideways way.plus way.minus
        + sdata.counter crayton.sideways way.minus way.plus
        + sdata.counter crayton.sideways way.minus way.minus := rfl

theorem record_event_total {scalar : Type} (sdata : series_data scalar) (edata : event_data) :
    (record_event sdata edata).total = sdata.total + 1 := by
  rcases edata with ⟨⟨k1, k2⟩, i1, i2⟩
  unfold record_event
  cases k1 <;> by_cases h1 : i1 = 1 <;> by_cases h2 : i2 = 1 <;>
    simp [series_data.total, h1, h2] <;> ring

theorem foldl_record_event_counter {scalar : Type} (es : List event_data) :
    ∀ (sdata : series_data scalar) (k : crayton) (w1 w2 : way),
      (es.foldl record_event sdata).counter k w1 w2
        = sdata.counter k w1 w2
          + (es.countP fun e => decide (k = e.pair.k1 ∧ w1 = way_of e.way_k1_was_sent
              ∧ w2 = way_of e.way_k2_was_sent) : Nat) := by
  induction es with
  | nil => intro sdata k w1 w2; simp
  | cons e es ih =>
    intro sdata k w1 w2
    rw [List.foldl_cons, ih, record_event_counter, List.countP_cons]
    by_cases h : k = e.pair.k1 ∧ w1 = way_of e.way_k1_was_sent ∧ w2 = way_of e.way_k2_was_sent
    · rw [if_pos h, if_pos (decide_eq_true h)]; push_cast; ring
    · rw [if_neg h, if_neg (by simpa using h)]; simp

theorem foldl_record_event_total {scalar : Type} (es : List event_data) :
    ∀ sdata : series_data scalar, (es.foldl record_event sdata).total = sdata.total + es.length := by
  induction es with
  | nil => intro sdata; simp
  | cons e es ih =>
    intro sdata
    rw [List.foldl_cons, ih, record_event_total, List.length_cons]
    push_cast; ring

theorem foldl_record_event_number_of_events {scalar : Type} (es : List event_data) :
    ∀ sdata : series_data scalar,
      (es.foldl record_event sdata).number_of_events = sdata.number_of_events := by
  induction es with
  | nil => intro sdata; rfl
  | cons e es ih => intro sdata; rw [List.foldl_cons, ih, record_event_number_of_events]

variable {scalar : Type} [LinearOrderedField scalar]

theorem experimental_events_length (m : libm scalar) (angle1 angle2 : scalar) (k : Nat) :
    ∀ a : Int, (experimental_events m angle1 angle2 k a).1.length = k := by
  induction k with
  | zero => intro a; rfl
  | succ k ih => intro a; simp [experimental_events, ih]

theorem experimental_series_loop_eq (m : libm scalar) (angle1 angle2 : scalar) (n : Int)
    (k : Nat) :
    ∀ (fuel : Nat) (i : Int) (sdata : series_data scalar) (a : Int),
      k < fuel → n = i + k →
      experimental_series_loop m angle1 angle2 n fuel i sdata a
        = some ((experimental_events m angle1 angle2 k a).1.foldl record_event sdata,
            (experimental_events m angle1 angle2 k a).2) := by
  induction k with
  | zero =>
    intro fuel i sdata a hf hn
    obtain ⟨fuel, rfl⟩ : ∃ f, fuel = f + 1 := ⟨fuel - 1, by omega⟩
    have : i = n := by simp at hn; exact hn.symm
    simp [experimental_series_loop, experimental_events, this]
  | succ k ih =>
    intro fuel i sdata a hf hn
    obtain ⟨fuel, rfl⟩ : ∃ f, fuel = f + 1 := ⟨fuel - 1, by omega⟩
    have hne : i ≠ n := by push_cast at hn; omega
    rw [experimental_series_loop, if_pos hne]
    simp only []
    rw [ih fuel (i + 1) _ _ (by omega) (by push_cast at hn ⊢; omega)]
    simp [experimental_events]

/-- C5: for every pair of angles, every generator state and every `n ≥ 0`, with more fuel
than `n` the series returns a table; it is the table obtained by adding, one after the
other, the events of exactly `n` calls of `experimental_event` to the zero table; adding an
event increments the counter of its class by one and leaves the seven others unchanged; so
that each counter is the number of events of its class, the eight counters are
non-negative and sum to `n`, and `number_of_events` is `n`. -/
theorem experimental_series_counts (m : libm scalar) (angle1 angle2 : scalar)
    (a_global_variable : Int) (n : Int) (fuel : Nat) (hn : 0 ≤ n) (hfuel : n < fuel) :
    ∃ sdata : series_data scalar,
      experimental_series m fuel angle1 angle2 n a_global_variable
        = some (sdata, (experimental_events m angle1 angle2 n.toNat a_global_variable).2)
      ∧ ((experimental_events m angle1 angle2 n.toNat a_global_variable).1.length : Int) = n
      ∧ sdata = (experimental_events m angle1 angle2 n.toNat a_global_variable).1.foldl
          record_event (initial_series_data angle1 angle2 n)
      ∧ (∀ (sd : series_data scalar) (edata : event_data) (k : crayton) (w1 w2 : way),
          (record_event sd edata).counter k w1 w2
            = sd.counter k w1 w2
              + if k = edata.pair.k1 ∧ w1 = way_of edata.way_k1_was_sent
                  ∧ w2 = way_of edata.way_k2_was_sent then 1 else 0)
      ∧ (∀ (k : crayton) (w1 w2 : way),
          sdata.counter k w1 w2
            = ((experimental_events m angle1 angle2 n.toNat a_global_variable).1.countP
                fun e => decide (k = e.pair.k1 ∧ w1 = way_of e.way_k1_was_sent
                  ∧ w2 = way_of e.way_k2_was_sent) : Nat))
      ∧ (∀ (k : crayton) (w1 w2 : way), 0 ≤ sdata.counter k w1 w2)
      ∧ sdata.total = n
      ∧ sdata.number_of_events = n := by
  have hcount : ∀ (k : crayton) (w1 w2 : way),
      ((experimental_events m angle1 angle2 n.toNat a_global_variable).1.foldl
          record_event (initial_series_data angle1 angle2 n)).counter k w1 w2
        = ((experimental_events m angle1 angle2 n.toNat a_global_variable).1.countP
            fun e => decide (k = e.pair.k1 ∧ w1 = way_of e.way_k1_was_sent
              ∧ w2 = way_of e.way_k2_was_sent) : Nat) := by
    intro k w1 w2
    rw [foldl_record_event_counter]
    cases k <;> cases w1 <;> cases w2 <;> simp [series_data.counter, initial_series_data]
  have hlen : ((experimental_events m angle1 angle2 n.toNat a_global_variable).1.length : Int)
      = n := by
    rw [experimental_events_length]; omega
  refine ⟨_, ?_, hlen, rfl, record_event_counter, hcount, ?_, ?_, ?_⟩
  · exact experimental_series_loop_eq m angle1 angle2 n n.toNat fuel 0 _ _ (by omega) (by omega)
  · intro k w1 w2
    rw [hcount]
    exact Int.natCast_nonneg _
  · rw [foldl_record_event_total, hlen]
    simp [series_data.total, initial_series_data]
  · rw [foldl_record_event_number_of_events]
    rfl

/-- C5 (witness): a series of two events at the angles `0` and `π/8` of `main`, from the
initial generator state `12345`. -/
theorem experimental_series_counts_witness :
    (0 : Int) ≤ 2 ∧ (2 : Int) < ((3 : Nat) : Int)
    ∧ ∃ sdata : series_data ℝ,
        (experimental_series (libm.mk Real.cos Real.sin Real.sqrt) 3 0 (Real.pi / 8) 2
          12345).map Prod.fst = some sdata
        ∧ sdata.total = 2 ∧ sdata.number_of_events = 2 := by
  refine ⟨by decide, by decide, ?_⟩
  obtain ⟨sdata, h, -, -, -, -, -, ht, hn⟩ :=
    experimental_series_counts (libm.mk Real.cos Real.sin Real.sqrt) 0 (Real.pi / 8) 12345 2 3
      (by decide) (by decide)
  exact ⟨sdata, by rw [h]; rfl, ht, hn⟩

end Craytons

namespace Craytons
variable {scalar : Type} [LinearOrderedField scalar]

/-- C3: the four joint-probability terms of `correlation_coefficient_estimate` follow the
pairing table, each counter divided by `number_of_events`; the counter named by an
orientation and two outcomes is the one `experimental_series` adds an event of that class
to. -/
theorem pairing_table (sdata : series_data scalar) :
    (∀ edata : event_data,
      (record_event sdata edata).counter edata.pair.k1 (way_of edata.way_k1_was_sent)
          (way_of edata.way_k2_was_sent)
        = sdata.counter edata.pair.k1 (way_of edata.way_k1_was_sent)
            (way_of edata.way_k2_was_sent) + 1)
    ∧ way_of 1 = way.plus ∧ way_of (-1) = way.minus
    ∧ estimate_of_cos2_phi1_cos2_phi2 (frequencies_of sdata)
      = (sdata.counter crayton.updown way.minus way.plus : scalar) / sdata.number_of_events
        + (sdata.counter crayton.sideways way.plus way.minus : scalar) / sdata.number_of_events
    ∧ estimate_of_cos2_phi1_sin2_phi2 (frequencies_of sdata)
      = (sdata.counter crayton.updown way.minus way.minus : scalar) / sdata.number_of_events
        + (sdata.counter crayton.sideways way.plus way.plus : scalar) / sdata.number_of_events
    ∧ estimate_of_sin2_phi1_cos2_phi2 (frequencies_of sdata)
      = (sdata.counter crayton.updown way.plus way.plus : scalar) / sdata.number_of_events
        + (sdata.counter crayton.sideways way.minus way.minus : scalar) / sdata.number_of_events
    ∧ estimate_of_sin2_phi1_sin2_phi2 (frequencies_of sdata)
      = (sdata.counter crayton.updown way.plus way.minus : scalar) / sdata.number_of_events
        + (sdata.counter crayton.sideways way.minus way.plus : scalar) / sdata.number_of_events := by
  have one : (1.0 : scalar) = 1 := by norm_num
  refine ⟨fun edata => ?_, by decide, by decide, ?_, ?_, ?_, ?_⟩
  · rw [record_event_counter]; simp
  all_goals
    simp only [estimate_of_cos2_phi1_cos2_phi2, estimate_of_cos2_phi1_sin2_phi2,
      estimate_of_sin2_phi1_cos2_phi2, estimate_of_sin2_phi1_sin2_phi2, frequencies_of,
      series_data.counter, one, one_mul]

end Craytons

theorem orientation_renaming_bijective : Function.Bijective orientation_renaming := by
  constructor
  · intro a b h; cases a <;> cases b <;> simp [orientation_renaming] at h ⊢
  · intro b; cases b
    · exact ⟨Craytons.crayton.updown, rfl⟩
    · exact ⟨Craytons.crayton.sideways, rfl⟩

theorem tag_renaming_bijective : Function.Bijective tag_renaming := by
  constructor
  · intro a b h; cases a <;> cases b <;> simp [tag_renaming] at h ⊢
  · intro b; cases b
    · exact ⟨Craytons.way.plus, rfl⟩
    · exact ⟨Craytons.way.minus, rfl⟩

theorem tag_renaming_flipped_bijective : Function.Bijective tag_renaming_flipped := by
  constructor
  · intro a b h; cases a <;> cases b <;> simp [tag_renaming_flipped] at h ⊢
  · intro b; cases b
    · exact ⟨Craytons.way.minus, rfl⟩
    · exact ⟨Craytons.way.plus, rfl⟩

/-- C4 (as amended): the pairing of `correlation_coefficient_estimate` is carried onto the
pairing of `estimate_ρ_from_raw_data` by a bijection of orientations and two bijections of
outcomes, one for each signal of the pair: the outcomes of the first signal are renamed with
their sign flipped, those of the second signal with their sign kept. -/
theorem pairing_carried_by_two_tag_renamings (scalar : Type) [LinearOrderedField scalar] :
    Function.Bijective orientation_renaming
    ∧ Function.Bijective tag_renaming_flipped
    ∧ Function.Bijective tag_renaming
    ∧ same_pairing scalar orientation_renaming tag_renaming_flipped tag_renaming := by
  refine ⟨orientation_renaming_bijective, tag_renaming_flipped_bijective,
    tag_renaming_bijective, fun g => ?_⟩
  simp only [EPRB.gather_frequencies, Option.map_some', EPRB.c2c2, EPRB.c2s2, EPRB.s2c2,
    EPRB.s2s2, Craytons.estimate_of_cos2_phi1_cos2_phi2,
    Craytons.estimate_of_cos2_phi1_sin2_phi2, Craytons.estimate_of_sin2_phi1_cos2_phi2,
    Craytons.estimate_of_sin2_phi1_sin2_phi2, Craytons.frequencies.of_classes,
    orientation_renaming, tag_renaming, tag_renaming_flipped]
  exact ⟨trivial, trivial, trivial, trivial⟩

/-- C4 (counterexample): no bijection of orientations together with a single bijection of
outcomes applied to both signals carries the pairing of `correlation_coefficient_estimate`
onto the pairing of `estimate_ρ_from_raw_data`. -/
theorem no_single_tag_renaming :
    ¬ ∃ (o : Craytons.crayton → EPRB.signal) (t : Craytons.way → EPRB.tag),
        Function.Bijective o ∧ Function.Bijective t ∧ same_pairing ℚ o t t := by
  rintro ⟨o, t, -, ht, h⟩
  have hne : t Craytons.way.minus ≠ t Craytons.way.plus := fun e => by
    have := ht.1 e; cases this
  have h1 := (h fun _ τ1 τ2 => if τ1 = τ2 then 1 else 0).1
  simp only [EPRB.gather_frequencies, Option.map_some', EPRB.c2c2,
    Craytons.estimate_of_cos2_phi1_cos2_phi2, Craytons.frequencies.of_classes,
    if_true, if_neg hne, if_neg (Ne.symm hne)] at h1
  have := Option.some.inj h1
  norm_num at this

namespace EPRB

variable {scalar : Type} [LinearOrderedField scalar]

theorem shiftRight_16_lt {seed : Nat} (h : seed < 2 ^ 64) : seed >>> 16 < 281474976710656 := by
  rw [Nat.shiftRight_eq_div_pow]
  omega

theorem random_scalar_eq {seed : Nat} (h : seed < 2 ^ 64) :
    random_scalar scalar seed
      = some (((seed >>> 16 : Nat) : scalar) / 281474976710656,
          ((LCG_A * seed) + LCG_C) % 2 ^ 64) := by
  have hlt := shiftRight_16_lt h
  have h0 : (0 : scalar) ≤ ((seed >>> 16 : Nat) : scalar) / 281474976710656 := by positivity
  have h1 : ((seed >>> 16 : Nat) : scalar) / 281474976710656 < 1 := by
    rw [div_lt_one (by norm_num)]
    exact_mod_cast hlt
  simp only [random_scalar]
  rw [if_pos ⟨h0, h1⟩]

/-- C6: for every 64-bit state `s`, `random_scalar` returns `(s >> 16) / 2^48`, computed from
the state before the update, and leaves the state `(0xF1357AEA2E62A9C5 · s + 1) mod 2^64`. -/
theorem random_scalar_spec (scalar : Type) [LinearOrderedField scalar] (s : Nat)
    (hs : s < 2 ^ 64) :
    random_scalar scalar s
      = some (((s / 2 ^ 16 : Nat) : scalar) / 2 ^ 48, (0xF1357AEA2E62A9C5 * s + 1) % 2 ^ 64) := by
  rw [random_scalar_eq hs, Nat.shiftRight_eq_div_pow]
  norm_num [LCG_A, LCG_C]

/-- C6 (witness): the state `2 ^ 63 + 65536`, high 48 bits `2 ^ 47 + 1`. -/
theorem random_scalar_spec_witness :
    2 ^ 63 + 65536 < 2 ^ 64
    ∧ random_scalar ℚ (2 ^ 63 + 65536)
      = some ((((2 ^ 63 + 65536) / 2 ^ 16 : Nat) : ℚ) / 2 ^ 48,
          (0xF1357AEA2E62A9C5 * (2 ^ 63 + 65536) + 1) % 2 ^ 64) :=
  ⟨by norm_num, random_scalar_spec ℚ (2 ^ 63 + 65536) (by norm_num)⟩

theorem random_scalar_next_lt (seed : Nat) : ((LCG_A * seed) + LCG_C) % 2 ^ 64 < 2 ^ 64 :=
  Nat.mod_lt _ (by norm_num)

theorem random_scalar_range (scalar : Type) [LinearOrderedField scalar] {seed : Nat}
    (h : seed < 2 ^ 64) :
    ∃ (r : scalar) (seed1 : Nat), random_scalar scalar seed = some (r, seed1)
      ∧ 0 ≤ r ∧ r < 1 ∧ seed1 < 2 ^ 64 := by
  refine ⟨_, _, random_scalar_eq h, by positivity, ?_, random_scalar_next_lt seed⟩
  rw [div_lt_one (by norm_num)]
  exact_mod_cast shiftRight_16_lt h

/-- C7: for every 64-bit seed and every number `N` of draws, the `N` successive calls of
`random_scalar` all pass the assertion, and each of the `N` values returned satisfies
`0 ≤ value < 1`. -/
theorem random_scalars_in_unit_interval (scalar : Type) [LinearOrderedField scalar]
    (N : Nat) (seed : Nat) (hseed : seed < 2 ^ 64) :
    ∃ (rs : List scalar) (seed1 : Nat),
      random_scalars scalar N seed = some (rs, seed1)
      ∧ rs.length = N ∧ (∀ r ∈ rs, 0 ≤ r ∧ r < 1) ∧ seed1 < 2 ^ 64 := by
  induction N generalizing seed with
  | zero => exact ⟨[], seed, rfl, rfl, by simp, hseed⟩
  | succ N ih =>
    obtain ⟨r, s1, hr, h0, h1, hs1⟩ := random_scalar_range scalar hseed
    obtain ⟨rs, s2, hrs, hlen, hall, hs2⟩ := ih s1 hs1
    refine ⟨r :: rs, s2, ?_, by simp [hlen], ?_, hs2⟩
    · simp only [random_scalars, hr, hrs]
    · intro x hx
      rcases List.mem_cons.mp hx with rfl | hx
      · exact ⟨h0, h1⟩
      · exact hall x hx

/-- C7 (witness): three draws from the program's initial seed `0`. -/
theorem random_scalars_in_unit_interval_witness :
    0 < 2 ^ 64
    ∧ ∃ (rs : List ℚ) (seed1 : Nat),
        random_scalars ℚ 3 0 = some (rs, seed1)
        ∧ rs.length = 3 ∧ (∀ r ∈ rs, 0 ≤ r ∧ r < 1) ∧ seed1 < 2 ^ 64 :=
  ⟨by norm_num, random_scalars_in_unit_interval ℚ 3 0 (by norm_num)⟩

theorem assign_tag_of_random_scalar (m : libm scalar) (ζ : scalar) (σ : signal) {seed : Nat}
    {r : scalar} {seed1 : Nat} (h : random_scalar scalar seed = some (r, seed1)) :
    assign_tag m ζ σ seed = some (tagged_from_draw m ζ σ r, seed1) := by
  simp only [assign_tag, h, tagged_from_draw, sq]

theorem collect_data_loop_spec (m : libm scalar) (ζ1 ζ2 : scalar) (n : Nat) :
    ∀ seed : Nat, seed < 2 ^ 64 →
      ∃ (rs : List scalar) (raw_data : List tagged_signal_pair) (seed1 : Nat),
        random_scalars scalar (3 * n) seed = some (rs, seed1)
        ∧ collect_data_loop m ζ1 ζ2 n seed = some (raw_data, seed1)
        ∧ raw_data.length = n
        ∧ (∀ i : Nat, i < n → ∃ d0 d1 d2 : scalar,
            rs[3 * i]? = some d0 ∧ rs[3 * i + 1]? = some d1 ∧ rs[3 * i + 2]? = some d2
            ∧ raw_data[i]? = some
                { pair0 := tagged_from_draw m ζ1 (orientation_from_draw d0) d1
                  pair1 := tagged_from_draw m ζ2 (orientation_from_draw d0) d2 })
        ∧ (∀ p ∈ raw_data, p.pair0.σ = p.pair1.σ) := by
  induction n with
  | zero =>
    intro seed _
    exact ⟨[], [], seed, rfl, rfl, rfl, fun i hi => absurd hi (Nat.not_lt_zero i), by simp⟩
  | succ n ih =>
    intro seed hseed
    obtain ⟨r0, s1, hr0, -, -, hs1⟩ := random_scalar_range scalar hseed
    obtain ⟨r1, s2, hr1, -, -, hs2⟩ := random_scalar_range scalar hs1
    obtain ⟨r2, s3, hr2, -, -, hs3⟩ := random_scalar_range scalar hs2
    obtain ⟨rs, raw, seed1, hrs, hraw, hlen, hidx, hσ⟩ := ih s3 hs3
    refine ⟨r0 :: r1 :: r2 :: rs,
      { pair0 := tagged_from_draw m ζ1 (orientation_from_draw r0) r1
        pair1 := tagged_from_draw m ζ2 (orientation_from_draw r0) r2 } :: raw,
      seed1, ?_, ?_, by simp [hlen], ?_, ?_⟩
    · rw [show 3 * (n + 1) = 3 * n + 1 + 1 + 1 by ring]
      simp only [random_scalars, hr0, hr1, hr2, hrs]
    · simp only [collect_data_loop, hr0, assign_tag_of_random_scalar m _ _ hr1,
        assign_tag_of_random_scalar m _ _ hr2, hraw, orientation_from_draw]
    · intro i hi
      cases i with
      | zero => exact ⟨r0, r1, r2, by simp, by simp, by simp, by simp⟩
      | succ i =>
        obtain ⟨d0, d1, d2, e0, e1, e2, e⟩ := hidx i (by omega)
        refine ⟨d0, d1, d2, ?_, ?_, ?_, ?_⟩
        · rw [show 3 * (i + 1) = 3 * i + 1 + 1 + 1 by ring]; simpa using e0
        · rw [show 3 * (i + 1) + 1 = 3 * i + 1 + 1 + 1 + 1 by ring]; simpa using e1
        · rw [show 3 * (i + 1) + 2 = 3 * i + 2 + 1 + 1 + 1 by ring]; simpa using e2
        · simpa using e
    · intro p hp
      rcases List.mem_cons.mp hp with rfl | hp
      · rfl
      · exact hσ p hp

theorem count_loop_some (σ : signal) (τ1 τ2 : tag) (raw_data : List tagged_signal_pair)
    (h : ∀ p ∈ raw_data, p.pair0.σ = p.pair1.σ) :
    ∀ n : Nat, ∃ k : Nat, count_loop σ τ1 τ2 raw_data n = some k := by
  induction raw_data with
  | nil => intro n; exact ⟨n, rfl⟩
  | cons p rest ih =>
    intro n
    rw [count_loop, if_pos (h p (List.mem_cons_self p rest))]
    exact ih (fun q hq => h q (List.mem_cons_of_mem p hq)) _

/-- C9: from every 64-bit seed, `collect_data` consumes exactly three draws per trial, in
the order orientation, tag for `ζ1`, tag for `ζ2`: with `rs` the first `3 · RUN_LENGTH`
values of the stream of `random_scalar` from the seed, `collect_data` leaves the same seed
as those draws, trial `i` has the orientation drawn from `rs[3i]` (`COUNTERCLOCKWISE` iff
`rs[3i] < 0.5`), `pair[0]` is tagged from `rs[3i+1]` with angle `ζ1`, `pair[1]` from
`rs[3i+2]` with angle `ζ2`, both with that one orientation, and the assertion of `count`
holds on the collected data. -/
theorem collect_data_draws (m : libm scalar) (ζ1 ζ2 : scalar) (seed : Nat)
    (hseed : seed < 2 ^ 64) :
    ∃ (rs : List scalar) (raw_data : List tagged_signal_pair) (seed1 : Nat),
      random_scalars scalar (3 * RUN_LENGTH) seed = some (rs, seed1)
      ∧ collect_data m ζ1 ζ2 seed = some (raw_data, seed1)
      ∧ raw_data.length = RUN_LENGTH
      ∧ (∀ i : Nat, i < RUN_LENGTH → ∃ d0 d1 d2 : scalar,
          rs[3 * i]? = some d0 ∧ rs[3 * i + 1]? = some d1 ∧ rs[3 * i + 2]? = some d2
          ∧ raw_data[i]? = some
              { pair0 := tagged_from_draw m ζ1 (orientation_from_draw d0) d1
                pair1 := tagged_from_draw m ζ2 (orientation_from_draw d0) d2 })
      ∧ (∀ p ∈ raw_data, p.pair0.σ = p.pair1.σ)
      ∧ (∀ (σ : signal) (τ1 τ2 : tag), ∃ k : Nat, count raw_data σ τ1 τ2 = some k) := by
  obtain ⟨rs, raw, seed1, hrs, hraw, hlen, hidx, hσ⟩ :=
    collect_data_loop_spec m ζ1 ζ2 RUN_LENGTH seed hseed
  exact ⟨rs, raw, seed1, hrs, hraw, hlen, hidx, hσ,
    fun σ τ1 τ2 => count_loop_some σ τ1 τ2 raw hσ 0⟩

/-- C9 (witness): the data collected at the angles `0` and `π/8` from the initial seed `0`. -/
theorem collect_data_draws_witness :
    0 < 2 ^ 64
    ∧ ∃ (rs : List ℝ) (raw_data : List tagged_signal_pair) (seed1 : Nat),
        random_scalars ℝ (3 * RUN_LENGTH) 0 = some (rs, seed1)
        ∧ collect_data (libm.mk Real.cos Real.sin Real.sqrt) 0 (Real.pi / 8) 0
            = some (raw_data, seed1)
        ∧ raw_data.length = RUN_LENGTH
        ∧ (∀ p ∈ raw_data, p.pair0.σ = p.pair1.σ) := by
  refine ⟨by norm_num, ?_⟩
  obtain ⟨rs, raw_data, seed1, h1, h2, h3, -, h5, -⟩ :=
    collect_data_draws (libm.mk Real.cos Real.sin Real.sqrt) 0 (Real.pi / 8) 0 (by norm_num)
  exact ⟨rs, raw_data, seed1, h1, h2, h3, h5⟩

end EPRB

namespace EPRB

theorem count_loop_transpose (σ : signal) (τ1 τ2 : tag) (raw_data : List tagged_signal_pair) :
    ∀ n : Nat, count_loop σ τ1 τ2 (transpose raw_data) n = count_loop σ τ2 τ1 raw_data n := by
  induction raw_data with
  | nil => intro n; rfl
  | cons p rest ih =>
    intro n
    have ih2 := fun k => ih k
    simp only [transpose] at ih2
    simp only [transpose, List.map_cons, count_loop]
    by_cases h : p.pair0.σ = p.pair1.σ
    · rw [if_pos h.symm, if_pos h, ih2]
      congr 2
      apply if_congr _ rfl rfl
      rw [h]
      tauto
    · rw [if_neg (fun e => h e.symm), if_neg h]

variable {scalar : Type} [LinearOrderedField scalar]

theorem frequency_transpose (raw_data : List tagged_signal_pair) (σ : signal) (τ1 τ2 : tag) :
    (frequency (transpose raw_data) σ τ1 τ2 : Option scalar) = frequency raw_data σ τ2 τ1 := by
  simp only [frequency, count, count_loop_transpose]

theorem estimate_ρ_body_swap (m : libm scalar) (freq : signal → tag → tag → Option scalar)
    (φ1 φ2 : scalar) :
    estimate_ρ_body m (fun σ τ1 τ2 => freq σ τ2 τ1) φ2 φ1 = estimate_ρ_body m freq φ1 φ2 := by
  simp only [estimate_ρ_body, gather_frequencies]
  rcases freq signal.COUNTERCLOCKWISE tag.CIRCLED_PLUS tag.CIRCLED_PLUS with _ | a1 <;>
  rcases freq signal.COUNTERCLOCKWISE tag.CIRCLED_PLUS tag.CIRCLED_MINUS with _ | a2 <;>
  rcases freq signal.COUNTERCLOCKWISE tag.CIRCLED_MINUS tag.CIRCLED_PLUS with _ | a3 <;>
  rcases freq signal.COUNTERCLOCKWISE tag.CIRCLED_MINUS tag.CIRCLED_MINUS with _ | a4 <;>
  rcases freq signal.CLOCKWISE tag.CIRCLED_PLUS tag.CIRCLED_PLUS with _ | a5 <;>
  rcases freq signal.CLOCKWISE tag.CIRCLED_PLUS tag.CIRCLED_MINUS with _ | a6 <;>
  rcases freq signal.CLOCKWISE tag.CIRCLED_MINUS tag.CIRCLED_PLUS with _ | a7 <;>
  rcases freq signal.CLOCKWISE tag.CIRCLED_MINUS tag.CIRCLED_MINUS with _ | a8 <;>
  try rfl
  simp only [estimate_ρ_from_frequencies, c12, s12, cc, cs, sc, ss, c2c2, c2s2, s2c2, s2s2,
    cc_sign, cs_sign, sc_sign, ss_sign]
  congr 1
  ring

/-- C10: the estimate computed from the transposed data, in which the two tagged signals of
every trial are swapped so that each `count σ τ1 τ2` becomes `count σ τ2 τ1`, with the
angles swapped, is the estimate computed from the original data with the angles in their
original order. -/
theorem estimate_ρ_transpose (m : libm scalar) (raw_data : List tagged_signal_pair)
    (φ1 φ2 : scalar) :
    (∀ (σ : signal) (τ1 τ2 : tag),
      count (transpose raw_data) σ τ1 τ2 = count raw_data σ τ2 τ1)
    ∧ estimate_ρ_from_raw_data m (transpose raw_data) φ2 φ1
      = estimate_ρ_from_raw_data m raw_data φ1 φ2 := by
  refine ⟨fun σ τ1 τ2 => count_loop_transpose σ τ1 τ2 raw_data 0, ?_⟩
  simp only [estimate_ρ_from_raw_data]
  rw [← estimate_ρ_body_swap m (frequency raw_data) φ1 φ2]
  congr 1
  funext σ τ1 τ2
  exact frequency_transpose raw_data σ τ1 τ2

end EPRB

namespace Craytons

theorem number_between_zero_and_one_loop_of_le {i : Int} (h : i ≤ 65537) :
    number_between_zero_and_one_loop i = i := by
  rw [number_between_zero_and_one_loop, if_neg (by omega)]

theorem number_between_zero_and_one_loop_closed (k : Nat) :
    ∀ i : Int, 1 ≤ i → i ≤ 65537 * (k + 1) →
      number_between_zero_and_one_loop i = (i - 1) % 65537 + 1 := by
  induction k with
  | zero =>
    intro i h1 h2
    rw [number_between_zero_and_one_loop_of_le (by omega)]
    omega
  | succ k ih =>
    intro i h1 h2
    by_cases h : i ≤ 65537
    · rw [number_between_zero_and_one_loop_of_le h]; omega
    · rw [number_between_zero_and_one_loop, if_pos (by omega), ih (i - 65537) (by omega)
        (by push_cast at h2 ⊢; omega)]
      omega

theorem number_between_zero_and_one_loop_eq {i : Int} (h : 1 ≤ i) :
    number_between_zero_and_one_loop i = (i - 1) % 65537 + 1 :=
  number_between_zero_and_one_loop_closed i.toNat i h (by
    have : (i.toNat : Int) = i := Int.toNat_of_nonneg (by omega)
    rw [this]; nlinarith)

theorem state_step {s : Int} (h1 : 1 ≤ s) (h2 : s ≤ 65536) :
    number_between_zero_and_one_loop (s * 75) = (75 * s) % 65537
    ∧ 1 ≤ (75 * s) % 65537 ∧ (75 * s) % 65537 ≤ 65536 := by
  have hne : (75 * s) % 65537 ≠ 0 := by
    intro h0
    have hdvd : (65537 : Int) ∣ 75 * s := Int.dvd_of_emod_eq_zero h0
    have hcop : IsCoprime (65537 : Int) 75 := by
      rw [Int.isCoprime_iff_gcd_eq_one]; decide
    have := hcop.dvd_of_dvd_mul_left hdvd
    have := Int.le_of_dvd (by omega) this
    omega
  refine ⟨?_, by omega, by omega⟩
  rw [number_between_zero_and_one_loop_eq (by omega)]
  omega

variable {scalar : Type} [LinearOrderedField scalar]

theorem number_between_zero_and_one_eq (scalar : Type) [LinearOrderedField scalar] {s : Int}
    (h1 : 1 ≤ s) (h2 : s ≤ 65536) :
    number_between_zero_and_one scalar s
      = ((((75 * s) % 65537 : Int) : scalar) / 65537, (75 * s) % 65537) := by
  simp only [number_between_zero_and_one, (state_step h1 h2).1]
  norm_num

theorem number_between_zero_and_one_range (scalar : Type) [LinearOrderedField scalar] {s : Int}
    (h1 : 1 ≤ s) (h2 : s ≤ 65536) :
    0 < (number_between_zero_and_one scalar s).1 ∧ (number_between_zero_and_one scalar s).1 < 1
    ∧ 1 ≤ (number_between_zero_and_one scalar s).2
    ∧ (number_between_zero_and_one scalar s).2 ≤ 65536 := by
  obtain ⟨-, h3, h4⟩ := state_step h1 h2
  rw [number_between_zero_and_one_eq scalar h1 h2]
  refine ⟨?_, ?_, h3, h4⟩
  · have : (0 : scalar) < (((75 * s) % 65537 : Int) : scalar) := by exact_mod_cast h3
    positivity
  · rw [div_lt_one (by norm_num)]
    have : (((75 * s) % 65537 : Int) : scalar) ≤ ((65536 : Int) : scalar) := by
      exact_mod_cast h4
    have h5 : ((65536 : Int) : scalar) < 65537 := by norm_num
    exact lt_of_le_of_lt this h5

theorem numbers_between_zero_and_one_range (scalar : Type) [LinearOrderedField scalar]
    (N : Nat) :
    ∀ s : Int, 1 ≤ s → s ≤ 65536 →
      (∀ x ∈ (numbers_between_zero_and_one scalar N s).1, 0 < x ∧ x < 1)
      ∧ 1 ≤ (numbers_between_zero_and_one scalar N s).2
      ∧ (numbers_between_zero_and_one scalar N s).2 ≤ 65536 := by
  induction N with
  | zero => intro s h1 h2; exact ⟨by simp [numbers_between_zero_and_one], h1, h2⟩
  | succ N ih =>
    intro s h1 h2
    obtain ⟨r0, r1, s1, s2⟩ := number_between_zero_and_one_range scalar h1 h2
    obtain ⟨hall, t1, t2⟩ := ih _ s1 s2
    refine ⟨?_, t1, t2⟩
    intro x hx
    simp only [numbers_between_zero_and_one, List.mem_cons] at hx
    rcases hx with rfl | hx
    · exact ⟨r0, r1⟩
    · exact hall x hx

/-- C17: for every state `s` with `1 ≤ s ≤ 65536`, one call of
`number_between_zero_and_one` computes `75·s` within the range of `int`, leaves the state
`(75·s) mod 65537`, which is again in `[1, 65536]`, and returns that state divided by
`65537`, a number strictly between `0` and `1`; consequently, from the initial state
`12345`, after any number of calls the state is in `[1, 65536]` and every number returned
lies strictly between `0` and `1`. -/
theorem number_between_zero_and_one_spec (scalar : Type) [LinearOrderedField scalar]
    (s : Int) (h1 : 1 ≤ s) (h2 : s ≤ 65536) :
    (-2147483648 ≤ s * 75 ∧ s * 75 ≤ 2147483647)
    ∧ number_between_zero_and_one scalar s
      = ((((75 * s) % 65537 : Int) : scalar) / 65537, (75 * s) % 65537)
    ∧ (1 ≤ (75 * s) % 65537 ∧ (75 * s) % 65537 ≤ 65536)
    ∧ (0 < (number_between_zero_and_one scalar s).1
        ∧ (number_between_zero_and_one scalar s).1 < 1)
    ∧ ∀ N : Nat,
        (∀ x ∈ (numbers_between_zero_and_one scalar N 12345).1, 0 < x ∧ x < 1)
        ∧ 1 ≤ (numbers_between_zero_and_one scalar N 12345).2
        ∧ (numbers_between_zero_and_one scalar N 12345).2 ≤ 65536 := by
  obtain ⟨-, h3, h4⟩ := state_step h1 h2
  obtain ⟨r0, r1, -, -⟩ := number_between_zero_and_one_range scalar h1 h2
  exact ⟨⟨by omega, by omega⟩, number_between_zero_and_one_eq scalar h1 h2, ⟨h3, h4⟩,
    ⟨r0, r1⟩, fun N => numbers_between_zero_and_one_range scalar N 12345 (by norm_num)
      (by norm_num)⟩

/-- C17 (witness): the first call of the program, from the initial state `12345`, returns
`8357/65537` and leaves the state `8357`. -/
theorem number_between_zero_and_one_spec_witness :
    ((1 : Int) ≤ 12345 ∧ (12345 : Int) ≤ 65536)
    ∧ number_between_zero_and_one ℚ 12345 = (8357 / 65537, 8357) := by
  refine ⟨⟨by norm_num, by norm_num⟩, ?_⟩
  rw [(number_between_zero_and_one_spec ℚ 12345 (by norm_num) (by norm_num)).2.1]
  norm_num

end Craytons

namespace EPRB
open Real

/-- C18: sign recovery is exact: for every real `φ`, `cosine_sign φ · sqrt(cos² φ) = cos φ`
and `sine_sign φ · sqrt(sin² φ) = sin φ`, the sign being `+1` where the function is zero;
hence the four products of signs restore the four products of cosines and sines from the
square roots of the products of their squares, as `estimate_ρ_from_raw_data` computes `cc`,
`cs`, `sc` and `ss`. -/
theorem sign_recovery_exact (φ φ1 φ2 : ℝ) :
    cosine_sign (libm.mk Real.cos Real.sin Real.sqrt) φ * √(Real.cos φ ^ 2) = Real.cos φ
    ∧ sine_sign (libm.mk Real.cos Real.sin Real.sqrt) φ * √(Real.sin φ ^ 2) = Real.sin φ
    ∧ (Real.cos φ = 0 → cosine_sign (libm.mk Real.cos Real.sin Real.sqrt) φ = 1)
    ∧ (Real.sin φ = 0 → sine_sign (libm.mk Real.cos Real.sin Real.sqrt) φ = 1)
    ∧ cc_sign (libm.mk Real.cos Real.sin Real.sqrt) φ1 φ2
        * √(Real.cos φ1 ^ 2 * Real.cos φ2 ^ 2) = Real.cos φ1 * Real.cos φ2
    ∧ cs_sign (libm.mk Real.cos Real.sin Real.sqrt) φ1 φ2
        * √(Real.cos φ1 ^ 2 * Real.sin φ2 ^ 2) = Real.cos φ1 * Real.sin φ2
    ∧ sc_sign (libm.mk Real.cos Real.sin Real.sqrt) φ1 φ2
        * √(Real.sin φ1 ^ 2 * Real.cos φ2 ^ 2) = Real.sin φ1 * Real.cos φ2
    ∧ ss_sign (libm.mk Real.cos Real.sin Real.sqrt) φ1 φ2
        * √(Real.sin φ1 ^ 2 * Real.sin φ2 ^ 2) = Real.sin φ1 * Real.sin φ2
    ∧ (∀ f : frequencies ℝ,
        c2c2 f = Real.cos φ1 ^ 2 * Real.cos φ2 ^ 2 → c2s2 f = Real.cos φ1 ^ 2 * Real.sin φ2 ^ 2 →
        s2c2 f = Real.sin φ1 ^ 2 * Real.cos φ2 ^ 2 → s2s2 f = Real.sin φ1 ^ 2 * Real.sin φ2 ^ 2 →
        cc (libm.mk Real.cos Real.sin Real.sqrt) f φ1 φ2 = Real.cos φ1 * Real.cos φ2
        ∧ cs (libm.mk Real.cos Real.sin Real.sqrt) f φ1 φ2 = Real.cos φ1 * Real.sin φ2
        ∧ sc (libm.mk Real.cos Real.sin Real.sqrt) f φ1 φ2 = Real.sin φ1 * Real.cos φ2
        ∧ ss (libm.mk Real.cos Real.sin Real.sqrt) f φ1 φ2 = Real.sin φ1 * Real.sin φ2) := by
  have hc1 := cosine_sign_mul_abs φ1
  have hc2 := cosine_sign_mul_abs φ2
  have hs1 := sine_sign_mul_abs φ1
  have hs2 := sine_sign_mul_abs φ2
  have hcc : cc_sign (libm.mk Real.cos Real.sin Real.sqrt) φ1 φ2
      * √(Real.cos φ1 ^ 2 * Real.cos φ2 ^ 2) = Real.cos φ1 * Real.cos φ2 := by
    rw [sqrt_sq_mul_sq, cc_sign]
    linear_combination
      (cosine_sign (libm.mk Real.cos Real.sin Real.sqrt) φ2 * |Real.cos φ2|) * hc1
        + Real.cos φ1 * hc2
  have hcs : cs_sign (libm.mk Real.cos Real.sin Real.sqrt) φ1 φ2
      * √(Real.cos φ1 ^ 2 * Real.sin φ2 ^ 2) = Real.cos φ1 * Real.sin φ2 := by
    rw [sqrt_sq_mul_sq, cs_sign]
    linear_combination
      (sine_sign (libm.mk Real.cos Real.sin Real.sqrt) φ2 * |Real.sin φ2|) * hc1
        + Real.cos φ1 * hs2
  have hsc : sc_sign (libm.mk Real.cos Real.sin Real.sqrt) φ1 φ2
      * √(Real.sin φ1 ^ 2 * Real.cos φ2 ^ 2) = Real.sin φ1 * Real.cos φ2 := by
    rw [sqrt_sq_mul_sq, sc_sign]
    linear_combination
      (cosine_sign (libm.mk Real.cos Real.sin Real.sqrt) φ2 * |Real.cos φ2|) * hs1
        + Real.sin φ1 * hc2
  have hss : ss_sign (libm.mk Real.cos Real.sin Real.sqrt) φ1 φ2
      * √(Real.sin φ1 ^ 2 * Real.sin φ2 ^ 2) = Real.sin φ1 * Real.sin φ2 := by
    rw [sqrt_sq_mul_sq, ss_sign]
    linear_combination
      (sine_sign (libm.mk Real.cos Real.sin Real.sqrt) φ2 * |Real.sin φ2|) * hs1
        + Real.sin φ1 * hs2
  refine ⟨?_, ?_, ?_, ?_, hcc, hcs, hsc, hss, ?_⟩
  · rw [Real.sqrt_sq_eq_abs]; exact cosine_sign_mul_abs φ
  · rw [Real.sqrt_sq_eq_abs]; exact sine_sign_mul_abs φ
  · intro h; simp [cosine_sign, h]
  · intro h; simp [sine_sign, h]
  · intro f h1 h2 h3 h4
    simp only [cc, cs, sc, ss, h1, h2, h3, h4]
    exact ⟨hcc, hcs, hsc, hss⟩

end EPRB

namespace Craytons

theorem two_opposite_events_table_valid {scalar : Type} (angle1 angle2 : scalar) :
    (∀ (k : crayton) (w1 w2 : way), 0 ≤ (two_opposite_events_table angle1 angle2).counter k w1 w2)
    ∧ (two_opposite_events_table angle1 angle2).total
        = (two_opposite_events_table angle1 angle2).number_of_events
    ∧ 0 < (two_opposite_events_table angle1 angle2).number_of_events := by
  refine ⟨?_, by simp [two_opposite_events_table, series_data.total], by simp [two_opposite_events_table]⟩
  intro k w1 w2
  cases k <;> cases w1 <;> cases w2 <;> simp [two_opposite_events_table, series_data.counter]

theorem one_event_table_valid {scalar : Type} (angle1 angle2 : scalar) :
    (∀ (k : crayton) (w1 w2 : way), 0 ≤ (one_event_table angle1 angle2).counter k w1 w2)
    ∧ (one_event_table angle1 angle2).total = (one_event_table angle1 angle2).number_of_events
    ∧ 0 < (one_event_table angle1 angle2).number_of_events := by
  refine ⟨?_, by simp [one_event_table, series_data.total], by simp [one_event_table]⟩
  intro k w1 w2
  cases k <;> cases w1 <;> cases w2 <;> simp [one_event_table, series_data.counter]

end Craytons

namespace Craytons

theorem initial_series_data_counter {scalar : Type} (angle1 angle2 : scalar) (n : Int)
    (k : crayton) (w1 w2 : way) :
    (initial_series_data angle1 angle2 n).counter k w1 w2 = 0 := by
  cases k <;> cases w1 <;> cases w2 <;> rfl

variable {scalar : Type} [LinearOrderedField scalar]

theorem experimental_series_one (m : libm scalar) (angle1 angle2 : scalar) (a : Int)
    (fuel : Nat) :
    experimental_series m (fuel + 2) angle1 angle2 1 a
      = some (record_event (initial_series_data angle1 angle2 1)
          (experimental_event m angle1 angle2 a).1, (experimental_event m angle1 angle2 a).2) := by
  have h := experimental_series_loop_eq m angle1 angle2 1 1 (fuel + 2) 0
    (initial_series_data angle1 angle2 1) a (by omega) (by norm_num)
  simpa [experimental_series, experimental_events] using h

theorem single_event_estimate (angle1 angle2 : ℝ) (edata : event_data) :
    0 ≤ estimate_of_cos2_phi1_cos2_phi2
        (frequencies_of (record_event (initial_series_data angle1 angle2 1) edata))
    ∧ 0 ≤ estimate_of_cos2_phi1_sin2_phi2
        (frequencies_of (record_event (initial_series_data angle1 angle2 1) edata))
    ∧ 0 ≤ estimate_of_sin2_phi1_cos2_phi2
        (frequencies_of (record_event (initial_series_data angle1 angle2 1) edata))
    ∧ 0 ≤ estimate_of_sin2_phi1_sin2_phi2
        (frequencies_of (record_event (initial_series_data angle1 angle2 1) edata))
    ∧ (correlation_coefficient_estimate (libm.mk Real.cos Real.sin Real.sqrt)
          (record_event (initial_series_data angle1 angle2 1) edata) = 1
        ∨ correlation_coefficient_estimate (libm.mk Real.cos Real.sin Real.sqrt)
          (record_event (initial_series_data angle1 angle2 1) edata) = -1) := by
  rcases edata with ⟨⟨k1, k2⟩, i1, i2⟩
  have one : (1.0 : ℝ) = 1 := by norm_num
  cases k1 <;> by_cases h1 : i1 = 1 <;> by_cases h2 : i2 = 1 <;>
    simp [one, record_event, initial_series_data, correlation_coefficient_estimate,
      estimate_of_correlation_coefficient, estimate_of_cos_phi1_minus_phi2,
      estimate_of_sin_phi1_minus_phi2, estimate_of_cos2_phi1_cos2_phi2,
      estimate_of_cos2_phi1_sin2_phi2, estimate_of_sin2_phi1_cos2_phi2,
      estimate_of_sin2_phi1_sin2_phi2, frequencies_of, h1, h2]

/-- C12: for every pair of angles and every generator state, the series of one event
returns, given fuel for its two loop tests, a table with exactly one counter equal to `1`
and the seven others equal to `0`; on that table the estimator divides by
`number_of_events = 1`, takes the square roots of four non-negative terms, and returns
`+1` or `-1`. -/
theorem experimental_series_one_event (angle1 angle2 : ℝ) (a_global_variable : Int)
    (fuel : Nat) :
    ∃ (sdata : series_data ℝ) (a1 : Int),
      experimental_series (libm.mk Real.cos Real.sin Real.sqrt) (fuel + 2) angle1 angle2 1
          a_global_variable = some (sdata, a1)
      ∧ (∃ (k : crayton) (w1 w2 : way), sdata.counter k w1 w2 = 1
          ∧ ∀ (k' : crayton) (w1' w2' : way),
              (k', w1', w2') ≠ (k, w1, w2) → sdata.counter k' w1' w2' = 0)
      ∧ sdata.number_of_events = 1
      ∧ 0 ≤ estimate_of_cos2_phi1_cos2_phi2 (frequencies_of sdata)
      ∧ 0 ≤ estimate_of_cos2_phi1_sin2_phi2 (frequencies_of sdata)
      ∧ 0 ≤ estimate_of_sin2_phi1_cos2_phi2 (frequencies_of sdata)
      ∧ 0 ≤ estimate_of_sin2_phi1_sin2_phi2 (frequencies_of sdata)
      ∧ (correlation_coefficient_estimate (libm.mk Real.cos Real.sin Real.sqrt) sdata = 1
          ∨ correlation_coefficient_estimate (libm.mk Real.cos Real.sin Real.sqrt) sdata
            = -1) := by
  obtain ⟨t1, t2, t3, t4, hest⟩ := single_event_estimate angle1 angle2
    (experimental_event (libm.mk Real.cos Real.sin Real.sqrt) angle1 angle2
      a_global_variable).1
  refine ⟨_, _, experimental_series_one _ angle1 angle2 a_global_variable fuel, ?_, ?_,
    t1, t2, t3, t4, hest⟩
  · refine ⟨(experimental_event (libm.mk Real.cos Real.sin Real.sqrt) angle1 angle2
        a_global_variable).1.pair.k1,
      way_of (experimental_event (libm.mk Real.cos Real.sin Real.sqrt) angle1 angle2
        a_global_variable).1.way_k1_was_sent,
      way_of (experimental_event (libm.mk Real.cos Real.sin Real.sqrt) angle1 angle2
        a_global_variable).1.way_k2_was_sent, ?_, ?_⟩
    · rw [record_event_counter, initial_series_data_counter, if_pos ⟨rfl, rfl, rfl⟩]
      rfl
    · intro k' w1' w2' hne
      rw [record_event_counter, initial_series_data_counter, if_neg, add_zero]
      rintro ⟨rfl, rfl, rfl⟩
      exact hne rfl
  · rw [record_event_number_of_events]
    rfl

end Craytons

namespace Craytons
open Real

theorem cast_div_lt_half (scalar : Type) [LinearOrderedField scalar] (i : Int) :
    ((i : scalar) / 65537 < 1 / 2) ↔ 2 * i < 65537 := by
  rw [div_lt_div_iff₀ (by norm_num) (by norm_num)]
  have h : ((i : scalar) * 2 < 1 * 65537)
      ↔ (((i * 2 : Int) : scalar) < ((65537 : Int) : scalar)) := by
    push_cast; rw [one_mul]
  rw [h, Int.cast_lt]
  omega

theorem crayton_source_eq (scalar : Type) [LinearOrderedField scalar] {s : Int}
    (h1 : 1 ≤ s) (h2 : s ≤ 65536) :
    crayton_source scalar s
      = (if 2 * ((75 * s) % 65537) < 65537
          then { k1 := crayton.updown, k2 := crayton.sideways }
          else { k1 := crayton.sideways, k2 := crayton.updown }, (75 * s) % 65537) := by
  have half : (0.5 : scalar) = 1 / 2 := by norm_num
  simp only [crayton_source, number_between_zero_and_one_eq scalar h1 h2, half,
    cast_div_lt_half]
  split_ifs <;> rfl

theorem law_of_logodaedalus_half (angle : ℝ) (k : crayton) {s : Int}
    (hx : (if k = crayton.updown then Real.sin angle else Real.cos angle)
      * (if k = crayton.updown then Real.sin angle else Real.cos angle) = 1 / 2)
    (h1 : 1 ≤ s) (h2 : s ≤ 65536) :
    law_of_logodaedalus (libm.mk Real.cos Real.sin Real.sqrt) angle k s
      = (if 2 * ((75 * s) % 65537) < 65537 then 1 else -1, (75 * s) % 65537) := by
  simp only [law_of_logodaedalus, number_between_zero_and_one_eq ℝ h1 h2, hx,
    cast_div_lt_half]
  split_ifs <;> rfl

theorem law_of_logodaedalus_one (angle : ℝ) (k : crayton) {s : Int}
    (hx : (if k = crayton.updown then Real.sin angle else Real.cos angle) = 1)
    (h1 : 1 ≤ s) (h2 : s ≤ 65536) :
    law_of_logodaedalus (libm.mk Real.cos Real.sin Real.sqrt) angle k s
      = (1, (75 * s) % 65537) := by
  have hlt := (number_between_zero_and_one_range ℝ h1 h2).2.1
  rw [number_between_zero_and_one_eq ℝ h1 h2] at hlt
  simp only [law_of_logodaedalus, hx, mul_one, number_between_zero_and_one_eq ℝ h1 h2,
    if_pos hlt]

theorem sin_pi_div_four_mul_self : Real.sin (π / 4) * Real.sin (π / 4) = 1 / 2 := by
  rw [Real.sin_pi_div_four]
  have := Real.mul_self_sqrt (show (0 : ℝ) ≤ 2 by norm_num)
  linear_combination (1 / 4) * this

theorem cos_pi_div_four_mul_self : Real.cos (π / 4) * Real.cos (π / 4) = 1 / 2 := by
  rw [Real.cos_pi_div_four]
  have := Real.mul_self_sqrt (show (0 : ℝ) ≤ 2 by norm_num)
  linear_combination (1 / 4) * this

theorem experimental_event_36753 :
    experimental_event (libm.mk Real.cos Real.sin Real.sqrt) (π / 4) (π / 4) 36753
      = ({ pair := { k1 := crayton.updown, k2 := crayton.sideways }
           way_k1_was_sent := 1, way_k2_was_sent := -1 }, 35193) := by
  have e0 := crayton_source_eq ℝ (show (1 : Int) ≤ 36753 by norm_num) (by norm_num)
  have e1 := law_of_logodaedalus_half (π / 4) crayton.updown
    (by simpa using sin_pi_div_four_mul_self) (show (1 : Int) ≤ 3921 by norm_num)
    (by norm_num)
  have e2 := law_of_logodaedalus_half (π / 4) crayton.sideways
    (by simpa using cos_pi_div_four_mul_self) (show (1 : Int) ≤ 31927 by norm_num)
    (by norm_num)
  norm_num at e0 e1 e2
  simp only [experimental_event, e0, e1, e2]

theorem experimental_event_35193 :
    experimental_event (libm.mk Real.cos Real.sin Real.sqrt) (π / 4) (π / 4) 35193
      = ({ pair := { k1 := crayton.updown, k2 := crayton.sideways }
           way_k1_was_sent := -1, way_k2_was_sent := 1 }, 32747) := by
  have e0 := crayton_source_eq ℝ (show (1 : Int) ≤ 35193 by norm_num) (by norm_num)
  have e1 := law_of_logodaedalus_half (π / 4) crayton.updown
    (by simpa using sin_pi_div_four_mul_self) (show (1 : Int) ≤ 17995 by norm_num)
    (by norm_num)
  have e2 := law_of_logodaedalus_half (π / 4) crayton.sideways
    (by simpa using cos_pi_div_four_mul_self) (show (1 : Int) ≤ 38885 by norm_num)
    (by norm_num)
  norm_num at e0 e1 e2
  simp only [experimental_event, e0, e1, e2]

theorem experimental_event_12345 :
    experimental_event (libm.mk Real.cos Real.sin Real.sqrt) (π / 2) 0 12345
      = ({ pair := { k1 := crayton.updown, k2 := crayton.sideways }
           way_k1_was_sent := 1, way_k2_was_sent := 1 }, 18096) := by
  have e0 := crayton_source_eq ℝ (show (1 : Int) ≤ 12345 by norm_num) (by norm_num)
  have e1 := law_of_logodaedalus_one (π / 2) crayton.updown
    (by simp) (show (1 : Int) ≤ 8357 by norm_num) (by norm_num)
  have e2 := law_of_logodaedalus_one 0 crayton.sideways
    (by simp) (show (1 : Int) ≤ 36942 by norm_num) (by norm_num)
  norm_num at e0 e1 e2
  simp only [experimental_event, e0, e1, e2]

theorem series_returns_two_opposite_events_table :
    experimental_series (libm.mk Real.cos Real.sin Real.sqrt) 3 (π / 4) (π / 4) 2 36753
      = some (two_opposite_events_table (π / 4) (π / 4), 32747) := by
  have h := experimental_series_loop_eq (libm.mk Real.cos Real.sin Real.sqrt) (π / 4) (π / 4)
    2 2 3 0 (initial_series_data (π / 4) (π / 4) 2) 36753 (by omega) (by norm_num)
  rw [experimental_series, h]
  simp [experimental_events, experimental_event_36753, experimental_event_35193,
    record_event, initial_series_data, two_opposite_events_table]

theorem series_returns_one_event_table :
    experimental_series (libm.mk Real.cos Real.sin Real.sqrt) 2 (π / 2) 0 1 12345
      = some (one_event_table (π / 2) 0, 18096) := by
  rw [experimental_series_one (libm.mk Real.cos Real.sin Real.sqrt) (π / 2) 0 12345 0,
    experimental_event_12345]
  simp [record_event, initial_series_data, one_event_table]

variable {scalar : Type} [LinearOrderedField scalar]

theorem experimental_event_state (m : libm scalar) (angle1 angle2 : scalar) (s : Int) :
    (experimental_event m angle1 angle2 s).2 = (numbers_between_zero_and_one scalar 3 s).2 := by
  simp only [experimental_event, crayton_source, law_of_logodaedalus,
    numbers_between_zero_and_one]
  split_ifs <;> rfl

theorem numbers_between_zero_and_one_add (scalar : Type) [LinearOrderedField scalar]
    (M N : Nat) :
    ∀ s : Int, (numbers_between_zero_and_one scalar (M + N) s).2
      = (numbers_between_zero_and_one scalar N (numbers_between_zero_and_one scalar M s).2).2 := by
  induction M with
  | zero => intro s; simp [numbers_between_zero_and_one]
  | succ M ih =>
    intro s
    rw [show M + 1 + N = (M + N) + 1 by ring]
    simp only [numbers_between_zero_and_one, ih]

theorem experimental_events_state (m : libm scalar) (angle1 angle2 : scalar) (n : Nat) :
    ∀ s : Int, (experimental_events m angle1 angle2 n s).2
      = (numbers_between_zero_and_one scalar (3 * n) s).2 := by
  induction n with
  | zero => intro s; rfl
  | succ n ih =>
    intro s
    rw [show 3 * (n + 1) = 3 + 3 * n by ring, numbers_between_zero_and_one_add,
      ← experimental_event_state m angle1 angle2 s]
    simp only [experimental_events, ih]

theorem numbers_between_zero_and_one_state (scalar : Type) [LinearOrderedField scalar]
    (N : Nat) :
    ∀ s : Int, 1 ≤ s → s ≤ 65536 →
      (numbers_between_zero_and_one scalar N s).2 = (75 ^ N * s) % 65537 := by
  induction N with
  | zero =>
    intro s h1 h2
    simp only [numbers_between_zero_and_one, pow_zero, one_mul]
    omega
  | succ N ih =>
    intro s h1 h2
    obtain ⟨-, h3, h4⟩ := state_step h1 h2
    simp only [numbers_between_zero_and_one]
    rw [number_between_zero_and_one_eq scalar h1 h2, ih _ h3 h4, Int.mul_emod,
      Int.emod_emod_of_dvd _ (dvd_refl _), ← Int.mul_emod]
    congr 1
    ring

theorem state_after_28_events (m : libm scalar) (angle1 angle2 : scalar) :
    (experimental_events m angle1 angle2 28 12345).2 = 36753 := by
  rw [experimental_events_state, numbers_between_zero_and_one_state scalar _ 12345
    (by norm_num) (by norm_num)]
  norm_num

end Craytons

namespace EPRB

theorem next_seed_lt (seed : Nat) : next_seed seed < 2 ^ 64 :=
  Nat.mod_lt _ (by norm_num)

theorem random_scalar_next_seed (scalar : Type) [LinearOrderedField scalar] {seed : Nat}
    (h : seed < 2 ^ 64) :
    random_scalar scalar seed
      = some (((seed / 2 ^ 16 : Nat) : scalar) / 2 ^ 48, next_seed seed) := by
  rw [random_scalar_eq h, Nat.shiftRight_eq_div_pow, next_seed]
  norm_num

theorem random_scalars_stream (scalar : Type) [LinearOrderedField scalar] (N : Nat) :
    ∀ seed : Nat, seed < 2 ^ 64 →
      ∃ rs : List scalar,
        random_scalars scalar N seed = some (rs, next_seed^[N] seed)
        ∧ rs.length = N
        ∧ ∀ k : Nat, k < N →
            rs[k]? = some (((next_seed^[k] seed / 2 ^ 16 : Nat) : scalar) / 2 ^ 48) := by
  induction N with
  | zero =>
    intro seed _
    exact ⟨[], rfl, rfl, fun k hk => absurd hk (Nat.not_lt_zero k)⟩
  | succ N ih =>
    intro seed hseed
    obtain ⟨rs, hrs, hlen, hidx⟩ := ih (next_seed seed) (next_seed_lt seed)
    refine ⟨(((seed / 2 ^ 16 : Nat) : scalar) / 2 ^ 48) :: rs, ?_, by simp [hlen], ?_⟩
    · simp only [random_scalars, random_scalar_next_seed scalar hseed, hrs,
        Function.iterate_succ_apply]
    · intro k hk
      cases k with
      | zero => simp
      | succ k =>
        have := hidx k (by omega)
        simpa [Function.iterate_succ_apply] using this

/-- C15: for every 64-bit seed and every `N`, the `N` values returned by `random_scalar`
and the state it ends in are functions of the seed alone: the `k`-th value is the high 48
bits, divided by `2^48`, of the seed updated `k` times, and the final state is the seed
updated `N` times; so that a second run started from the same seed returns the same
sequence and ends in the same state. -/
theorem random_scalars_reproducible (scalar : Type) [LinearOrderedField scalar] (N : Nat)
    (seed : Nat) (hseed : seed < 2 ^ 64) :
    ∃ (rs : List scalar) (seed1 : Nat),
      random_scalars scalar N seed = some (rs, seed1)
      ∧ rs.length = N
      ∧ seed1 = next_seed^[N] seed
      ∧ (∀ k : Nat, k < N →
          rs[k]? = some (((next_seed^[k] seed / 2 ^ 16 : Nat) : scalar) / 2 ^ 48))
      ∧ (∀ s : Nat, next_seed s = (0xF1357AEA2E62A9C5 * s + 1) % 2 ^ 64)
      ∧ ∀ seed2 : Nat, seed2 = seed → random_scalars scalar N seed2 = some (rs, seed1) := by
  obtain ⟨rs, hrs, hlen, hidx⟩ := random_scalars_stream scalar N seed hseed
  exact ⟨rs, _, hrs, hlen, rfl, hidx, fun s => by simp [next_seed, LCG_A, LCG_C],
    fun seed2 h => by rw [h, hrs]⟩

/-- C15 (witness): two runs of three draws from the initial seed `0`. -/
theorem random_scalars_reproducible_witness :
    0 < 2 ^ 64
    ∧ ∃ (rs : List ℚ) (seed1 : Nat),
        random_scalars ℚ 3 0 = some (rs, seed1)
        ∧ seed1 = next_seed^[3] 0
        ∧ ∀ seed2 : Nat, seed2 = 0 → random_scalars ℚ 3 seed2 = some (rs, seed1) := by
  refine ⟨by norm_num, ?_⟩
  obtain ⟨rs, seed1, h1, -, h3, -, -, h6⟩ := random_scalars_reproducible ℚ 3 0 (by norm_num)
  exact ⟨rs, seed1, h1, h3, h6⟩

end EPRB

namespace EPRB

theorem count_loop_eq (σ : signal) (τ1 τ2 : tag) (raw_data : List tagged_signal_pair)
    (h : ∀ p ∈ raw_data, p.pair0.σ = p.pair1.σ) :
    ∀ n : Nat, count_loop σ τ1 τ2 raw_data n = some (n + trials_in_class raw_data σ τ1 τ2) := by
  induction raw_data with
  | nil => intro n; simp [count_loop, trials_in_class]
  | cons p rest ih =>
    intro n
    rw [count_loop, if_pos (h p (List.mem_cons_self p rest)),
      ih (fun q hq => h q (List.mem_cons_of_mem p hq))]
    simp only [trials_in_class, List.countP_cons]
    by_cases hp : p.pair0.σ = σ ∧ p.pair0.τ = τ1 ∧ p.pair1.τ = τ2
    · simp only [if_pos hp, decide_eq_true hp, if_true]; congr 1; omega
    · simp only [if_neg hp, decide_eq_false hp]; simp

theorem trials_in_class_sum (raw_data : List tagged_signal_pair) :
    trials_in_class raw_data signal.COUNTERCLOCKWISE tag.CIRCLED_PLUS tag.CIRCLED_PLUS
      + trials_in_class raw_data signal.COUNTERCLOCKWISE tag.CIRCLED_PLUS tag.CIRCLED_MINUS
      + trials_in_class raw_data signal.COUNTERCLOCKWISE tag.CIRCLED_MINUS tag.CIRCLED_PLUS
      + trials_in_class raw_data signal.COUNTERCLOCKWISE tag.CIRCLED_MINUS tag.CIRCLED_MINUS
      + trials_in_class raw_data signal.CLOCKWISE tag.CIRCLED_PLUS tag.CIRCLED_PLUS
      + trials_in_class raw_data signal.CLOCKWISE tag.CIRCLED_PLUS tag.CIRCLED_MINUS
      + trials_in_class raw_data signal.CLOCKWISE tag.CIRCLED_MINUS tag.CIRCLED_PLUS
      + trials_in_class raw_data signal.CLOCKWISE tag.CIRCLED_MINUS tag.CIRCLED_MINUS
      = raw_data.length := by
  induction raw_data with
  | nil => rfl
  | cons p rest ih =>
    simp only [trials_in_class, List.countP_cons, List.length_cons] at ih ⊢
    rcases p with ⟨⟨t0, s0⟩, ⟨t1, s1⟩⟩
    cases s0 <;> cases t0 <;> cases t1 <;>
      simp only [reduceCtorEq, and_self, and_true, true_and, false_and, and_false,
        decide_True, decide_False, if_true, if_false, Bool.false_eq_true, add_zero] <;>
      omega

end EPRB

/-! ### Rounding to `double` -/

theorem round_half_even_sub_le (x : ℚ) : |(round_half_even x : ℚ) - x| ≤ 1 / 2 := by
  have h1 := Int.floor_le x
  have h2 := Int.lt_floor_add_one x
  unfold round_half_even
  split_ifs with a b c
  · rw [abs_le]; constructor <;> linarith
  · rw [abs_le]; push_cast; constructor <;> linarith
  · rw [abs_le]; constructor <;> linarith
  · rw [abs_le]; push_cast; constructor <;> linarith

theorem round_half_even_intCast (k : Int) : round_half_even (k : ℚ) = k := by
  unfold round_half_even
  rw [Int.floor_intCast, sub_self, if_pos (by norm_num)]

theorem round_half_even_nonneg {x : ℚ} (h : 0 ≤ x) : 0 ≤ round_half_even x := by
  have h0 : 0 ≤ ⌊x⌋ := Int.floor_nonneg.mpr h
  unfold round_half_even
  split_ifs <;> omega

theorem round_half_even_le {x : ℚ} {k : Int} (h : x ≤ k) : round_half_even x ≤ k := by
  have hk := round_half_even_intCast k
  by_cases hx : x = k
  · rw [hx, hk]
  have hlt : x < k := lt_of_le_of_ne h hx
  have hf : ⌊x⌋ < k := Int.floor_lt.mpr hlt
  unfold round_half_even
  split_ifs <;> omega

theorem round_half_even_ge {x : ℚ} {k : Int} (h : (k : ℚ) ≤ x) : k ≤ round_half_even x := by
  have hf : k ≤ ⌊x⌋ := Int.le_floor.mpr h
  unfold round_half_even
  split_ifs <;> omega

theorem round_half_even_eq {x : ℚ} {m : Int} (h : |x - m| < 1 / 2) : round_half_even x = m := by
  rw [abs_lt] at h
  have h1 := Int.floor_le x
  have h2 := Int.lt_floor_add_one x
  have hm1 : m - 1 ≤ ⌊x⌋ := Int.le_floor.mpr (by push_cast; linarith)
  have hm2 : ⌊x⌋ ≤ m := by
    have : ⌊x⌋ < m + 1 := Int.floor_lt.mpr (by push_cast; linarith)
    omega
  unfold round_half_even
  rcases (show ⌊x⌋ = m - 1 ∨ ⌊x⌋ = m by omega) with hf | hf
  · have hfc : ((⌊x⌋ : Int) : ℚ) = m - 1 := by rw [hf]; push_cast; ring
    rw [hfc, if_neg (by linarith), if_pos (by linarith), hf]; ring
  · have hfc : ((⌊x⌋ : Int) : ℚ) = m := by rw [hf]
    rw [hfc, if_pos (by linarith), hf]

theorem round_half_even_tie {x : ℚ} {m : Int} (hm : m % 2 = 0) (h1 : (m : ℚ) ≤ x)
    (h2 : x ≤ m + 1 / 2) : round_half_even x = m := by
  have hf : ⌊x⌋ = m := Int.floor_eq_iff.mpr ⟨h1, by linarith⟩
  unfold round_half_even
  rw [hf]
  split_ifs with a b
  · rfl
  · linarith
  · rfl

theorem double_exponent_ge (q : ℚ) : -1022 ≤ double_exponent q := le_max_right _ _

theorem double_exponent_le {q : ℚ} {E : Int} (h : |q| < (2 : ℚ) ^ (E + 1)) (hq : q ≠ 0)
    (hE : -1022 ≤ E) : double_exponent q ≤ E := by
  have hpos : 0 < |q| := abs_pos.mpr hq
  have b : Int.log 2 |q| < E + 1 :=
    (Int.lt_zpow_iff_log_lt (show 1 < 2 by norm_num) hpos).mp (by simpa using h)
  unfold double_exponent
  exact max_le (by omega) hE

theorem double_exponent_eq {q : ℚ} {e : Int} (h1 : (2 : ℚ) ^ e ≤ |q|)
    (h2 : |q| < (2 : ℚ) ^ (e + 1)) (he : -1022 ≤ e) : double_exponent q = e := by
  have hpos : 0 < |q| := lt_of_lt_of_le (by positivity) h1
  have a : e ≤ Int.log 2 |q| :=
    (Int.zpow_le_iff_le_log (show 1 < 2 by norm_num) hpos).mp (by simpa using h1)
  have b : Int.log 2 |q| < e + 1 :=
    (Int.lt_zpow_iff_log_lt (show 1 < 2 by norm_num) hpos).mp (by simpa using h2)
  unfold double_exponent
  rw [max_eq_left (by omega)]
  omega

theorem round_double_zero : round_double 0 = 0 := by simp [round_double]

theorem round_double_sub_le (q : ℚ) (E : Int) (h : |q| < (2 : ℚ) ^ (E + 1)) (hE : -1022 ≤ E) :
    |round_double q - q| ≤ (2 : ℚ) ^ (E - 53) := by
  by_cases hq : q = 0
  · rw [hq, round_double_zero, sub_zero, abs_zero]; positivity
  have hp : (0 : ℚ) < 2 ^ (double_exponent q - 52) := by positivity
  have hr := round_half_even_sub_le (q / 2 ^ (double_exponent q - 52))
  have e1 : round_double q - q
      = ((round_half_even (q / 2 ^ (double_exponent q - 52)) : ℚ)
          - q / 2 ^ (double_exponent q - 52)) * 2 ^ (double_exponent q - 52) := by
    rw [round_double, if_neg hq]
    field_simp
  have e2 : (2 : ℚ) ^ (double_exponent q - 53) = 1 / 2 * 2 ^ (double_exponent q - 52) := by
    rw [show double_exponent q - 52 = (double_exponent q - 53) + 1 by ring,
      zpow_add_one₀ (by norm_num)]
    ring
  have e3 : (2 : ℚ) ^ (double_exponent q - 53) ≤ 2 ^ (E - 53) :=
    zpow_le_zpow_right₀ (by norm_num) (by have := double_exponent_le h hq hE; omega)
  refine le_trans ?_ e3
  rw [e1, abs_mul, abs_of_pos hp, e2]
  exact mul_le_mul_of_nonneg_right hr hp.le

theorem round_double_rel {q : ℚ} (h : (2 : ℚ) ^ (-1022 : Int) ≤ |q|) :
    |round_double q - q| ≤ 1 / 2 ^ 53 * |q| := by
  have hq : q ≠ 0 := by
    intro h0; rw [h0, abs_zero] at h
    exact absurd h (not_le.mpr (by positivity))
  have hpos : 0 < |q| := abs_pos.mpr hq
  have hb : (2 : ℚ) ^ Int.log 2 |q| ≤ |q| := by
    have := Int.zpow_log_le_self (show 1 < 2 by norm_num) hpos
    simpa using this
  have hl : |q| < (2 : ℚ) ^ (Int.log 2 |q| + 1) := by
    have := Int.lt_zpow_succ_log_self (show 1 < 2 by norm_num) |q|
    simpa using this
  have hE : -1022 ≤ Int.log 2 |q| :=
    (Int.zpow_le_iff_le_log (show 1 < 2 by norm_num) hpos).mp (by simpa using h)
  refine le_trans (round_double_sub_le q _ hl hE) ?_
  have e2 : (2 : ℚ) ^ (Int.log 2 |q| - 53) = 1 / 2 ^ 53 * 2 ^ Int.log 2 |q| := by
    rw [zpow_sub₀ (by norm_num)]
    norm_num
    ring
  rw [e2]
  exact mul_le_mul_of_nonneg_left hb (by positivity)

theorem round_double_nonneg {q : ℚ} (h : 0 ≤ q) : 0 ≤ round_double q := by
  unfold round_double
  split_ifs
  · exact le_refl 0
  · have : (0 : ℚ) ≤ q / 2 ^ (double_exponent q - 52) := by positivity
    have := round_half_even_nonneg this
    have : (0 : ℚ) ≤ (round_half_even (q / 2 ^ (double_exponent q - 52)) : ℚ) := by
      exact_mod_cast this
    positivity

theorem round_double_nonpos {q : ℚ} (h : q ≤ 0) : round_double q ≤ 0 := by
  unfold round_double
  split_ifs
  · exact le_refl 0
  · have hp : (0 : ℚ) < 2 ^ (double_exponent q - 52) := by positivity
    have : q / 2 ^ (double_exponent q - 52) ≤ ((0 : Int) : ℚ) := by
      rw [Int.cast_zero]; exact div_nonpos_of_nonpos_of_nonneg h hp.le
    have := round_half_even_le this
    have : (round_half_even (q / 2 ^ (double_exponent q - 52)) : ℚ) ≤ 0 := by
      exact_mod_cast this
    exact mul_nonpos_of_nonpos_of_nonneg this hp.le

theorem round_double_eq (q : ℚ) (e m : Int) (h1 : (2 : ℚ) ^ e ≤ |q|)
    (h2 : |q| < (2 : ℚ) ^ (e + 1)) (he : -1022 ≤ e) (hm : |q / 2 ^ (e - 52) - m| < 1 / 2) :
    round_double q = m * 2 ^ (e - 52) := by
  have hq : q ≠ 0 := by
    intro h0; rw [h0, abs_zero] at h1
    exact absurd h1 (not_le.mpr (by positivity))
  rw [round_double, if_neg hq, double_exponent_eq h1 h2 he, round_half_even_eq hm]

theorem abs_intCast_lt {m : Int} (hm : |m| < 2 ^ 53) : |(m : ℚ)| < 2 ^ (53 : Int) := by
  have : ((|m| : Int) : ℚ) < ((2 ^ 53 : Int) : ℚ) := by exact_mod_cast hm
  rw [Int.cast_abs] at this
  calc |(m : ℚ)| < ((2 ^ 53 : Int) : ℚ) := this
    _ = 2 ^ (53 : Int) := by norm_num

/-- A `double` `m * 2 ^ z` at least as large in magnitude as `q` is a multiple of the unit
in the last place of `q`. -/
theorem representable_multiple {q : ℚ} (hq : q ≠ 0) {m z : Int} (hm : |m| < 2 ^ 53)
    (hz : -1074 ≤ z) (h : |q| ≤ |(m : ℚ) * 2 ^ z|) :
    ∃ K : Int, (m : ℚ) * 2 ^ z / 2 ^ (double_exponent q - 52) = K := by
  have hpos : 0 < |q| := abs_pos.mpr hq
  have hb : (2 : ℚ) ^ Int.log 2 |q| ≤ |q| := by
    have := Int.zpow_log_le_self (show 1 < 2 by norm_num) hpos
    simpa using this
  have habs : |(m : ℚ) * 2 ^ z| = |(m : ℚ)| * 2 ^ z := by
    rw [abs_mul, abs_of_pos (show (0 : ℚ) < 2 ^ z by positivity)]
  have hlt : (2 : ℚ) ^ Int.log 2 |q| < 2 ^ (53 + z) := by
    refine lt_of_le_of_lt (le_trans hb h) ?_
    rw [habs, zpow_add₀ (by norm_num)]
    exact mul_lt_mul_of_pos_right (abs_intCast_lt hm) (by positivity)
  have he : Int.log 2 |q| < 53 + z := (zpow_lt_zpow_iff_right₀ (by norm_num)).mp hlt
  have hez : double_exponent q - 52 ≤ z := by
    unfold double_exponent
    have : max (Int.log 2 |q|) (-1022) ≤ z + 52 := max_le (by omega) (by omega)
    omega
  obtain ⟨n, hn⟩ : ∃ n : Nat, (n : Int) = z - (double_exponent q - 52) :=
    ⟨(z - (double_exponent q - 52)).toNat, Int.toNat_of_nonneg (by omega)⟩
  refine ⟨m * 2 ^ n, ?_⟩
  rw [mul_div_assoc, ← zpow_sub₀ (by norm_num), ← hn]
  push_cast
  rw [zpow_natCast]

theorem round_double_representable (m z : Int) (hm : |m| < 2 ^ 53) (hz : -1074 ≤ z) :
    round_double ((m : ℚ) * 2 ^ z) = (m : ℚ) * 2 ^ z := by
  by_cases hq : (m : ℚ) * 2 ^ z = 0
  · rw [hq, round_double_zero]
  obtain ⟨K, hK⟩ := representable_multiple hq hm hz (le_refl _)
  rw [round_double, if_neg hq, hK, round_half_even_intCast, ← hK]
  field_simp

theorem round_double_le {q : ℚ} {m z : Int} (hm : |m| < 2 ^ 53) (hz : -1074 ≤ z)
    (h0 : 0 ≤ m) (h : q ≤ (m : ℚ) * 2 ^ z) : round_double q ≤ (m : ℚ) * 2 ^ z := by
  have hy : (0 : ℚ) ≤ (m : ℚ) * 2 ^ z := by
    have : (0 : ℚ) ≤ (m : ℚ) := by exact_mod_cast h0
    positivity
  rcases le_or_lt q 0 with hq | hq
  · exact le_trans (round_double_nonpos hq) hy
  have hp : (0 : ℚ) < 2 ^ (double_exponent q - 52) := by positivity
  obtain ⟨K, hK⟩ := representable_multiple hq.ne' hm hz
    (by rw [abs_of_pos hq, abs_of_nonneg hy]; exact h)
  have hle : q / 2 ^ (double_exponent q - 52) ≤ (K : ℚ) := by
    rw [← hK]; exact div_le_div_of_nonneg_right h hp.le
  have := round_half_even_le hle
  have hc : (round_half_even (q / 2 ^ (double_exponent q - 52)) : ℚ) ≤ (K : ℚ) := by
    exact_mod_cast this
  rw [round_double, if_neg hq.ne']
  calc (round_half_even (q / 2 ^ (double_exponent q - 52)) : ℚ) * 2 ^ (double_exponent q - 52)
      ≤ (K : ℚ) * 2 ^ (double_exponent q - 52) := mul_le_mul_of_nonneg_right hc hp.le
    _ = (m : ℚ) * 2 ^ z := by rw [← hK]; field_simp

theorem round_double_ge {q : ℚ} {m z : Int} (hm : |m| < 2 ^ 53) (hz : -1074 ≤ z)
    (h0 : m ≤ 0) (h : (m : ℚ) * 2 ^ z ≤ q) : (m : ℚ) * 2 ^ z ≤ round_double q := by
  have hy : (m : ℚ) * 2 ^ z ≤ 0 := by
    have : (m : ℚ) ≤ 0 := by exact_mod_cast h0
    exact mul_nonpos_of_nonpos_of_nonneg this (by positivity)
  rcases le_or_lt 0 q with hq | hq
  · exact le_trans hy (round_double_nonneg hq)
  have hp : (0 : ℚ) < 2 ^ (double_exponent q - 52) := by positivity
  obtain ⟨K, hK⟩ := representable_multiple hq.ne hm hz
    (by rw [abs_of_neg hq, abs_of_nonpos hy]; linarith)
  have hle : (K : ℚ) ≤ q / 2 ^ (double_exponent q - 52) := by
    rw [← hK]; exact div_le_div_of_nonneg_right h hp.le
  have := round_half_even_ge hle
  have hc : (K : ℚ) ≤ (round_half_even (q / 2 ^ (double_exponent q - 52)) : ℚ) := by
    exact_mod_cast this
  rw [round_double, if_neg hq.ne]
  calc (m : ℚ) * 2 ^ z = (K : ℚ) * 2 ^ (double_exponent q - 52) := by rw [← hK]; field_simp
    _ ≤ (round_half_even (q / 2 ^ (double_exponent q - 52)) : ℚ)
          * 2 ^ (double_exponent q - 52) := mul_le_mul_of_nonneg_right hc hp.le

theorem round_double_intCast {k : Int} (hk : |k| < 2 ^ 53) : round_double (k : ℚ) = k := by
  have := round_double_representable k 0 hk (by norm_num)
  simpa using this

theorem round_double_le_one {q : ℚ} (h : q ≤ 1 + 1 / 2 ^ 53) : round_double q ≤ 1 := by
  rcases le_or_lt q 1 with h1 | h1
  · have := round_double_le (show |(1 : Int)| < 2 ^ 53 by norm_num) (show (-1074 : Int) ≤ 0 by norm_num)
      (by norm_num) (show q ≤ ((1 : Int) : ℚ) * 2 ^ (0 : Int) by simpa using h1)
    simpa using this
  · have hq : |q| = q := abs_of_pos (by linarith)
    have he : double_exponent q = 0 :=
      double_exponent_eq (by rw [hq]; norm_num; linarith) (by rw [hq]; norm_num; linarith)
        (by norm_num)
    have ht : round_half_even (q / 2 ^ ((0 : Int) - 52)) = 2 ^ 52 := by
      refine round_half_even_tie (by norm_num) ?_ ?_
      · rw [le_div_iff₀ (by positivity)]; push_cast; norm_num; linarith
      · rw [div_le_iff₀ (by positivity)]; push_cast; norm_num; linarith
    rw [round_double, if_neg (by linarith), he, ht]
    norm_num

theorem round_double_abs_le_one (q : ℚ) (h : |q| ≤ 1) : |round_double q| ≤ 1 := by
  rw [abs_le] at h ⊢
  constructor
  · have := round_double_ge (show |(-1 : Int)| < 2 ^ 53 by norm_num)
      (show (-1074 : Int) ≤ 0 by norm_num) (by norm_num)
      (show ((-1 : Int) : ℚ) * 2 ^ (0 : Int) ≤ q by simpa using h.1)
    simpa using this
  · exact round_double_le_one (by linarith [h.2, show (0 : ℚ) ≤ 1 / 2 ^ 53 by positivity])

theorem of_rat_eq {q : ℚ} (h : |round_double q| < 2 ^ 1024) :
    double.of_rat q = double.finite (round_double q) := by
  rw [double.of_rat, if_neg (not_le.mpr h)]

theorem of_int_eq {k : Int} (hk : |k| < 2 ^ 53) : double.of_int k = double.finite k := by
  have hr := round_double_intCast hk
  rw [double.of_int, of_rat_eq, hr]
  rw [hr]
  have := abs_intCast_lt hk
  exact lt_trans this (by norm_num)

/-! ### The square root in `double` -/

theorem int_log_eq {q : ℚ} {e : Int} (h1 : (2 : ℚ) ^ e ≤ q) (h2 : q < (2 : ℚ) ^ (e + 1)) :
    Int.log 2 q = e := by
  have hpos : 0 < q := lt_of_lt_of_le (by positivity) h1
  have a : e ≤ Int.log 2 q :=
    (Int.zpow_le_iff_le_log (show 1 < 2 by norm_num) hpos).mp (by simpa using h1)
  have b : Int.log 2 q < e + 1 :=
    (Int.lt_zpow_iff_log_lt (show 1 < 2 by norm_num) hpos).mp (by simpa using h2)
  omega

theorem sqrt_double_nonneg (q : ℚ) : 0 ≤ sqrt_double q := by
  unfold sqrt_double
  split_ifs
  · exact le_refl 0
  · positivity

theorem sqrt_double_of_nonpos {q : ℚ} (h : q ≤ 0) : sqrt_double q = 0 := by
  rw [sqrt_double, if_pos h]

theorem sqrt_double_cases {q : ℚ} (hq : 0 < q) :
    (sqrt_double q
        = (Nat.sqrt ⌊q * 4 ^ (52 - Int.log 2 q / 2)⌋₊ : ℚ) / 2 ^ (52 - Int.log 2 q / 2)
      ∧ 4 * (q * 4 ^ (52 - Int.log 2 q / 2))
        ≤ (2 * (Nat.sqrt ⌊q * 4 ^ (52 - Int.log 2 q / 2)⌋₊ : ℚ) + 1) ^ 2)
    ∨ (sqrt_double q
        = ((Nat.sqrt ⌊q * 4 ^ (52 - Int.log 2 q / 2)⌋₊ : ℚ) + 1) / 2 ^ (52 - Int.log 2 q / 2)
      ∧ (2 * (Nat.sqrt ⌊q * 4 ^ (52 - Int.log 2 q / 2)⌋₊ : ℚ) + 1) ^ 2
        ≤ 4 * (q * 4 ^ (52 - Int.log 2 q / 2))) := by
  rw [sqrt_double, if_neg (not_le.mpr hq)]
  simp only
  split_ifs with a b c
  · left; push_cast at a ⊢; exact ⟨rfl, a.le⟩
  · right; push_cast at b ⊢; exact ⟨rfl, b.le⟩
  · left; push_cast at a b ⊢; exact ⟨rfl, not_lt.mp b⟩
  · right; push_cast at a b ⊢; exact ⟨rfl, not_lt.mp a⟩

theorem sqrt_double_scaled_ge {q : ℚ} (hq : 0 < q) :
    (2 : ℚ) ^ (104 : Int) ≤ q * 4 ^ (52 - Int.log 2 q / 2) := by
  have hb : (2 : ℚ) ^ Int.log 2 q ≤ q := by
    have := Int.zpow_log_le_self (show 1 < 2 by norm_num) hq
    simpa using this
  have h4 : (4 : ℚ) ^ (52 - Int.log 2 q / 2) = 2 ^ (2 * (52 - Int.log 2 q / 2)) := by
    rw [zpow_mul, show ((2 : ℚ) ^ (2 : Int)) = 4 by norm_num]
  rw [h4]
  calc (2 : ℚ) ^ (104 : Int) ≤ 2 ^ (Int.log 2 q + 2 * (52 - Int.log 2 q / 2)) :=
        zpow_le_zpow_right₀ (by norm_num) (by omega)
    _ = 2 ^ Int.log 2 q * 2 ^ (2 * (52 - Int.log 2 q / 2)) := by
        rw [zpow_add₀ (by norm_num)]
    _ ≤ q * 2 ^ (2 * (52 - Int.log 2 q / 2)) :=
        mul_le_mul_of_nonneg_right hb (by positivity)

theorem sqrt_double_root_ge {q : ℚ} (hq : 0 < q) :
    (2 : ℚ) ^ 52 ≤ (Nat.sqrt ⌊q * 4 ^ (52 - Int.log 2 q / 2)⌋₊ : ℚ) := by
  have h := sqrt_double_scaled_ge hq
  have h1 : 2 ^ 52 * 2 ^ 52 ≤ ⌊q * 4 ^ (52 - Int.log 2 q / 2)⌋₊ := by
    refine Nat.le_floor ?_
    refine le_trans ?_ h
    norm_num
  have h2 : 2 ^ 52 ≤ Nat.sqrt ⌊q * 4 ^ (52 - Int.log 2 q / 2)⌋₊ := Nat.le_sqrt.mpr h1
  exact_mod_cast h2

theorem sqrt_double_root_sq_le {q : ℚ} (hq : 0 < q) :
    (Nat.sqrt ⌊q * 4 ^ (52 - Int.log 2 q / 2)⌋₊ : ℚ) ^ 2 ≤ q * 4 ^ (52 - Int.log 2 q / 2) := by
  have hX : 0 ≤ q * 4 ^ (52 - Int.log 2 q / 2) := by positivity
  have h1 := Nat.sqrt_le' ⌊q * 4 ^ (52 - Int.log 2 q / 2)⌋₊
  have h2 := Nat.floor_le hX
  refine le_trans ?_ h2
  exact_mod_cast h1

/-- The square of the rounded square root is at most `q * (1 + 2 ^ -53) ^ 2`. -/
theorem sqrt_double_sq_le {q : ℚ} (hq : 0 ≤ q) :
    sqrt_double q ^ 2 ≤ q * (1 + 1 / 2 ^ 53) ^ 2 := by
  rcases hq.eq_or_lt with h0 | hq
  · rw [← h0, sqrt_double_of_nonpos (le_refl 0)]; norm_num
  have hM := sqrt_double_root_ge hq
  have hM2 := sqrt_double_root_sq_le hq
  have hc := sqrt_double_cases hq
  have h4 : (4 : ℚ) ^ (52 - Int.log 2 q / 2) = (2 ^ (52 - Int.log 2 q / 2)) ^ 2 := by
    rw [← zpow_natCast, ← zpow_mul, mul_comm, zpow_mul]; norm_num
  have hX0 : (0 : ℚ) ≤ q * 4 ^ (52 - Int.log 2 q / 2) := by positivity
  have key : ∀ M1 : ℚ, M1 ^ 2 ≤ q * 4 ^ (52 - Int.log 2 q / 2) * (1 + 1 / 2 ^ 53) ^ 2 →
      (M1 / 2 ^ (52 - Int.log 2 q / 2)) ^ 2 ≤ q * (1 + 1 / 2 ^ 53) ^ 2 := by
    intro M1 h
    rw [div_pow, div_le_iff₀ (by positivity), ← h4]
    linarith
  generalize (Nat.sqrt ⌊q * 4 ^ (52 - Int.log 2 q / 2)⌋₊ : ℚ) = M at hM hM2 hc
  generalize q * 4 ^ (52 - Int.log 2 q / 2) = X at hM2 hc key hX0
  rcases hc with ⟨e, _⟩ | ⟨e, h⟩
  · rw [e]
    refine key _ ?_
    nlinarith [mul_nonneg hX0 (show (0 : ℚ) ≤ (1 + 1 / 2 ^ 53) ^ 2 - 1 by norm_num)]
  · rw [e]
    refine key _ ?_
    have hM0 : (0 : ℚ) ≤ M := le_trans (by norm_num) hM
    have h5 : M + 1 ≤ (M + 1 / 2) * (1 + 1 / 2 ^ 53) := by
      norm_num at hM ⊢
      linarith
    have h6 : (M + 1) ^ 2 ≤ ((M + 1 / 2) * (1 + 1 / 2 ^ 53)) ^ 2 :=
      pow_le_pow_left₀ (by linarith) h5 2
    calc (M + 1) ^ 2 ≤ ((M + 1 / 2) * (1 + 1 / 2 ^ 53)) ^ 2 := h6
      _ = (2 * M + 1) ^ 2 / 4 * (1 + 1 / 2 ^ 53) ^ 2 := by ring
      _ ≤ X * (1 + 1 / 2 ^ 53) ^ 2 := by
          refine mul_le_mul_of_nonneg_right ?_ (by positivity)
          linarith

theorem sqrt_double_le_one {q : ℚ} (h : q ≤ 1) : sqrt_double q ≤ 1 := by
  rcases le_or_lt q 0 with h0 | hq
  · rw [sqrt_double_of_nonpos h0]; norm_num
  have hl : Int.log 2 q ≤ 0 := by
    have : Int.log 2 q < 0 + 1 :=
      (Int.lt_zpow_iff_log_lt (show 1 < 2 by norm_num) hq).mp (by norm_num; linarith)
    omega
  obtain ⟨n, hn⟩ : ∃ n : Nat, (n : Int) = 52 - Int.log 2 q / 2 :=
    ⟨(52 - Int.log 2 q / 2).toNat, Int.toNat_of_nonneg (by omega)⟩
  have hM2 := sqrt_double_root_sq_le hq
  have hc := sqrt_double_cases hq
  rw [← hn] at hM2 hc
  simp only [zpow_natCast] at hM2 hc
  have h4 : (4 : ℚ) ^ n = (2 ^ n) ^ 2 := by rw [← pow_mul, mul_comm, pow_mul]; norm_num
  have hX : q * 4 ^ n ≤ ((2 ^ n : Nat) : ℚ) ^ 2 := by
    push_cast
    rw [h4]
    exact mul_le_of_le_one_left (by positivity) h
  generalize Nat.sqrt ⌊q * 4 ^ n⌋₊ = M at hM2 hc
  generalize q * 4 ^ n = X at hM2 hc hX
  rcases hc with ⟨e, _⟩ | ⟨e, h1⟩
  · rw [e, div_le_one (by positivity)]
    have : (M : ℚ) ^ 2 ≤ ((2 ^ n : Nat) : ℚ) ^ 2 := le_trans hM2 hX
    have := abs_le_of_sq_le_sq' this (by positivity)
    push_cast at this
    exact this.2
  · rw [e, div_le_one (by positivity)]
    have h2 : ((2 * M + 1 : Nat) : ℚ) ^ 2 ≤ ((2 * 2 ^ n : Nat) : ℚ) ^ 2 := by
      push_cast at hX ⊢
      linarith
    have h3 := (abs_le_of_sq_le_sq' h2 (by positivity)).2
    have h4 : 2 * M + 1 ≤ 2 * 2 ^ n := by exact_mod_cast h3
    have h5 : M + 1 ≤ 2 ^ n := by omega
    exact_mod_cast h5

theorem sqrt_double_half : sqrt_double (1 / 2) = 6369051672525773 / 2 ^ 53 := by
  have hl : Int.log 2 (1 / 2 : ℚ) = -1 := int_log_eq (by norm_num) (by norm_num)
  have hX : (1 / 2 : ℚ) * 4 ^ (53 : Int) = ((2 ^ 105 : Nat) : ℚ) := by norm_num
  have hM : Nat.sqrt (2 ^ 105) = 6369051672525772 :=
    (Nat.eq_sqrt.mpr ⟨by norm_num, by norm_num⟩).symm
  rw [sqrt_double, if_neg (by norm_num), hl]
  simp only [show (52 : Int) - -1 / 2 = 53 by decide, hX, Nat.floor_natCast, hM]
  norm_num

theorem sqrt_double_one : sqrt_double 1 = 1 := by
  have hl : Int.log 2 (1 : ℚ) = 0 := int_log_eq (by norm_num) (by norm_num)
  have hX : (1 : ℚ) * 4 ^ (52 : Int) = ((2 ^ 104 : Nat) : ℚ) := by norm_num
  have hM : Nat.sqrt (2 ^ 104) = 2 ^ 52 :=
    (Nat.eq_sqrt.mpr ⟨by norm_num, by norm_num⟩).symm
  rw [sqrt_double, if_neg (by norm_num), hl]
  simp only [show (52 : Int) - 0 / 2 = 52 by decide, hX, Nat.floor_natCast, hM]
  norm_num

/-! ### The operations of `double` -/

theorem round_double_abs_le {q : ℚ} (j : Int) (hj : -1074 ≤ j) (h : |q| ≤ 2 ^ j) :
    |round_double q| ≤ 2 ^ j := by
  rw [abs_le] at h ⊢
  constructor
  · have := round_double_ge (show |(-1 : Int)| < 2 ^ 53 by norm_num) hj (by norm_num)
      (show ((-1 : Int) : ℚ) * 2 ^ j ≤ q by push_cast; linarith [h.1])
    push_cast at this; linarith
  · have := round_double_le (show |(1 : Int)| < 2 ^ 53 by norm_num) hj (by norm_num)
      (show q ≤ ((1 : Int) : ℚ) * 2 ^ j by push_cast; linarith [h.2])
    push_cast at this; linarith

theorem of_rat_of_abs_le {q : ℚ} (h : |q| ≤ 2 ^ (1023 : Int)) :
    double.of_rat q = double.finite (round_double q) :=
  of_rat_eq (lt_of_le_of_lt (round_double_abs_le 1023 (by norm_num) h) (by norm_num))

theorem of_rat_of_abs_le_four {q : ℚ} (h : |q| ≤ 4) :
    double.of_rat q = double.finite (round_double q) :=
  of_rat_of_abs_le (le_trans h (by norm_num))

theorem double.add_finite (a b : ℚ) :
    double.finite a + double.finite b = double.of_rat (a + b) := rfl

theorem double.sub_finite (a b : ℚ) :
    double.finite a - double.finite b = double.of_rat (a - b) := by
  show double.of_rat (a + -b) = _
  rw [sub_eq_add_neg]

theorem double.mul_finite (a b : ℚ) :
    double.finite a * double.finite b = double.of_rat (a * b) := rfl

theorem double.div_finite (a : ℚ) {b : ℚ} (hb : b ≠ 0) :
    double.finite a / double.finite b = double.of_rat (a / b) := by
  show double.div _ _ = _
  rw [double.div, if_neg hb]

theorem double.neg_finite (a : ℚ) : -double.finite a = double.finite (-a) := rfl

theorem double.sqrt_finite {a : ℚ} (h : 0 ≤ a) :
    double.sqrt (double.finite a) = double.finite (sqrt_double a) := by
  rw [double.sqrt, if_neg (not_lt.mpr h)]

theorem double.sqrt_negative {a : ℚ} (h : a < 0) :
    double.sqrt (double.finite a) = double.nan := by
  rw [double.sqrt, if_pos h]

theorem double.nan_add (x : double) : double.nan + x = double.nan := by
  cases x <;> rfl

theorem double.add_nan (x : double) : x + double.nan = double.nan := by
  cases x <;> rfl

theorem double.nan_sub (x : double) : double.nan - x = double.nan := by
  cases x <;> rfl

theorem double.sub_nan (x : double) : x - double.nan = double.nan := by
  cases x <;> rfl

theorem double.nan_mul (x : double) : double.nan * x = double.nan := by
  cases x <;> rfl

theorem double.mul_nan (x : double) : x * double.nan = double.nan := by
  cases x <;> rfl

theorem double.neg_nan : -double.nan = double.nan := rfl

theorem of_rat_one : double.of_rat 1.0 = double.finite 1 := by
  have h : round_double (1.0 : ℚ) = 1 := by
    have := round_double_intCast (show |(1 : Int)| < 2 ^ 53 by norm_num)
    norm_num at this ⊢
    exact this
  rw [of_rat_eq (by rw [h]; norm_num), h]

/-- The quotient `(1.0 * k) / n` of two converted `int`s, `n` not zero. -/
theorem double_quotient {k n : Int} (hk : |k| < 2 ^ 53) (hn : |n| < 2 ^ 53) (hn0 : n ≠ 0) :
    (double.of_rat 1.0 * double.of_int k) / double.of_int n
      = double.of_rat ((k : ℚ) / (n : ℚ)) := by
  have h : double.of_rat (k : ℚ) = double.finite k := of_int_eq hk
  rw [of_rat_one, of_int_eq hk, of_int_eq hn, double.mul_finite, one_mul, h,
    double.div_finite]
  exact_mod_cast hn0

theorem round_double_one : round_double 1 = 1 := by
  have := round_double_intCast (show |(1 : Int)| < 2 ^ 53 by norm_num)
  simpa using this

/-- The rounded quotient of a counter `k` by the number of events `n`, for `0 ≤ k ≤ n`,
`0 < n` and `n` an `int`. -/
theorem round_double_frequency {k n : Int} (hk0 : 0 ≤ k) (hkn : k ≤ n) (hn : 0 < n)
    (hint : n ≤ 2147483647) :
    0 ≤ round_double ((k : ℚ) / (n : ℚ))
    ∧ round_double ((k : ℚ) / (n : ℚ)) ≤ (k : ℚ) / (n : ℚ) * (1 + 1 / 2 ^ 53)
    ∧ |round_double ((k : ℚ) / (n : ℚ)) - (k : ℚ) / (n : ℚ)| ≤ 1 / 2 ^ 54 := by
  have hnq : (0 : ℚ) < (n : ℚ) := by exact_mod_cast hn
  have hkq : (0 : ℚ) ≤ (k : ℚ) := by exact_mod_cast hk0
  have hknq : (k : ℚ) ≤ (n : ℚ) := by exact_mod_cast hkn
  have hq0 : (0 : ℚ) ≤ (k : ℚ) / (n : ℚ) := by positivity
  have hq1 : (k : ℚ) / (n : ℚ) ≤ 1 := (div_le_one hnq).mpr hknq
  refine ⟨round_double_nonneg hq0, ?_, ?_⟩
  · rcases hk0.eq_or_lt with h0 | h0
    · rw [← h0]; simp [round_double_zero]
    have hk1 : (1 : ℚ) ≤ (k : ℚ) := by exact_mod_cast h0
    have hnb : (n : ℚ) ≤ 2147483647 := by exact_mod_cast hint
    have hlow : (2 : ℚ) ^ (-1022 : Int) ≤ |(k : ℚ) / (n : ℚ)| := by
      rw [abs_of_nonneg hq0, le_div_iff₀ hnq]
      calc (2 : ℚ) ^ (-1022 : Int) * (n : ℚ) ≤ 2 ^ (-1022 : Int) * 2147483647 :=
            mul_le_mul_of_nonneg_left hnb (by positivity)
        _ ≤ 2 ^ (-1022 : Int) * 2 ^ (1022 : Int) :=
            mul_le_mul_of_nonneg_left (by norm_num) (by positivity)
        _ = 1 := by rw [← zpow_add₀ (by norm_num)]; norm_num
        _ ≤ (k : ℚ) := hk1
    have := round_double_rel hlow
    rw [abs_of_nonneg hq0, abs_le] at this
    linarith [this.2]
  · rcases hknq.eq_or_lt with h1 | h1
    · rw [h1, div_self hnq.ne', round_double_one]; norm_num
    have hlt : (k : ℚ) / (n : ℚ) < 1 := (div_lt_one hnq).mpr h1
    have := round_double_sub_le ((k : ℚ) / (n : ℚ)) (-1)
      (by rw [abs_of_nonneg hq0]; norm_num; exact hlt) (by norm_num)
    norm_num at this ⊢
    exact this

namespace Craytons

/-! ### Division by a zero `number_of_events` -/

theorem of_int_zero : double.of_int 0 = double.finite 0 := by
  have := of_int_eq (show |(0 : Int)| < 2 ^ 53 by norm_num)
  simpa using this

theorem div_zero_not_finite (x : double) :
    x / double.finite 0 = double.nan ∨ ∃ s, x / double.finite 0 = double.infinity s := by
  rcases x with a | s | _
  · by_cases ha : a = 0
    · left; show double.div _ _ = _; simp [double.div, ha]
    · right; exact ⟨decide (0 < a), by show double.div _ _ = _; simp [double.div, ha]⟩
  · right; exact ⟨_, rfl⟩
  · left; rfl

theorem add_not_finite {x y : double}
    (hx : x = double.nan ∨ ∃ s, x = double.infinity s)
    (hy : y = double.nan ∨ ∃ s, y = double.infinity s) :
    x + y = double.nan ∨ ∃ s, x + y = double.infinity s := by
  rcases hx with rfl | ⟨s, rfl⟩
  · left; exact double.nan_add _
  rcases hy with rfl | ⟨t, rfl⟩
  · left; rfl
  · show double.add _ _ = _ ∨ ∃ u, double.add _ _ = _
    by_cases h : s = t
    · right; exact ⟨s, by simp [double.add, h]⟩
    · left; simp [double.add, h]

theorem sqrt_not_finite {x : double} (hx : x = double.nan ∨ ∃ s, x = double.infinity s) :
    double.sqrt x = double.nan ∨ double.sqrt x = double.infinity true := by
  rcases hx with rfl | ⟨s, rfl⟩
  · left; rfl
  · cases s
    · left; rfl
    · right; rfl

theorem sub_sqrt_not_finite {x y : double}
    (hx : x = double.nan ∨ x = double.infinity true)
    (hy : y = double.nan ∨ y = double.infinity true) : x - y = double.nan := by
  rcases hx with rfl | rfl <;> rcases hy with rfl | rfl <;> rfl

theorem estimate_double_of_zero_events {scalar : Type} (sdata : series_data scalar)
    (h : sdata.number_of_events = 0) :
    correlation_coefficient_estimate_double sdata = double.nan := by
  have h3 := add_not_finite
    (div_zero_not_finite
      (double.of_rat 1.0 * double.of_int sdata.number_of_updown_sideways_plus_plus))
    (div_zero_not_finite
      (double.of_rat 1.0 * double.of_int sdata.number_of_sideways_updown_minus_minus))
  have h2 := add_not_finite
    (div_zero_not_finite
      (double.of_rat 1.0 * double.of_int sdata.number_of_updown_sideways_minus_minus))
    (div_zero_not_finite
      (double.of_rat 1.0 * double.of_int sdata.number_of_sideways_updown_plus_plus))
  have hs := sub_sqrt_not_finite (sqrt_not_finite h3) (sqrt_not_finite h2)
  simp only [correlation_coefficient_estimate_double, estimate_of_correlation_coefficient_double,
    estimate_of_sin_phi1_minus_phi2_double, estimate_of_sin2_phi1_cos2_phi2_double,
    estimate_of_cos2_phi1_sin2_phi2_double, frequencies_of_double, h, of_int_zero, hs,
    double.mul_nan, double.sub_nan, double.neg_nan]

/-! ### A negative combined term -/

theorem estimate_double_of_negative_term (f : frequencies double)
    (h : (∃ a : ℚ, a < 0 ∧ estimate_of_cos2_phi1_cos2_phi2_double f = double.finite a)
      ∨ (∃ a : ℚ, a < 0 ∧ estimate_of_cos2_phi1_sin2_phi2_double f = double.finite a)
      ∨ (∃ a : ℚ, a < 0 ∧ estimate_of_sin2_phi1_cos2_phi2_double f = double.finite a)
      ∨ (∃ a : ℚ, a < 0 ∧ estimate_of_sin2_phi1_sin2_phi2_double f = double.finite a)) :
    estimate_of_correlation_coefficient_double f = double.nan := by
  rcases h with ⟨a, ha, e⟩ | ⟨a, ha, e⟩ | ⟨a, ha, e⟩ | ⟨a, ha, e⟩ <;>
    simp only [estimate_of_correlation_coefficient_double,
      estimate_of_cos_phi1_minus_phi2_double, estimate_of_sin_phi1_minus_phi2_double, e,
      double.sqrt_negative ha, double.nan_add, double.add_nan, double.nan_sub, double.sub_nan,
      double.nan_mul, double.mul_nan, double.neg_nan]

end Craytons

namespace Craytons

/-! ### The frequencies and the combined terms of a table of `int` counters -/

theorem abs_div_intCast_le {k n : Int} (hn0 : n ≠ 0) : |(k : ℚ) / (n : ℚ)| ≤ |(k : ℚ)| := by
  have h1 : (1 : ℚ) ≤ |(n : ℚ)| := by
    have : (1 : Int) ≤ |n| := Int.one_le_abs hn0
    rw [← Int.cast_abs]
    exact_mod_cast this
  rw [abs_div]
  exact div_le_self (abs_nonneg _) h1

/-- The quotient `(1.0 * k) / n` of two converted `int`s, `n` not zero, is the rounded
quotient of the two integers. -/
theorem double_frequency {k n : Int} (hk : |k| < 2 ^ 53) (hn : |n| < 2 ^ 53) (hn0 : n ≠ 0) :
    (double.of_rat 1.0 * double.of_int k) / double.of_int n
      = double.finite (round_double ((k : ℚ) / (n : ℚ))) := by
  rw [double_quotient hk hn hn0, of_rat_of_abs_le]
  exact le_trans (abs_div_intCast_le hn0)
    (le_trans (abs_intCast_lt hk).le (by norm_num))

theorem round_double_frequency_abs_le {k n : Int} (hk : |k| < 2 ^ 53) (hn0 : n ≠ 0) :
    |round_double ((k : ℚ) / (n : ℚ))| ≤ 2 ^ (53 : Int) :=
  round_double_abs_le 53 (by norm_num)
    (le_trans (abs_div_intCast_le hn0) (abs_intCast_lt hk).le)

theorem double_term {ka kb n : Int} (hka : |ka| < 2 ^ 53) (hkb : |kb| < 2 ^ 53)
    (hn : |n| < 2 ^ 53) (hn0 : n ≠ 0) :
    (double.of_rat 1.0 * double.of_int ka) / double.of_int n
        + (double.of_rat 1.0 * double.of_int kb) / double.of_int n
      = double.finite (round_double (round_double ((ka : ℚ) / (n : ℚ))
          + round_double ((kb : ℚ) / (n : ℚ)))) := by
  rw [double_frequency hka hn hn0, double_frequency hkb hn hn0, double.add_finite,
    of_rat_of_abs_le]
  have h1 := round_double_frequency_abs_le hka hn0
  have h2 := round_double_frequency_abs_le hkb hn0
  calc |round_double ((ka : ℚ) / (n : ℚ)) + round_double ((kb : ℚ) / (n : ℚ))|
      ≤ |round_double ((ka : ℚ) / (n : ℚ))| + |round_double ((kb : ℚ) / (n : ℚ))| :=
        abs_add _ _
    _ ≤ 2 ^ (53 : Int) + 2 ^ (53 : Int) := add_le_add h1 h2
    _ ≤ 2 ^ (1023 : Int) := by norm_num

/-- The four combined terms of a table whose counters and `number_of_events` are of
magnitude below `2 ^ 53`, as every `int` is, with `number_of_events` not zero: each is the
rounded sum of two rounded quotients. -/
theorem combined_terms_double {scalar : Type} (sdata : series_data scalar)
    (hk : ∀ (k : crayton) (w1 w2 : way), |sdata.counter k w1 w2| < 2 ^ 53)
    (hn : |sdata.number_of_events| < 2 ^ 53) (hn0 : sdata.number_of_events ≠ 0) :
    estimate_of_cos2_phi1_cos2_phi2_double (frequencies_of_double sdata)
        = double.finite (round_double
            (round_double ((sdata.counter crayton.updown way.minus way.plus : ℚ)
                / (sdata.number_of_events : ℚ))
              + round_double ((sdata.counter crayton.sideways way.plus way.minus : ℚ)
                / (sdata.number_of_events : ℚ))))
    ∧ estimate_of_cos2_phi1_sin2_phi2_double (frequencies_of_double sdata)
        = double.finite (round_double
            (round_double ((sdata.counter crayton.updown way.minus way.minus : ℚ)
                / (sdata.number_of_events : ℚ))
              + round_double ((sdata.counter crayton.sideways way.plus way.plus : ℚ)
                / (sdata.number_of_events : ℚ))))
    ∧ estimate_of_sin2_phi1_cos2_phi2_double (frequencies_of_double sdata)
        = double.finite (round_double
            (round_double ((sdata.counter crayton.updown way.plus way.plus : ℚ)
                / (sdata.number_of_events : ℚ))
              + round_double ((sdata.counter crayton.sideways way.minus way.minus : ℚ)
                / (sdata.number_of_events : ℚ))))
    ∧ estimate_of_sin2_phi1_sin2_phi2_double (frequencies_of_double sdata)
        = double.finite (round_double
            (round_double ((sdata.counter crayton.updown way.plus way.minus : ℚ)
                / (sdata.number_of_events : ℚ))
              + round_double ((sdata.counter crayton.sideways way.minus way.plus : ℚ)
                / (sdata.number_of_events : ℚ)))) :=
  ⟨double_term (hk crayton.updown way.minus way.plus) (hk crayton.sideways way.plus way.minus)
      hn hn0,
    double_term (hk crayton.updown way.minus way.minus) (hk crayton.sideways way.plus way.plus)
      hn hn0,
    double_term (hk crayton.updown way.plus way.plus) (hk crayton.sideways way.minus way.minus)
      hn hn0,
    double_term (hk crayton.updown way.plus way.minus) (hk crayton.sideways way.minus way.plus)
      hn hn0⟩

/-- The estimate on a record of frequencies whose four combined terms are numbers of
`[0, 1]`. -/
theorem estimate_double_of_terms (f : frequencies double) {t1 t2 t3 t4 : ℚ}
    (e1 : estimate_of_cos2_phi1_cos2_phi2_double f = double.finite t1)
    (e2 : estimate_of_cos2_phi1_sin2_phi2_double f = double.finite t2)
    (e3 : estimate_of_sin2_phi1_cos2_phi2_double f = double.finite t3)
    (e4 : estimate_of_sin2_phi1_sin2_phi2_double f = double.finite t4)
    (h1 : 0 ≤ t1 ∧ t1 ≤ 1) (h2 : 0 ≤ t2 ∧ t2 ≤ 1) (h3 : 0 ≤ t3 ∧ t3 ≤ 1)
    (h4 : 0 ≤ t4 ∧ t4 ≤ 1) :
    estimate_of_correlation_coefficient_double f
      = double.finite (-round_double
          (round_double (round_double (sqrt_double t1 + sqrt_double t4)
              * round_double (sqrt_double t1 + sqrt_double t4))
            - round_double (round_double (sqrt_double t3 - sqrt_double t2)
              * round_double (sqrt_double t3 - sqrt_double t2)))) := by
  have a0 := sqrt_double_nonneg t1
  have b0 := sqrt_double_nonneg t3
  have c0 := sqrt_double_nonneg t2
  have d0 := sqrt_double_nonneg t4
  have a1 := sqrt_double_le_one h1.2
  have b1 := sqrt_double_le_one h3.2
  have c1 := sqrt_double_le_one h2.2
  have d1 := sqrt_double_le_one h4.2
  have hC : |round_double (sqrt_double t1 + sqrt_double t4)| ≤ 2 ^ (1 : Int) :=
    round_double_abs_le 1 (by norm_num) (by rw [abs_le]; constructor <;> norm_num <;> linarith)
  have hS : |round_double (sqrt_double t3 - sqrt_double t2)| ≤ 2 ^ (0 : Int) :=
    round_double_abs_le 0 (by norm_num) (by rw [abs_le]; constructor <;> norm_num <;> linarith)
  have hCC : |round_double (sqrt_double t1 + sqrt_double t4)
      * round_double (sqrt_double t1 + sqrt_double t4)| ≤ 2 ^ (2 : Int) := by
    rw [abs_mul]
    calc _ ≤ (2 : ℚ) ^ (1 : Int) * 2 ^ (1 : Int) :=
          mul_le_mul hC hC (abs_nonneg _) (by norm_num)
      _ = 2 ^ (2 : Int) := by norm_num
  have hSS : |round_double (sqrt_double t3 - sqrt_double t2)
      * round_double (sqrt_double t3 - sqrt_double t2)| ≤ 2 ^ (0 : Int) := by
    rw [abs_mul]
    calc _ ≤ (2 : ℚ) ^ (0 : Int) * 2 ^ (0 : Int) :=
          mul_le_mul hS hS (abs_nonneg _) (by norm_num)
      _ = 2 ^ (0 : Int) := by norm_num
  have hX := round_double_abs_le 2 (by norm_num) hCC
  have hY := round_double_abs_le 0 (by norm_num) hSS
  simp only [estimate_of_correlation_coefficient_double, estimate_of_cos_phi1_minus_phi2_double,
    estimate_of_sin_phi1_minus_phi2_double, e1, e2, e3, e4, double.sqrt_finite h1.1,
    double.sqrt_finite h2.1, double.sqrt_finite h3.1, double.sqrt_finite h4.1,
    double.add_finite, double.sub_finite]
  rw [of_rat_of_abs_le_four (by rw [abs_le]; constructor <;> linarith),
    of_rat_of_abs_le_four (by rw [abs_le]; constructor <;> linarith),
    double.mul_finite, double.mul_finite,
    of_rat_of_abs_le_four (le_trans hCC (by norm_num)),
    of_rat_of_abs_le_four (le_trans hSS (by norm_num)), double.sub_finite,
    of_rat_of_abs_le, double.neg_finite]
  calc _ ≤ |round_double (round_double (sqrt_double t1 + sqrt_double t4)
              * round_double (sqrt_double t1 + sqrt_double t4))|
          + |round_double (round_double (sqrt_double t3 - sqrt_double t2)
              * round_double (sqrt_double t3 - sqrt_double t2))| := abs_sub _ _
    _ ≤ 2 ^ (2 : Int) + 2 ^ (0 : Int) := add_le_add hX hY
    _ ≤ 2 ^ (1023 : Int) := by norm_num

end Craytons

namespace Craytons

/-! ### Bounds on the tables of a series -/

/-- The rounded sum of two rounded quotients, for two counters `ka`, `kb` with
`ka + kb ≤ n`. -/
theorem round_double_term {ka kb n : Int} (ha0 : 0 ≤ ka) (hb0 : 0 ≤ kb) (hab : ka + kb ≤ n)
    (hn : 0 < n) (hint : n ≤ 2147483647) :
    0 ≤ round_double (round_double ((ka : ℚ) / (n : ℚ)) + round_double ((kb : ℚ) / (n : ℚ)))
    ∧ round_double (round_double ((ka : ℚ) / (n : ℚ)) + round_double ((kb : ℚ) / (n : ℚ)))
        ≤ 1
    ∧ round_double (round_double ((ka : ℚ) / (n : ℚ)) + round_double ((kb : ℚ) / (n : ℚ)))
        ≤ ((ka : ℚ) + (kb : ℚ)) / (n : ℚ) * (1 + 1 / 2 ^ 53) + 1 / 2 ^ 53
    ∧ |round_double (round_double ((ka : ℚ) / (n : ℚ)) + round_double ((kb : ℚ) / (n : ℚ)))
        - ((ka : ℚ) + (kb : ℚ)) / (n : ℚ)| ≤ 1 / 2 ^ 52 := by
  obtain ⟨a0, a1, a2⟩ := round_double_frequency ha0 (by omega) hn hint
  obtain ⟨b0, b1, b2⟩ := round_double_frequency hb0 (by omega) hn hint
  have hnq : (0 : ℚ) < (n : ℚ) := by exact_mod_cast hn
  have habq : (ka : ℚ) + (kb : ℚ) ≤ (n : ℚ) := by exact_mod_cast hab
  have hp : ((ka : ℚ) + (kb : ℚ)) / (n : ℚ) ≤ 1 := (div_le_one hnq).mpr habq
  have hsum : round_double ((ka : ℚ) / (n : ℚ)) + round_double ((kb : ℚ) / (n : ℚ))
      ≤ ((ka : ℚ) + (kb : ℚ)) / (n : ℚ) * (1 + 1 / 2 ^ 53) := by
    rw [add_div, add_mul]; linarith
  have hle : round_double ((ka : ℚ) / (n : ℚ)) + round_double ((kb : ℚ) / (n : ℚ))
      ≤ 1 + 1 / 2 ^ 53 := by
    refine le_trans hsum ?_
    calc ((ka : ℚ) + (kb : ℚ)) / (n : ℚ) * (1 + 1 / 2 ^ 53) ≤ 1 * (1 + 1 / 2 ^ 53) :=
          mul_le_mul_of_nonneg_right hp (by norm_num)
      _ = 1 + 1 / 2 ^ 53 := one_mul _
  have herr := round_double_sub_le
    (round_double ((ka : ℚ) / (n : ℚ)) + round_double ((kb : ℚ) / (n : ℚ))) 0
    (by rw [abs_of_nonneg (add_nonneg a0 b0)]; norm_num at hle ⊢; linarith) (by norm_num)
  norm_num at herr
  rw [abs_le] at herr a2 b2
  refine ⟨round_double_nonneg (add_nonneg a0 b0), round_double_le_one hle, ?_, ?_⟩
  · norm_num at hsum ⊢; linarith [herr.2]
  · rw [abs_le, add_div]
    norm_num at a2 b2 ⊢
    constructor <;> linarith [herr.1, herr.2, a2.1, a2.2, b2.1, b2.2]

/-- The bounds of the estimate from those of the four combined terms. -/
theorem estimate_core_bounds {t1 t2 t3 t4 : ℚ} (h1 : 0 ≤ t1 ∧ t1 ≤ 1) (h2 : 0 ≤ t2 ∧ t2 ≤ 1)
    (h3 : 0 ≤ t3 ∧ t3 ≤ 1) (h4 : 0 ≤ t4 ∧ t4 ≤ 1) (hs : t1 + t4 ≤ 1 + 3 / 2 ^ 53) :
    -2 - 1 / 2 ^ 48 ≤ -round_double
          (round_double (round_double (sqrt_double t1 + sqrt_double t4)
              * round_double (sqrt_double t1 + sqrt_double t4))
            - round_double (round_double (sqrt_double t3 - sqrt_double t2)
              * round_double (sqrt_double t3 - sqrt_double t2)))
    ∧ -round_double
          (round_double (round_double (sqrt_double t1 + sqrt_double t4)
              * round_double (sqrt_double t1 + sqrt_double t4))
            - round_double (round_double (sqrt_double t3 - sqrt_double t2)
              * round_double (sqrt_double t3 - sqrt_double t2))) ≤ 1 := by
  have a0 := sqrt_double_nonneg t1
  have b0 := sqrt_double_nonneg t3
  have c0 := sqrt_double_nonneg t2
  have d0 := sqrt_double_nonneg t4
  have a1 := sqrt_double_le_one h1.2
  have b1 := sqrt_double_le_one h3.2
  have c1 := sqrt_double_le_one h2.2
  have d1 := sqrt_double_le_one h4.2
  have a2 := sqrt_double_sq_le h1.1
  have d2 := sqrt_double_sq_le h4.1
  generalize sqrt_double t1 = a at a0 a1 a2
  generalize sqrt_double t2 = c at c0 c1
  generalize sqrt_double t3 = b at b0 b1
  generalize sqrt_double t4 = d at d0 d1 d2
  -- the cosine estimate
  have hCerr := round_double_sub_le (a + d) 1
    (by rw [abs_of_nonneg (add_nonneg a0 d0)]; norm_num; linarith) (by norm_num)
  have hC0 : 0 ≤ round_double (a + d) := round_double_nonneg (add_nonneg a0 d0)
  norm_num at hCerr
  rw [abs_le] at hCerr
  have hsq : (a + d) ^ 2 ≤ 2 * (1 + 1 / 2 ^ 53) ^ 2 * (1 + 3 / 2 ^ 53) := by
    have : (a + d) ^ 2 ≤ 2 * (a ^ 2 + d ^ 2) := by nlinarith [sq_nonneg (a - d)]
    have h5 : a ^ 2 + d ^ 2 ≤ (t1 + t4) * (1 + 1 / 2 ^ 53) ^ 2 := by linarith
    have h6 : (t1 + t4) * (1 + 1 / 2 ^ 53) ^ 2 ≤ (1 + 3 / 2 ^ 53) * (1 + 1 / 2 ^ 53) ^ 2 :=
      mul_le_mul_of_nonneg_right hs (by positivity)
    linarith
  have hCle : round_double (a + d) ≤ (a + d) + 1 / 2 ^ 52 := by norm_num; linarith [hCerr.2]
  have hCC : round_double (a + d) * round_double (a + d) ≤ 2 + 1 / 2 ^ 48 := by
    have h7 : round_double (a + d) * round_double (a + d)
        ≤ ((a + d) + 1 / 2 ^ 52) * ((a + d) + 1 / 2 ^ 52) :=
      mul_le_mul hCle hCle hC0 (by linarith)
    have h8 : ((a + d) + 1 / 2 ^ 52) * ((a + d) + 1 / 2 ^ 52)
        = (a + d) ^ 2 + 2 * (1 / 2 ^ 52) * (a + d) + (1 / 2 ^ 52) ^ 2 := by ring
    have h9 : 2 * (1 / 2 ^ 52 : ℚ) * (a + d) ≤ 2 * (1 / 2 ^ 52) * 2 :=
      mul_le_mul_of_nonneg_left (by linarith) (by norm_num)
    have h10 : (2 : ℚ) * (1 + 1 / 2 ^ 53) ^ 2 * (1 + 3 / 2 ^ 53) + 2 * (1 / 2 ^ 52) * 2
        + (1 / 2 ^ 52) ^ 2 ≤ 2 + 1 / 2 ^ 48 := by norm_num
    linarith
  have hX0 : 0 ≤ round_double (round_double (a + d) * round_double (a + d)) :=
    round_double_nonneg (mul_nonneg hC0 hC0)
  have hX : round_double (round_double (a + d) * round_double (a + d)) ≤ 2 + 1 / 2 ^ 48 := by
    have := round_double_le (show |(2 ^ 49 + 1 : Int)| < 2 ^ 53 by norm_num)
      (show (-1074 : Int) ≤ -48 by norm_num) (by norm_num)
      (show round_double (a + d) * round_double (a + d)
        ≤ ((2 ^ 49 + 1 : Int) : ℚ) * 2 ^ (-48 : Int) by norm_num at hCC ⊢; linarith)
    norm_num at this ⊢; linarith
  -- the sine estimate
  have hS := round_double_abs_le_one (b - c) (by rw [abs_le]; constructor <;> linarith)
  have hSS : round_double (b - c) * round_double (b - c) ≤ 1 := by
    rw [← abs_mul_abs_self]
    calc |round_double (b - c)| * |round_double (b - c)| ≤ 1 * 1 :=
          mul_le_mul hS hS (abs_nonneg _) (by norm_num)
      _ = 1 := one_mul 1
  have hSS0 : 0 ≤ round_double (b - c) * round_double (b - c) := mul_self_nonneg _
  have hY0 : 0 ≤ round_double (round_double (b - c) * round_double (b - c)) :=
    round_double_nonneg hSS0
  have hY : round_double (round_double (b - c) * round_double (b - c)) ≤ 1 :=
    round_double_le_one (by linarith [show (0 : ℚ) ≤ 1 / 2 ^ 53 by positivity])
  generalize round_double (round_double (a + d) * round_double (a + d)) = X at hX0 hX
  generalize round_double (round_double (b - c) * round_double (b - c)) = Y at hY0 hY
  constructor
  · have := round_double_le (show |(2 ^ 49 + 1 : Int)| < 2 ^ 53 by norm_num)
      (show (-1074 : Int) ≤ -48 by norm_num) (by norm_num)
      (show X - Y ≤ ((2 ^ 49 + 1 : Int) : ℚ) * 2 ^ (-48 : Int) by norm_num at hX ⊢; linarith)
    norm_num at this ⊢; linarith
  · have := round_double_ge (show |(-1 : Int)| < 2 ^ 53 by norm_num)
      (show (-1074 : Int) ≤ 0 by norm_num) (by norm_num)
      (show ((-1 : Int) : ℚ) * 2 ^ (0 : Int) ≤ X - Y by norm_num; linarith)
    norm_num at this ⊢; linarith

end Craytons

namespace Craytons

/-- The four combined terms of a table whose eight counters are non-negative and sum to
`number_of_events > 0`, an `int`: each is a number of `[0, 1]`, and their sum is within
`2 ^ -50` of `1`. -/
theorem combined_terms_double_of_table {scalar : Type} (sdata : series_data scalar)
    (hcounters : ∀ (k : crayton) (w1 w2 : way), 0 ≤ sdata.counter k w1 w2)
    (htotal : sdata.total = sdata.number_of_events) (hpos : 0 < sdata.number_of_events)
    (hint : sdata.number_of_events ≤ 2147483647) :
    ∃ t1 t2 t3 t4 : ℚ,
      estimate_of_cos2_phi1_cos2_phi2_double (frequencies_of_double sdata) = double.finite t1
      ∧ estimate_of_cos2_phi1_sin2_phi2_double (frequencies_of_double sdata) = double.finite t2
      ∧ estimate_of_sin2_phi1_cos2_phi2_double (frequencies_of_double sdata) = double.finite t3
      ∧ estimate_of_sin2_phi1_sin2_phi2_double (frequencies_of_double sdata) = double.finite t4
      ∧ (0 ≤ t1 ∧ t1 ≤ 1) ∧ (0 ≤ t2 ∧ t2 ≤ 1) ∧ (0 ≤ t3 ∧ t3 ≤ 1) ∧ (0 ≤ t4 ∧ t4 ≤ 1)
      ∧ |t1 + t2 + t3 + t4 - 1| ≤ 1 / 2 ^ 50
      ∧ t1 + t4 ≤ 1 + 3 / 2 ^ 53 := by
  have c1 := hcounters crayton.updown way.plus way.plus
  have c2 := hcounters crayton.updown way.plus way.minus
  have c3 := hcounters crayton.updown way.minus way.plus
  have c4 := hcounters crayton.updown way.minus way.minus
  have c5 := hcounters crayton.sideways way.plus way.plus
  have c6 := hcounters crayton.sideways way.plus way.minus
  have c7 := hcounters crayton.sideways way.minus way.plus
  have c8 := hcounters crayton.sideways way.minus way.minus
  have ht : sdata.counter crayton.updown way.plus way.plus
      + sdata.counter crayton.updown way.plus way.minus
      + sdata.counter crayton.updown way.minus way.plus
      + sdata.counter crayton.updown way.minus way.minus
      + sdata.counter crayton.sideways way.plus way.plus
      + sdata.counter crayton.sideways way.plus way.minus
      + sdata.counter crayton.sideways way.minus way.plus
      + sdata.counter crayton.sideways way.minus way.minus = sdata.number_of_events := by
    rw [← htotal]; rfl
  have hk : ∀ (k : crayton) (w1 w2 : way), |sdata.counter k w1 w2| < 2 ^ 53 := by
    intro k w1 w2
    have h0 := hcounters k w1 w2
    rw [abs_of_nonneg h0]
    cases k <;> cases w1 <;> cases w2 <;> omega
  have hn : |sdata.number_of_events| < 2 ^ 53 := by
    rw [abs_of_pos hpos]; omega
  obtain ⟨e1, e2, e3, e4⟩ := combined_terms_double sdata hk hn hpos.ne'
  obtain ⟨p1, q1, r1, s1⟩ := round_double_term c3 c6 (by omega) hpos hint
  obtain ⟨p2, q2, r2, s2⟩ := round_double_term c4 c5 (by omega) hpos hint
  obtain ⟨p3, q3, r3, s3⟩ := round_double_term c1 c8 (by omega) hpos hint
  obtain ⟨p4, q4, r4, s4⟩ := round_double_term c2 c7 (by omega) hpos hint
  have hnq : (0 : ℚ) < (sdata.number_of_events : ℚ) := by exact_mod_cast hpos
  have hsum : ((sdata.counter crayton.updown way.minus way.plus : ℚ)
        + (sdata.counter crayton.sideways way.plus way.minus : ℚ))
          / (sdata.number_of_events : ℚ)
      + ((sdata.counter crayton.updown way.minus way.minus : ℚ)
        + (sdata.counter crayton.sideways way.plus way.plus : ℚ))
          / (sdata.number_of_events : ℚ)
      + ((sdata.counter crayton.updown way.plus way.plus : ℚ)
        + (sdata.counter crayton.sideways way.minus way.minus : ℚ))
          / (sdata.number_of_events : ℚ)
      + ((sdata.counter crayton.updown way.plus way.minus : ℚ)
        + (sdata.counter crayton.sideways way.minus way.plus : ℚ))
          / (sdata.number_of_events : ℚ) = 1 := by
    rw [← add_div, ← add_div, ← add_div, div_eq_one_iff_eq hnq.ne', ← ht]
    push_cast
    ring
  have hhalf : ((sdata.counter crayton.updown way.minus way.plus : ℚ)
        + (sdata.counter crayton.sideways way.plus way.minus : ℚ))
          / (sdata.number_of_events : ℚ)
      + ((sdata.counter crayton.updown way.plus way.minus : ℚ)
        + (sdata.counter crayton.sideways way.minus way.plus : ℚ))
          / (sdata.number_of_events : ℚ) ≤ 1 := by
    rw [← add_div, div_le_one hnq]
    have : sdata.counter crayton.updown way.minus way.plus
        + sdata.counter crayton.sideways way.plus way.minus
        + (sdata.counter crayton.updown way.plus way.minus
        + sdata.counter crayton.sideways way.minus way.plus) ≤ sdata.number_of_events := by
      omega
    exact_mod_cast this
  refine ⟨_, _, _, _, e1, e2, e3, e4, ⟨p1, q1⟩, ⟨p2, q2⟩, ⟨p3, q3⟩, ⟨p4, q4⟩, ?_, ?_⟩
  · rw [abs_le] at s1 s2 s3 s4 ⊢
    norm_num at s1 s2 s3 s4 ⊢
    constructor <;> linarith [s1.1, s1.2, s2.1, s2.2, s3.1, s3.2, s4.1, s4.2]
  · norm_num at r1 r4 hhalf ⊢
    linarith

/-- The estimate on a table whose eight counters are non-negative and sum to
`number_of_events > 0`, an `int`: a number between `-2 - 2 ^ -48` and `1`. -/
theorem estimate_double_of_table {scalar : Type} (sdata : series_data scalar)
    (hcounters : ∀ (k : crayton) (w1 w2 : way), 0 ≤ sdata.counter k w1 w2)
    (htotal : sdata.total = sdata.number_of_events) (hpos : 0 < sdata.number_of_events)
    (hint : sdata.number_of_events ≤ 2147483647) :
    ∃ r : ℚ, correlation_coefficient_estimate_double sdata = double.finite r
      ∧ -2 - 1 / 2 ^ 48 ≤ r ∧ r ≤ 1 := by
  obtain ⟨t1, t2, t3, t4, e1, e2, e3, e4, h1, h2, h3, h4, -, hs⟩ :=
    combined_terms_double_of_table sdata hcounters htotal hpos hint
  exact ⟨_, estimate_double_of_terms _ e1 e2 e3 e4 h1 h2 h3 h4,
    estimate_core_bounds h1 h2 h3 h4 hs⟩

end Craytons

namespace Craytons

theorem round_double_half : round_double (1 / 2) = 1 / 2 := by
  have := round_double_representable 1 (-1) (by norm_num) (by norm_num)
  norm_num at this ⊢
  exact this

theorem two_opposite_events_terms {scalar : Type} (angle1 angle2 : scalar) :
    estimate_of_cos2_phi1_cos2_phi2_double
        (frequencies_of_double (two_opposite_events_table angle1 angle2)) = double.finite (1 / 2)
    ∧ estimate_of_cos2_phi1_sin2_phi2_double
        (frequencies_of_double (two_opposite_events_table angle1 angle2)) = double.finite 0
    ∧ estimate_of_sin2_phi1_cos2_phi2_double
        (frequencies_of_double (two_opposite_events_table angle1 angle2)) = double.finite 0
    ∧ estimate_of_sin2_phi1_sin2_phi2_double
        (frequencies_of_double (two_opposite_events_table angle1 angle2))
          = double.finite (1 / 2) := by
  have h := combined_terms_double (two_opposite_events_table angle1 angle2)
    (by intro k w1 w2; cases k <;> cases w1 <;> cases w2 <;>
          simp [two_opposite_events_table, series_data.counter])
    (by simp [two_opposite_events_table]) (by simp [two_opposite_events_table])
  simp only [two_opposite_events_table, series_data.counter, Int.cast_one, Int.cast_zero,
    Int.cast_ofNat, zero_div, round_double_zero, add_zero, zero_add, round_double_half] at h
  exact h

theorem estimate_double_two_opposite_events {scalar : Type} (angle1 angle2 : scalar) :
    correlation_coefficient_estimate_double (two_opposite_events_table angle1 angle2)
      = double.finite (-(2 + 1 / 2 ^ 51)) := by
  obtain ⟨e1, e2, e3, e4⟩ := two_opposite_events_terms angle1 angle2
  have hC : round_double (sqrt_double (1 / 2) + sqrt_double (1 / 2))
      = 6369051672525773 / 2 ^ 52 := by
    have := round_double_representable 6369051672525773 (-52) (by norm_num) (by norm_num)
    rw [sqrt_double_half]
    norm_num at this ⊢
    exact this
  have hX : round_double ((6369051672525773 / 2 ^ 52 : ℚ) * (6369051672525773 / 2 ^ 52))
      = 2 + 1 / 2 ^ 51 := by
    have := round_double_eq ((6369051672525773 / 2 ^ 52 : ℚ) * (6369051672525773 / 2 ^ 52))
      1 (2 ^ 52 + 1) (by norm_num [abs_of_pos]) (by norm_num [abs_of_pos])
      (by norm_num) (by rw [abs_lt]; constructor <;> norm_num)
    rw [this]
    norm_num
  have hW : round_double ((2 + 1 / 2 ^ 51 : ℚ) - 0) = 2 + 1 / 2 ^ 51 := by
    have := round_double_representable (2 ^ 52 + 1) (-51) (by norm_num) (by norm_num)
    norm_num at this ⊢
    exact this
  rw [correlation_coefficient_estimate_double,
    estimate_double_of_terms _ e1 e2 e3 e4 (by norm_num) (by norm_num) (by norm_num)
      (by norm_num),
    hC, hX, sqrt_double_of_nonpos (le_refl 0), sub_zero, round_double_zero, mul_zero,
    round_double_zero, hW]

end Craytons

namespace Craytons

theorem round_double_neg_one : round_double (-1) = -1 := by
  have := round_double_intCast (show |(-1 : Int)| < 2 ^ 53 by norm_num)
  simpa using this

theorem one_event_terms {scalar : Type} (angle1 angle2 : scalar) :
    estimate_of_cos2_phi1_cos2_phi2_double
        (frequencies_of_double (one_event_table angle1 angle2)) = double.finite 0
    ∧ estimate_of_cos2_phi1_sin2_phi2_double
        (frequencies_of_double (one_event_table angle1 angle2)) = double.finite 0
    ∧ estimate_of_sin2_phi1_cos2_phi2_double
        (frequencies_of_double (one_event_table angle1 angle2)) = double.finite 1
    ∧ estimate_of_sin2_phi1_sin2_phi2_double
        (frequencies_of_double (one_event_table angle1 angle2)) = double.finite 0 := by
  have h := combined_terms_double (one_event_table angle1 angle2)
    (by intro k w1 w2; cases k <;> cases w1 <;> cases w2 <;>
          simp [one_event_table, series_data.counter])
    (by simp [one_event_table]) (by simp [one_event_table])
  simp only [one_event_table, series_data.counter, Int.cast_one, Int.cast_zero,
    zero_div, div_one, round_double_zero, add_zero, zero_add, round_double_one] at h
  exact h

theorem estimate_double_one_event {scalar : Type} (angle1 angle2 : scalar) :
    correlation_coefficient_estimate_double (one_event_table angle1 angle2)
      = double.finite 1 := by
  obtain ⟨e1, e2, e3, e4⟩ := one_event_terms angle1 angle2
  rw [correlation_coefficient_estimate_double,
    estimate_double_of_terms _ e1 e2 e3 e4 (by norm_num) (by norm_num) (by norm_num)
      (by norm_num),
    sqrt_double_of_nonpos (le_refl 0), sqrt_double_one, add_zero, sub_zero, round_double_zero,
    mul_zero, round_double_zero, round_double_one, mul_one, round_double_one, zero_sub,
    round_double_neg_one, neg_neg]

theorem degenerate_table_term :
    estimate_of_cos2_phi1_cos2_phi2_double (frequencies_of_double (degenerate_table ℚ))
      = double.finite (-1) := by
  have h := (combined_terms_double (degenerate_table ℚ)
    (by intro k w1 w2; cases k <;> cases w1 <;> cases w2 <;>
          simp [degenerate_table, series_data.counter])
    (by simp [degenerate_table]) (by simp [degenerate_table])).1
  simp only [degenerate_table, series_data.counter, Int.cast_one, Int.cast_zero, Int.cast_neg,
    zero_div, div_one, round_double_zero, add_zero, round_double_neg_one] at h
  exact h

theorem round_double_two_thirds : round_double (4 / 6) = 6004799503160661 / 2 ^ 53 := by
  have := round_double_eq (4 / 6) (-1) 6004799503160661 (by norm_num [abs_of_pos])
    (by norm_num [abs_of_pos]) (by norm_num) (by rw [abs_lt]; constructor <;> norm_num)
  rw [this]
  norm_num

theorem round_double_one_sixth : round_double (1 / 6) = 6004799503160661 / 2 ^ 55 := by
  have := round_double_eq (1 / 6) (-3) 6004799503160661 (by norm_num [abs_of_pos])
    (by norm_num [abs_of_pos]) (by norm_num) (by rw [abs_lt]; constructor <;> norm_num)
  rw [this]
  norm_num

theorem six_events_terms {scalar : Type} (angle1 angle2 : scalar) :
    estimate_of_cos2_phi1_cos2_phi2_double
        (frequencies_of_double (six_events_table angle1 angle2))
          = double.finite (6004799503160661 / 2 ^ 53)
    ∧ estimate_of_cos2_phi1_sin2_phi2_double
        (frequencies_of_double (six_events_table angle1 angle2))
          = double.finite (6004799503160661 / 2 ^ 55)
    ∧ estimate_of_sin2_phi1_cos2_phi2_double
        (frequencies_of_double (six_events_table angle1 angle2)) = double.finite 0
    ∧ estimate_of_sin2_phi1_sin2_phi2_double
        (frequencies_of_double (six_events_table angle1 angle2))
          = double.finite (6004799503160661 / 2 ^ 55) := by
  have r1 : round_double (6004799503160661 / 2 ^ 53) = 6004799503160661 / 2 ^ 53 := by
    have := round_double_representable 6004799503160661 (-53) (by norm_num) (by norm_num)
    norm_num at this ⊢
    exact this
  have r2 : round_double (6004799503160661 / 2 ^ 55) = 6004799503160661 / 2 ^ 55 := by
    have := round_double_representable 6004799503160661 (-55) (by norm_num) (by norm_num)
    norm_num at this ⊢
    exact this
  have h := combined_terms_double (six_events_table angle1 angle2)
    (by intro k w1 w2; cases k <;> cases w1 <;> cases w2 <;>
          simp [six_events_table, series_data.counter])
    (by simp [six_events_table]) (by simp [six_events_table])
  simp only [six_events_table, series_data.counter, Int.cast_one, Int.cast_zero,
    Int.cast_ofNat, zero_div, round_double_zero, add_zero, zero_add, round_double_two_thirds,
    round_double_one_sixth, r1, r2] at h
  exact h

end Craytons

namespace EPRB

/-! ### The frequencies of an array of trials in `double` -/

theorem count_loop_none_of_mixed (σ : signal) (τ1 τ2 : tag)
    (raw_data : List tagged_signal_pair) (h : ∃ p ∈ raw_data, p.pair0.σ ≠ p.pair1.σ) :
    ∀ n : Nat, count_loop σ τ1 τ2 raw_data n = none := by
  induction raw_data with
  | nil => obtain ⟨p, hp, -⟩ := h; exact absurd hp (List.not_mem_nil p)
  | cons q rest ih =>
    intro n
    rw [count_loop]
    by_cases hq : q.pair0.σ = q.pair1.σ
    · rw [if_pos hq]
      obtain ⟨p, hp, hne⟩ := h
      rcases List.mem_cons.mp hp with rfl | hp
      · exact absurd hq hne
      · exact ih ⟨p, hp, hne⟩ _
    · rw [if_neg hq]

theorem trials_in_class_le (raw_data : List tagged_signal_pair) (σ : signal) (τ1 τ2 : tag) :
    trials_in_class raw_data σ τ1 τ2 ≤ raw_data.length :=
  List.countP_le_length _

theorem frequency_double_eq (raw_data : List tagged_signal_pair)
    (hlen : raw_data.length = RUN_LENGTH) (hσ : ∀ p ∈ raw_data, p.pair0.σ = p.pair1.σ)
    (σ : signal) (τ1 τ2 : tag) :
    frequency_double raw_data σ τ1 τ2
      = some (double.finite
          (round_double ((trials_in_class raw_data σ τ1 τ2 : ℚ) / (RUN_LENGTH : ℚ)))) := by
  have hle := trials_in_class_le raw_data σ τ1 τ2
  rw [hlen] at hle
  have hR : RUN_LENGTH = 1000000 := rfl
  have hk : |(trials_in_class raw_data σ τ1 τ2 : Int)| < 2 ^ 53 := by
    rw [abs_of_nonneg (Int.natCast_nonneg _)]; omega
  have hn : |(RUN_LENGTH : Int)| < 2 ^ 53 := by
    rw [abs_of_nonneg (Int.natCast_nonneg _)]; omega
  have hn0 : ((RUN_LENGTH : Int) : ℚ) ≠ 0 := by rw [hR]; norm_num
  rw [frequency_double, count, count_loop_eq σ τ1 τ2 raw_data hσ, Nat.zero_add]
  simp only
  rw [of_int_eq hk, of_int_eq hn, double.div_finite _ hn0, of_rat_of_abs_le]
  · simp only [Int.cast_natCast]
  · have := @Craytons.abs_div_intCast_le (trials_in_class raw_data σ τ1 τ2 : Int)
      (RUN_LENGTH : Int) (by rw [hR]; norm_num)
    exact le_trans this (le_trans (abs_intCast_lt hk).le (by norm_num))

theorem round_double_trials (raw_data : List tagged_signal_pair)
    (hlen : raw_data.length = RUN_LENGTH) (σ : signal) (τ1 τ2 : tag) :
    |round_double ((trials_in_class raw_data σ τ1 τ2 : ℚ) / (RUN_LENGTH : ℚ))
      - (trials_in_class raw_data σ τ1 τ2 : ℚ) / (RUN_LENGTH : ℚ)| ≤ 1 / 2 ^ 54 := by
  have hle := trials_in_class_le raw_data σ τ1 τ2
  rw [hlen] at hle
  have hR : RUN_LENGTH = 1000000 := rfl
  have := (@round_double_frequency (trials_in_class raw_data σ τ1 τ2 : Int)
    (RUN_LENGTH : Int) (Int.natCast_nonneg _) (by exact_mod_cast hle)
    (by rw [hR]; norm_num) (by rw [hR]; norm_num)).2.2
  simpa only [Int.cast_natCast] using this

end EPRB

namespace EPRB

theorem uneven_array_length : uneven_array.length = RUN_LENGTH := by
  simp only [uneven_array, List.length_append, List.length_replicate]
  rfl

theorem uneven_array_plain : ∀ p ∈ uneven_array, p.pair0.σ = p.pair1.σ := by
  intro p hp
  simp only [uneven_array, List.mem_append, List.mem_replicate] at hp
  rcases hp with (⟨-, rfl⟩ | ⟨-, rfl⟩) | ⟨-, rfl⟩ <;> rfl

theorem uneven_array_trials :
    trials_in_class uneven_array signal.COUNTERCLOCKWISE tag.CIRCLED_PLUS tag.CIRCLED_PLUS
      = 300000
    ∧ trials_in_class uneven_array signal.COUNTERCLOCKWISE tag.CIRCLED_PLUS tag.CIRCLED_MINUS
      = 600000
    ∧ trials_in_class uneven_array signal.COUNTERCLOCKWISE tag.CIRCLED_MINUS tag.CIRCLED_PLUS
      = 0
    ∧ trials_in_class uneven_array signal.COUNTERCLOCKWISE tag.CIRCLED_MINUS tag.CIRCLED_MINUS
      = 0
    ∧ trials_in_class uneven_array signal.CLOCKWISE tag.CIRCLED_PLUS tag.CIRCLED_PLUS = 100000
    ∧ trials_in_class uneven_array signal.CLOCKWISE tag.CIRCLED_PLUS tag.CIRCLED_MINUS = 0
    ∧ trials_in_class uneven_array signal.CLOCKWISE tag.CIRCLED_MINUS tag.CIRCLED_PLUS = 0
    ∧ trials_in_class uneven_array signal.CLOCKWISE tag.CIRCLED_MINUS tag.CIRCLED_MINUS = 0 := by
  simp only [trials_in_class, uneven_array, List.countP_append, List.countP_replicate]
  simp only [reduceCtorEq, and_self, and_true, true_and, false_and, and_false,
    decide_True, decide_False, if_true, if_false, Bool.false_eq_true, add_zero, zero_add]

theorem round_double_six_tenths :
    round_double (600000 / 1000000) = 5404319552844595 / 2 ^ 53 := by
  have := round_double_eq (600000 / 1000000) (-1) 5404319552844595 (by norm_num [abs_of_pos])
    (by norm_num [abs_of_pos]) (by norm_num) (by rw [abs_lt]; constructor <;> norm_num)
  rw [this]
  norm_num

theorem round_double_three_tenths :
    round_double (300000 / 1000000) = 5404319552844595 / 2 ^ 54 := by
  have := round_double_eq (300000 / 1000000) (-2) 5404319552844595 (by norm_num [abs_of_pos])
    (by norm_num [abs_of_pos]) (by norm_num) (by rw [abs_lt]; constructor <;> norm_num)
  rw [this]
  norm_num

theorem round_double_one_tenth :
    round_double (100000 / 1000000) = 3602879701896397 / 2 ^ 55 := by
  have := round_double_eq (100000 / 1000000) (-4) 7205759403792794 (by norm_num [abs_of_pos])
    (by norm_num [abs_of_pos]) (by norm_num) (by rw [abs_lt]; constructor <;> norm_num)
  rw [this]
  norm_num

theorem uneven_array_frequencies :
    frequency_double uneven_array signal.COUNTERCLOCKWISE tag.CIRCLED_PLUS tag.CIRCLED_PLUS
      = some (double.finite (5404319552844595 / 2 ^ 54))
    ∧ frequency_double uneven_array signal.COUNTERCLOCKWISE tag.CIRCLED_PLUS tag.CIRCLED_MINUS
      = some (double.finite (5404319552844595 / 2 ^ 53))
    ∧ frequency_double uneven_array signal.COUNTERCLOCKWISE tag.CIRCLED_MINUS tag.CIRCLED_PLUS
      = some (double.finite 0)
    ∧ frequency_double uneven_array signal.COUNTERCLOCKWISE tag.CIRCLED_MINUS tag.CIRCLED_MINUS
      = some (double.finite 0)
    ∧ frequency_double uneven_array signal.CLOCKWISE tag.CIRCLED_PLUS tag.CIRCLED_PLUS
      = some (double.finite (3602879701896397 / 2 ^ 55))
    ∧ frequency_double uneven_array signal.CLOCKWISE tag.CIRCLED_PLUS tag.CIRCLED_MINUS
      = some (double.finite 0)
    ∧ frequency_double uneven_array signal.CLOCKWISE tag.CIRCLED_MINUS tag.CIRCLED_PLUS
      = some (double.finite 0)
    ∧ frequency_double uneven_array signal.CLOCKWISE tag.CIRCLED_MINUS tag.CIRCLED_MINUS
      = some (double.finite 0) := by
  obtain ⟨t1, t2, t3, t4, t5, t6, t7, t8⟩ := uneven_array_trials
  have hR : ((RUN_LENGTH : Nat) : ℚ) = 1000000 := by norm_num [RUN_LENGTH]
  simp only [frequency_double_eq uneven_array uneven_array_length uneven_array_plain,
    t1, t2, t3, t4, t5, t6, t7, t8, hR, Nat.cast_ofNat, Nat.cast_zero, zero_div,
    round_double_zero, round_double_six_tenths, round_double_three_tenths,
    round_double_one_tenth]
  simp

end EPRB

namespace EPRB

theorem frequencies_sum_near_one (raw_data : List tagged_signal_pair)
    (hlen : raw_data.length = RUN_LENGTH) :
    |round_double ((trials_in_class raw_data signal.COUNTERCLOCKWISE tag.CIRCLED_PLUS
            tag.CIRCLED_PLUS : ℚ) / (RUN_LENGTH : ℚ))
        + round_double ((trials_in_class raw_data signal.COUNTERCLOCKWISE tag.CIRCLED_PLUS
            tag.CIRCLED_MINUS : ℚ) / (RUN_LENGTH : ℚ))
        + round_double ((trials_in_class raw_data signal.COUNTERCLOCKWISE tag.CIRCLED_MINUS
            tag.CIRCLED_PLUS : ℚ) / (RUN_LENGTH : ℚ))
        + round_double ((trials_in_class raw_data signal.COUNTERCLOCKWISE tag.CIRCLED_MINUS
            tag.CIRCLED_MINUS : ℚ) / (RUN_LENGTH : ℚ))
        + round_double ((trials_in_class raw_data signal.CLOCKWISE tag.CIRCLED_PLUS
            tag.CIRCLED_PLUS : ℚ) / (RUN_LENGTH : ℚ))
        + round_double ((trials_in_class raw_data signal.CLOCKWISE tag.CIRCLED_PLUS
            tag.CIRCLED_MINUS : ℚ) / (RUN_LENGTH : ℚ))
        + round_double ((trials_in_class raw_data signal.CLOCKWISE tag.CIRCLED_MINUS
            tag.CIRCLED_PLUS : ℚ) / (RUN_LENGTH : ℚ))
        + round_double ((trials_in_class raw_data signal.CLOCKWISE tag.CIRCLED_MINUS
            tag.CIRCLED_MINUS : ℚ) / (RUN_LENGTH : ℚ))
      - 1| ≤ 1 / 2 ^ 51 := by
  have hsum := trials_in_class_sum raw_data
  rw [hlen] at hsum
  have hR : ((RUN_LENGTH : Nat) : ℚ) ≠ 0 := by norm_num [RUN_LENGTH]
  have hq : (trials_in_class raw_data signal.COUNTERCLOCKWISE tag.CIRCLED_PLUS
          tag.CIRCLED_PLUS : ℚ) / (RUN_LENGTH : ℚ)
      + (trials_in_class raw_data signal.COUNTERCLOCKWISE tag.CIRCLED_PLUS
          tag.CIRCLED_MINUS : ℚ) / (RUN_LENGTH : ℚ)
      + (trials_in_class raw_data signal.COUNTERCLOCKWISE tag.CIRCLED_MINUS
          tag.CIRCLED_PLUS : ℚ) / (RUN_LENGTH : ℚ)
      + (trials_in_class raw_data signal.COUNTERCLOCKWISE tag.CIRCLED_MINUS
          tag.CIRCLED_MINUS : ℚ) / (RUN_LENGTH : ℚ)
      + (trials_in_class raw_data signal.CLOCKWISE tag.CIRCLED_PLUS
          tag.CIRCLED_PLUS : ℚ) / (RUN_LENGTH : ℚ)
      + (trials_in_class raw_data signal.CLOCKWISE tag.CIRCLED_PLUS
          tag.CIRCLED_MINUS : ℚ) / (RUN_LENGTH : ℚ)
      + (trials_in_class raw_data signal.CLOCKWISE tag.CIRCLED_MINUS
          tag.CIRCLED_PLUS : ℚ) / (RUN_LENGTH : ℚ)
      + (trials_in_class raw_data signal.CLOCKWISE tag.CIRCLED_MINUS
          tag.CIRCLED_MINUS : ℚ) / (RUN_LENGTH : ℚ) = 1 := by
    simp only [← add_div]
    rw [div_eq_one_iff_eq hR]
    exact_mod_cast hsum
  have e := fun σ τ1 τ2 => abs_le.mp (round_double_trials raw_data hlen σ τ1 τ2)
  have e1 := e signal.COUNTERCLOCKWISE tag.CIRCLED_PLUS tag.CIRCLED_PLUS
  have e2 := e signal.COUNTERCLOCKWISE tag.CIRCLED_PLUS tag.CIRCLED_MINUS
  have e3 := e signal.COUNTERCLOCKWISE tag.CIRCLED_MINUS tag.CIRCLED_PLUS
  have e4 := e signal.COUNTERCLOCKWISE tag.CIRCLED_MINUS tag.CIRCLED_MINUS
  have e5 := e signal.CLOCKWISE tag.CIRCLED_PLUS tag.CIRCLED_PLUS
  have e6 := e signal.CLOCKWISE tag.CIRCLED_PLUS tag.CIRCLED_MINUS
  have e7 := e signal.CLOCKWISE tag.CIRCLED_MINUS tag.CIRCLED_PLUS
  have e8 := e signal.CLOCKWISE tag.CIRCLED_MINUS tag.CIRCLED_MINUS
  rw [abs_le]
  norm_num at e1 e2 e3 e4 e5 e6 e7 e8 ⊢
  constructor <;>
    linarith [e1.1, e1.2, e2.1, e2.2, e3.1, e3.2, e4.1, e4.2, e5.1, e5.2, e6.1, e6.2, e7.1,
      e7.2, e8.1, e8.2]

/-- C16 (as amended): take a raw data array of `RUN_LENGTH` trials. If the two signals of
every trial carry the same orientation, as the assertion of `count` requires, then `count`
returns for each class `(σ, τ1, τ2)` the number of trials of that class; every trial is in
exactly one of the eight classes; the eight counts sum to `RUN_LENGTH`; each value of
`frequency` is the `double` nearest to the count divided by `RUN_LENGTH`; and the sum of
these eight `double`s is within `2 ^ -51` of `1`. If some trial carries two different
orientations, `count` fails its assertion for every class, and so does `frequency`. -/
theorem count_partition (raw_data : List tagged_signal_pair)
    (hlen : raw_data.length = RUN_LENGTH) :
    ((∀ p ∈ raw_data, p.pair0.σ = p.pair1.σ) →
      (∀ (σ : signal) (τ1 τ2 : tag),
        count raw_data σ τ1 τ2 = some (trials_in_class raw_data σ τ1 τ2))
      ∧ (∀ p ∈ raw_data, ∃! c : signal × tag × tag,
          p.pair0.σ = c.1 ∧ p.pair0.τ = c.2.1 ∧ p.pair1.τ = c.2.2)
      ∧ trials_in_class raw_data signal.COUNTERCLOCKWISE tag.CIRCLED_PLUS tag.CIRCLED_PLUS
          + trials_in_class raw_data signal.COUNTERCLOCKWISE tag.CIRCLED_PLUS tag.CIRCLED_MINUS
          + trials_in_class raw_data signal.COUNTERCLOCKWISE tag.CIRCLED_MINUS tag.CIRCLED_PLUS
          + trials_in_class raw_data signal.COUNTERCLOCKWISE tag.CIRCLED_MINUS tag.CIRCLED_MINUS
          + trials_in_class raw_data signal.CLOCKWISE tag.CIRCLED_PLUS tag.CIRCLED_PLUS
          + trials_in_class raw_data signal.CLOCKWISE tag.CIRCLED_PLUS tag.CIRCLED_MINUS
          + trials_in_class raw_data signal.CLOCKWISE tag.CIRCLED_MINUS tag.CIRCLED_PLUS
          + trials_in_class raw_data signal.CLOCKWISE tag.CIRCLED_MINUS tag.CIRCLED_MINUS
        = RUN_LENGTH
      ∧ (∀ (σ : signal) (τ1 τ2 : tag),
        frequency_double raw_data σ τ1 τ2
          = some (double.finite
              (round_double ((trials_in_class raw_data σ τ1 τ2 : ℚ) / (RUN_LENGTH : ℚ)))))
      ∧ |round_double ((trials_in_class raw_data signal.COUNTERCLOCKWISE tag.CIRCLED_PLUS
                tag.CIRCLED_PLUS : ℚ) / (RUN_LENGTH : ℚ))
            + round_double ((trials_in_class raw_data signal.COUNTERCLOCKWISE tag.CIRCLED_PLUS
                tag.CIRCLED_MINUS : ℚ) / (RUN_LENGTH : ℚ))
            + round_double ((trials_in_class raw_data signal.COUNTERCLOCKWISE tag.CIRCLED_MINUS
                tag.CIRCLED_PLUS : ℚ) / (RUN_LENGTH : ℚ))
            + round_double ((trials_in_class raw_data signal.COUNTERCLOCKWISE tag.CIRCLED_MINUS
                tag.CIRCLED_MINUS : ℚ) / (RUN_LENGTH : ℚ))
            + round_double ((trials_in_class raw_data signal.CLOCKWISE tag.CIRCLED_PLUS
                tag.CIRCLED_PLUS : ℚ) / (RUN_LENGTH : ℚ))
            + round_double ((trials_in_class raw_data signal.CLOCKWISE tag.CIRCLED_PLUS
                tag.CIRCLED_MINUS : ℚ) / (RUN_LENGTH : ℚ))
            + round_double ((trials_in_class raw_data signal.CLOCKWISE tag.CIRCLED_MINUS
                tag.CIRCLED_PLUS : ℚ) / (RUN_LENGTH : ℚ))
            + round_double ((trials_in_class raw_data signal.CLOCKWISE tag.CIRCLED_MINUS
                tag.CIRCLED_MINUS : ℚ) / (RUN_LENGTH : ℚ))
          - 1| ≤ 1 / 2 ^ 51)
    ∧ ((∃ p ∈ raw_data, p.pair0.σ ≠ p.pair1.σ) →
      ∀ (σ : signal) (τ1 τ2 : tag),
        count raw_data σ τ1 τ2 = none ∧ frequency_double raw_data σ τ1 τ2 = none) := by
  constructor
  · intro hσ
    have hsum := trials_in_class_sum raw_data
    rw [hlen] at hsum
    refine ⟨fun σ τ1 τ2 => ?_, ?_, hsum, frequency_double_eq raw_data hlen hσ,
      frequencies_sum_near_one raw_data hlen⟩
    · rw [count, count_loop_eq σ τ1 τ2 raw_data hσ, Nat.zero_add]
    · intro p _
      refine ⟨(p.pair0.σ, p.pair0.τ, p.pair1.τ), ⟨rfl, rfl, rfl⟩, ?_⟩
      rintro ⟨c1, c2, c3⟩ ⟨h1, h2, h3⟩
      simp only at h1 h2 h3
      rw [h1, h2, h3]
  · intro hmixed σ τ1 τ2
    have h : count raw_data σ τ1 τ2 = none := count_loop_none_of_mixed σ τ1 τ2 raw_data hmixed 0
    exact ⟨h, by rw [frequency_double, h]⟩

/-- C16 (witness): the array of 600000, 300000 and 100000 trials of three classes. -/
theorem count_partition_witness :
    uneven_array.length = RUN_LENGTH
    ∧ (∀ p ∈ uneven_array, p.pair0.σ = p.pair1.σ)
    ∧ ∀ (σ : signal) (τ1 τ2 : tag),
        count uneven_array σ τ1 τ2 = some (trials_in_class uneven_array σ τ1 τ2) :=
  ⟨uneven_array_length, uneven_array_plain,
    ((count_partition uneven_array uneven_array_length).1 uneven_array_plain).1⟩

/-- C16 (counterexample): on an array of `RUN_LENGTH` trials whose two signals carry
different orientations, `count` fails its assertion for every class, so that there are no
eight counts to sum. And on the array of 600000, 300000 and 100000 trials of three classes,
on which `count` succeeds, the eight values of `frequency` are the `double`s nearest to
`0.3`, `0.6`, `0`, `0`, `0.1`, `0`, `0`, `0`, whose sum is `1 - 2 ^ -55`, not `1`. -/
theorem count_fails_and_frequencies_miss_one :
    ((List.replicate RUN_LENGTH mixed_trial).length = RUN_LENGTH
      ∧ ∀ (σ : signal) (τ1 τ2 : tag),
          count (List.replicate RUN_LENGTH mixed_trial) σ τ1 τ2 = none)
    ∧ uneven_array.length = RUN_LENGTH
    ∧ (∀ p ∈ uneven_array, p.pair0.σ = p.pair1.σ)
    ∧ frequency_double uneven_array signal.COUNTERCLOCKWISE tag.CIRCLED_PLUS tag.CIRCLED_PLUS
      = some (double.finite (5404319552844595 / 2 ^ 54))
    ∧ frequency_double uneven_array signal.COUNTERCLOCKWISE tag.CIRCLED_PLUS tag.CIRCLED_MINUS
      = some (double.finite (5404319552844595 / 2 ^ 53))
    ∧ frequency_double uneven_array signal.COUNTERCLOCKWISE tag.CIRCLED_MINUS tag.CIRCLED_PLUS
      = some (double.finite 0)
    ∧ frequency_double uneven_array signal.COUNTERCLOCKWISE tag.CIRCLED_MINUS tag.CIRCLED_MINUS
      = some (double.finite 0)
    ∧ frequency_double uneven_array signal.CLOCKWISE tag.CIRCLED_PLUS tag.CIRCLED_PLUS
      = some (double.finite (3602879701896397 / 2 ^ 55))
    ∧ frequency_double uneven_array signal.CLOCKWISE tag.CIRCLED_PLUS tag.CIRCLED_MINUS
      = some (double.finite 0)
    ∧ frequency_double uneven_array signal.CLOCKWISE tag.CIRCLED_MINUS tag.CIRCLED_PLUS
      = some (double.finite 0)
    ∧ frequency_double uneven_array signal.CLOCKWISE tag.CIRCLED_MINUS tag.CIRCLED_MINUS
      = some (double.finite 0)
    ∧ (5404319552844595 / 2 ^ 54 + 5404319552844595 / 2 ^ 53 + 0 + 0
        + 3602879701896397 / 2 ^ 55 + 0 + 0 + 0 : ℚ) = 1 - 1 / 2 ^ 55
    ∧ (5404319552844595 / 2 ^ 54 + 5404319552844595 / 2 ^ 53 + 0 + 0
        + 3602879701896397 / 2 ^ 55 + 0 + 0 + 0 : ℚ) ≠ 1 := by
  obtain ⟨f1, f2, f3, f4, f5, f6, f7, f8⟩ := uneven_array_frequencies
  refine ⟨⟨List.length_replicate _ _, fun σ τ1 τ2 => ?_⟩, uneven_array_length,
    uneven_array_plain, f1, f2, f3, f4, f5, f6, f7, f8, by norm_num, by norm_num⟩
  rw [count, show RUN_LENGTH = 999999 + 1 from rfl, List.replicate_succ, count_loop,
    if_neg (by decide)]

end EPRB

namespace Craytons

theorem two_opposite_events_table_int {scalar : Type} (angle1 angle2 : scalar) :
    (two_opposite_events_table angle1 angle2).number_of_events ≤ 2147483647 := by
  simp [two_opposite_events_table]

theorem one_event_table_int {scalar : Type} (angle1 angle2 : scalar) :
    (one_event_table angle1 angle2).number_of_events ≤ 2147483647 := by
  simp [one_event_table]

theorem six_events_table_valid {scalar : Type} (angle1 angle2 : scalar) :
    (∀ (k : crayton) (w1 w2 : way), 0 ≤ (six_events_table angle1 angle2).counter k w1 w2)
    ∧ (six_events_table angle1 angle2).total = (six_events_table angle1 angle2).number_of_events
    ∧ 0 < (six_events_table angle1 angle2).number_of_events
    ∧ (six_events_table angle1 angle2).number_of_events ≤ 2147483647 := by
  refine ⟨?_, by simp [six_events_table, series_data.total], by simp [six_events_table],
    by simp [six_events_table]⟩
  intro k w1 w2
  cases k <;> cases w1 <;> cases w2 <;> simp [six_events_table, series_data.counter]

open Real

/-- C11 (as amended): neither function rejects a trial count of zero. For `n = 0`
`experimental_series` returns, as soon as it has fuel for one loop test, the table with the
eight counters zero and `number_of_events = 0`, and leaves the generator state unchanged.
On every table with `number_of_events = 0`, that one included,
`correlation_coefficient_estimate` does not fail either: it divides by zero in `double` and
returns a NaN. -/
theorem experimental_series_zero_events {scalar : Type} [LinearOrderedField scalar]
    (m : libm scalar) (angle1 angle2 : scalar) (a_global_variable : Int) (fuel : Nat) :
    experimental_series m (fuel + 1) angle1 angle2 0 a_global_variable
      = some (initial_series_data angle1 angle2 0, a_global_variable)
    ∧ (initial_series_data angle1 angle2 0).number_of_events = 0
    ∧ (∀ (k : crayton) (w1 w2 : way),
        (initial_series_data angle1 angle2 0).counter k w1 w2 = 0)
    ∧ correlation_coefficient_estimate_double (initial_series_data angle1 angle2 0)
        = double.nan
    ∧ ∀ sdata : series_data scalar, sdata.number_of_events = 0 →
        correlation_coefficient_estimate_double sdata = double.nan := by
  refine ⟨?_, rfl, initial_series_data_counter angle1 angle2 0,
    estimate_double_of_zero_events _ rfl, estimate_double_of_zero_events⟩
  simp [experimental_series, experimental_series_loop]

/-- C11 (counterexample): for `n = 0`, at the angles `0` and `π/8` from the initial
generator state, `experimental_series` does not fail: it returns the table with
`number_of_events = 0` and eight zero counters; and on that table
`correlation_coefficient_estimate` does not fail: it returns a NaN. -/
theorem experimental_series_zero_returns :
    experimental_series (libm.mk Real.cos Real.sin Real.sqrt) 1 0 (Real.pi / 8) 0 12345
      = some (initial_series_data 0 (Real.pi / 8) 0, 12345)
    ∧ experimental_series (libm.mk Real.cos Real.sin Real.sqrt) 1 0 (Real.pi / 8) 0 12345
      ≠ none
    ∧ correlation_coefficient_estimate_double (initial_series_data (0 : ℝ) (Real.pi / 8) 0)
      = double.nan := by
  have h : experimental_series (libm.mk Real.cos Real.sin Real.sqrt) 1 0 (Real.pi / 8) 0 12345
      = some (initial_series_data 0 (Real.pi / 8) 0, 12345) := by
    simp [experimental_series, experimental_series_loop]
  exact ⟨h, by rw [h]; exact Option.some_ne_none _, estimate_double_of_zero_events _ rfl⟩

/-- C13 (as amended): in the arithmetic of `double`, for every table whose eight counters
are non-negative and sum to `number_of_events = n` with `0 < n ≤ INT_MAX`,
`correlation_coefficient_estimate` returns a finite number `r` with
`-2 - 2 ^ -48 ≤ r ≤ 1`; the bound `-1` does not hold, and neither does `-2`. -/
theorem correlation_coefficient_estimate_bounds {scalar : Type} (sdata : series_data scalar)
    (hcounters : ∀ (k : crayton) (w1 w2 : way), 0 ≤ sdata.counter k w1 w2)
    (htotal : sdata.total = sdata.number_of_events) (hpos : 0 < sdata.number_of_events)
    (hint : sdata.number_of_events ≤ 2147483647) :
    ∃ r : ℚ, correlation_coefficient_estimate_double sdata = double.finite r
      ∧ -2 - 1 / 2 ^ 48 ≤ r ∧ r ≤ 1 :=
  estimate_double_of_table sdata hcounters htotal hpos hint

/-- C13 (witness): the table of two opposite `updown` events at the angles `0` and `π/8`. -/
theorem correlation_coefficient_estimate_bounds_witness :
    ((∀ (k : crayton) (w1 w2 : way),
        0 ≤ (two_opposite_events_table (0 : ℝ) (π / 8)).counter k w1 w2)
      ∧ (two_opposite_events_table (0 : ℝ) (π / 8)).total
          = (two_opposite_events_table (0 : ℝ) (π / 8)).number_of_events
      ∧ 0 < (two_opposite_events_table (0 : ℝ) (π / 8)).number_of_events)
    ∧ (two_opposite_events_table (0 : ℝ) (π / 8)).number_of_events ≤ 2147483647
    ∧ ∃ r : ℚ, correlation_coefficient_estimate_double (two_opposite_events_table (0 : ℝ) (π / 8))
          = double.finite r
        ∧ -2 - 1 / 2 ^ 48 ≤ r ∧ r ≤ 1 :=
  ⟨two_opposite_events_table_valid 0 (π / 8), two_opposite_events_table_int 0 (π / 8),
    correlation_coefficient_estimate_bounds (two_opposite_events_table 0 (π / 8))
      (two_opposite_events_table_valid 0 (π / 8)).1
      (two_opposite_events_table_valid 0 (π / 8)).2.1
      (two_opposite_events_table_valid 0 (π / 8)).2.2
      (two_opposite_events_table_int 0 (π / 8))⟩

/-- C13 (counterexample): the series of two events at the angles `π/4`, `π/4` from the
generator state `36753` returns a table with non-negative counters that sum to
`number_of_events = 2`, on which the estimate is, in the arithmetic of `double`,
`-(2 + 2 ^ -51) = -2.0000000000000004`, outside `[-1, 1]`. -/
theorem correlation_coefficient_estimate_below_minus_one :
    experimental_series (libm.mk Real.cos Real.sin Real.sqrt) 3 (π / 4) (π / 4) 2 36753
      = some (two_opposite_events_table (π / 4) (π / 4), 32747)
    ∧ (∀ (k : crayton) (w1 w2 : way),
        0 ≤ (two_opposite_events_table (π / 4) (π / 4)).counter k w1 w2)
    ∧ (two_opposite_events_table (π / 4) (π / 4)).total
        = (two_opposite_events_table (π / 4) (π / 4)).number_of_events
    ∧ 0 < (two_opposite_events_table (π / 4) (π / 4)).number_of_events
    ∧ correlation_coefficient_estimate_double (two_opposite_events_table (π / 4) (π / 4))
        = double.finite (-(2 + 1 / 2 ^ 51))
    ∧ ¬ (-1 ≤ (-(2 + 1 / 2 ^ 51) : ℚ) ∧ (-(2 + 1 / 2 ^ 51) : ℚ) ≤ 1) := by
  obtain ⟨h1, h2, h3⟩ := two_opposite_events_table_valid (π / 4) (π / 4)
  refine ⟨series_returns_two_opposite_events_table, h1, h2, h3,
    estimate_double_two_opposite_events _ _, ?_⟩
  norm_num

/-- C14 (as amended): `correlation_coefficient_estimate` does not clamp. It passes each
combined term to `sqrt` as it is; `sqrt` returns a NaN on a negative number; and when one
of the four combined terms is a negative number the estimator returns a NaN. -/
theorem correlation_coefficient_estimate_nan_of_negative_term {scalar : Type}
    (sdata : series_data scalar)
    (h : (∃ a : ℚ, a < 0
          ∧ estimate_of_cos2_phi1_cos2_phi2_double (frequencies_of_double sdata)
            = double.finite a)
      ∨ (∃ a : ℚ, a < 0
          ∧ estimate_of_cos2_phi1_sin2_phi2_double (frequencies_of_double sdata)
            = double.finite a)
      ∨ (∃ a : ℚ, a < 0
          ∧ estimate_of_sin2_phi1_cos2_phi2_double (frequencies_of_double sdata)
            = double.finite a)
      ∨ (∃ a : ℚ, a < 0
          ∧ estimate_of_sin2_phi1_sin2_phi2_double (frequencies_of_double sdata)
            = double.finite a)) :
    (∀ a : ℚ, a < 0 → double.sqrt (double.finite a) = double.nan)
    ∧ correlation_coefficient_estimate_double sdata = double.nan :=
  ⟨fun _ ha => double.sqrt_negative ha, estimate_double_of_negative_term _ h⟩

/-- C14 (witness): the degenerate table, whose term for `cos²φ1·cos²φ2` is `-1`. -/
theorem correlation_coefficient_estimate_nan_of_negative_term_witness :
    estimate_of_cos2_phi1_cos2_phi2_double (frequencies_of_double (degenerate_table ℚ))
      = double.finite (-1)
    ∧ correlation_coefficient_estimate_double (degenerate_table ℚ) = double.nan :=
  ⟨degenerate_table_term,
    (correlation_coefficient_estimate_nan_of_negative_term (degenerate_table ℚ)
      (Or.inl ⟨-1, by norm_num, degenerate_table_term⟩)).2⟩

/-- C14 (counterexample): on the degenerate table, with `number_of_events = 1 > 0` and the
counter of `(updown, -1, +1)` set to `-1`, the term for `cos²φ1·cos²φ2` is `-1`; its square
root is a NaN, not zero, and the estimator returns a NaN, not a number. -/
theorem correlation_coefficient_estimate_not_clamped :
    0 < (degenerate_table ℚ).number_of_events
    ∧ estimate_of_cos2_phi1_cos2_phi2_double (frequencies_of_double (degenerate_table ℚ))
      = double.finite (-1)
    ∧ double.sqrt
        (estimate_of_cos2_phi1_cos2_phi2_double (frequencies_of_double (degenerate_table ℚ)))
      = double.nan
    ∧ double.sqrt
        (estimate_of_cos2_phi1_cos2_phi2_double (frequencies_of_double (degenerate_table ℚ)))
      ≠ double.finite 0
    ∧ correlation_coefficient_estimate_double (degenerate_table ℚ) = double.nan
    ∧ ∀ r : ℚ, correlation_coefficient_estimate_double (degenerate_table ℚ)
        ≠ double.finite r := by
  have hs : double.sqrt
      (estimate_of_cos2_phi1_cos2_phi2_double (frequencies_of_double (degenerate_table ℚ)))
      = double.nan := by
    rw [degenerate_table_term, double.sqrt_negative (by norm_num)]
  have he : correlation_coefficient_estimate_double (degenerate_table ℚ) = double.nan :=
    estimate_double_of_negative_term _ (Or.inl ⟨-1, by norm_num, degenerate_table_term⟩)
  refine ⟨by simp [degenerate_table], degenerate_table_term, hs, ?_, he, ?_⟩
  · rw [hs]; exact fun h => double.noConfusion h
  · intro r; rw [he]; exact fun h => double.noConfusion h

/-- C19 (as amended): in the arithmetic of `double`, for every table whose eight counters
are non-negative and sum to `number_of_events = n` with `0 < n ≤ INT_MAX`, the four combined
estimates of `correlation_coefficient_estimate` are finite numbers that each lie in
`[0, 1]`, so that every square root is taken of a non-negative number and is a finite
number; their sum is within `2 ^ -50` of `1`. -/
theorem combined_estimates_in_unit_interval {scalar : Type} (sdata : series_data scalar)
    (hcounters : ∀ (k : crayton) (w1 w2 : way), 0 ≤ sdata.counter k w1 w2)
    (htotal : sdata.total = sdata.number_of_events) (hpos : 0 < sdata.number_of_events)
    (hint : sdata.number_of_events ≤ 2147483647) :
    ∃ t1 t2 t3 t4 : ℚ,
      estimate_of_cos2_phi1_cos2_phi2_double (frequencies_of_double sdata) = double.finite t1
      ∧ estimate_of_cos2_phi1_sin2_phi2_double (frequencies_of_double sdata) = double.finite t2
      ∧ estimate_of_sin2_phi1_cos2_phi2_double (frequencies_of_double sdata) = double.finite t3
      ∧ estimate_of_sin2_phi1_sin2_phi2_double (frequencies_of_double sdata) = double.finite t4
      ∧ (0 ≤ t1 ∧ t1 ≤ 1) ∧ (0 ≤ t2 ∧ t2 ≤ 1) ∧ (0 ≤ t3 ∧ t3 ≤ 1) ∧ (0 ≤ t4 ∧ t4 ≤ 1)
      ∧ double.sqrt (double.finite t1) = double.finite (sqrt_double t1)
      ∧ double.sqrt (double.finite t2) = double.finite (sqrt_double t2)
      ∧ double.sqrt (double.finite t3) = double.finite (sqrt_double t3)
      ∧ double.sqrt (double.finite t4) = double.finite (sqrt_double t4)
      ∧ |t1 + t2 + t3 + t4 - 1| ≤ 1 / 2 ^ 50 := by
  obtain ⟨t1, t2, t3, t4, e1, e2, e3, e4, h1, h2, h3, h4, hs, -⟩ :=
    combined_terms_double_of_table sdata hcounters htotal hpos hint
  exact ⟨t1, t2, t3, t4, e1, e2, e3, e4, h1, h2, h3, h4, double.sqrt_finite h1.1,
    double.sqrt_finite h2.1, double.sqrt_finite h3.1, double.sqrt_finite h4.1, hs⟩

/-- C19 (witness): the table of six events. -/
theorem combined_estimates_in_unit_interval_witness :
    ((∀ (k : crayton) (w1 w2 : way), 0 ≤ (six_events_table (0 : ℚ) 0).counter k w1 w2)
      ∧ (six_events_table (0 : ℚ) 0).total = (six_events_table (0 : ℚ) 0).number_of_events
      ∧ 0 < (six_events_table (0 : ℚ) 0).number_of_events
      ∧ (six_events_table (0 : ℚ) 0).number_of_events ≤ 2147483647)
    ∧ ∃ t1 t2 t3 t4 : ℚ,
      estimate_of_cos2_phi1_cos2_phi2_double (frequencies_of_double (six_events_table (0 : ℚ) 0))
        = double.finite t1
      ∧ estimate_of_cos2_phi1_sin2_phi2_double
          (frequencies_of_double (six_events_table (0 : ℚ) 0)) = double.finite t2
      ∧ estimate_of_sin2_phi1_cos2_phi2_double
          (frequencies_of_double (six_events_table (0 : ℚ) 0)) = double.finite t3
      ∧ estimate_of_sin2_phi1_sin2_phi2_double
          (frequencies_of_double (six_events_table (0 : ℚ) 0)) = double.finite t4
      ∧ (0 ≤ t1 ∧ t1 ≤ 1) ∧ (0 ≤ t2 ∧ t2 ≤ 1) ∧ (0 ≤ t3 ∧ t3 ≤ 1) ∧ (0 ≤ t4 ∧ t4 ≤ 1)
      ∧ double.sqrt (double.finite t1) = double.finite (sqrt_double t1)
      ∧ double.sqrt (double.finite t2) = double.finite (sqrt_double t2)
      ∧ double.sqrt (double.finite t3) = double.finite (sqrt_double t3)
      ∧ double.sqrt (double.finite t4) = double.finite (sqrt_double t4)
      ∧ |t1 + t2 + t3 + t4 - 1| ≤ 1 / 2 ^ 50 :=
  ⟨six_events_table_valid 0 0,
    combined_estimates_in_unit_interval (six_events_table (0 : ℚ) 0)
      (six_events_table_valid 0 0).1 (six_events_table_valid 0 0).2.1
      (six_events_table_valid 0 0).2.2.1 (six_events_table_valid 0 0).2.2.2⟩

/-- C19 (counterexample): on the table of six events, whose counters are non-negative and
sum to `number_of_events = 6`, the four combined estimates are, in the arithmetic of
`double`, the `double` nearest to `2/3`, the `double` nearest to `1/6`, `0`, and the
`double` nearest to `1/6`; their sum is `1 - 2 ^ -54`, not `1`. -/
theorem combined_estimates_sum_below_one :
    ((∀ (k : crayton) (w1 w2 : way), 0 ≤ (six_events_table (0 : ℚ) 0).counter k w1 w2)
      ∧ (six_events_table (0 : ℚ) 0).total = (six_events_table (0 : ℚ) 0).number_of_events
      ∧ 0 < (six_events_table (0 : ℚ) 0).number_of_events
      ∧ (six_events_table (0 : ℚ) 0).number_of_events ≤ 2147483647)
    ∧ estimate_of_cos2_phi1_cos2_phi2_double (frequencies_of_double (six_events_table (0 : ℚ) 0))
        = double.finite (6004799503160661 / 2 ^ 53)
    ∧ estimate_of_cos2_phi1_sin2_phi2_double (frequencies_of_double (six_events_table (0 : ℚ) 0))
        = double.finite (6004799503160661 / 2 ^ 55)
    ∧ estimate_of_sin2_phi1_cos2_phi2_double (frequencies_of_double (six_events_table (0 : ℚ) 0))
        = double.finite 0
    ∧ estimate_of_sin2_phi1_sin2_phi2_double (frequencies_of_double (six_events_table (0 : ℚ) 0))
        = double.finite (6004799503160661 / 2 ^ 55)
    ∧ (6004799503160661 / 2 ^ 53 + 6004799503160661 / 2 ^ 55 + 0
        + 6004799503160661 / 2 ^ 55 : ℚ) = 1 - 1 / 2 ^ 54
    ∧ (6004799503160661 / 2 ^ 53 + 6004799503160661 / 2 ^ 55 + 0
        + 6004799503160661 / 2 ^ 55 : ℚ) ≠ 1 := by
  obtain ⟨e1, e2, e3, e4⟩ := six_events_terms (0 : ℚ) 0
  exact ⟨six_events_table_valid 0 0, e1, e2, e3, e4, by norm_num, by norm_num⟩

/-- C20 (as amended): in the arithmetic of `double`, for every table whose eight counters
are non-negative and sum to `number_of_events = n` with `0 < n ≤ INT_MAX`,
`correlation_coefficient_estimate` returns a finite number `r` with
`-2 - 2 ^ -48 ≤ r ≤ 1`. The upper bound is attained and the value `-2` is passed by tables
that `experimental_series` returns: from the generator state `36753`, which is the state
left by a series of 28 events from the initial state `12345`, the series of two events at
the angles `π/4`, `π/4` returns the table of one `(updown, -1, +1)` and one
`(updown, +1, -1)` event, with estimate `-(2 + 2 ^ -51)`; from the initial state the series
of one event at the angles `π/2`, `0` returns the table of one `(updown, +1, +1)` event,
with estimate `1`. -/
theorem correlation_coefficient_estimate_range {scalar : Type} (sdata : series_data scalar)
    (hcounters : ∀ (k : crayton) (w1 w2 : way), 0 ≤ sdata.counter k w1 w2)
    (htotal : sdata.total = sdata.number_of_events) (hpos : 0 < sdata.number_of_events)
    (hint : sdata.number_of_events ≤ 2147483647) :
    (∃ r : ℚ, correlation_coefficient_estimate_double sdata = double.finite r
      ∧ -2 - 1 / 2 ^ 48 ≤ r ∧ r ≤ 1)
    ∧ (∃ sdata28 : series_data ℝ,
        experimental_series (libm.mk Real.cos Real.sin Real.sqrt) 29 (π / 4) (π / 4) 28 12345
          = some (sdata28, 36753))
    ∧ experimental_series (libm.mk Real.cos Real.sin Real.sqrt) 3 (π / 4) (π / 4) 2 36753
        = some (two_opposite_events_table (π / 4) (π / 4), 32747)
    ∧ correlation_coefficient_estimate_double (two_opposite_events_table (π / 4) (π / 4))
        = double.finite (-(2 + 1 / 2 ^ 51))
    ∧ experimental_series (libm.mk Real.cos Real.sin Real.sqrt) 2 (π / 2) 0 1 12345
        = some (one_event_table (π / 2) 0, 18096)
    ∧ correlation_coefficient_estimate_double (one_event_table (π / 2) (0 : ℝ))
        = double.finite 1 := by
  have h := experimental_series_loop_eq (libm.mk Real.cos Real.sin Real.sqrt) (π / 4) (π / 4)
    28 28 29 0 (initial_series_data (π / 4) (π / 4) 28) 12345 (by omega) (by norm_num)
  rw [state_after_28_events] at h
  exact ⟨estimate_double_of_table sdata hcounters htotal hpos hint, ⟨_, h⟩,
    series_returns_two_opposite_events_table, estimate_double_two_opposite_events _ _,
    series_returns_one_event_table, estimate_double_one_event _ _⟩

/-- C20 (witness): the table of one `(updown, +1, +1)` event at the angles `π/2`, `0`. -/
theorem correlation_coefficient_estimate_range_witness :
    ((∀ (k : crayton) (w1 w2 : way), 0 ≤ (one_event_table (π / 2) (0 : ℝ)).counter k w1 w2)
      ∧ (one_event_table (π / 2) (0 : ℝ)).total
          = (one_event_table (π / 2) (0 : ℝ)).number_of_events
      ∧ 0 < (one_event_table (π / 2) (0 : ℝ)).number_of_events)
    ∧ (one_event_table (π / 2) (0 : ℝ)).number_of_events ≤ 2147483647
    ∧ ∃ r : ℚ, correlation_coefficient_estimate_double (one_event_table (π / 2) (0 : ℝ))
          = double.finite r
        ∧ -2 - 1 / 2 ^ 48 ≤ r ∧ r ≤ 1 :=
  ⟨one_event_table_valid (π / 2) 0, one_event_table_int (π / 2) 0,
    (correlation_coefficient_estimate_range (one_event_table (π / 2) 0)
      (one_event_table_valid (π / 2) 0).1 (one_event_table_valid (π / 2) 0).2.1
      (one_event_table_valid (π / 2) 0).2.2 (one_event_table_int (π / 2) 0)).1⟩

/-- C20 (counterexample): the series of two events at the angles `π/4`, `π/4` from the
generator state `36753` returns the table of one `(updown, -1, +1)` and one
`(updown, +1, -1)` event, with `n = 2`; on it the estimate is, in the arithmetic of
`double`, `-(2 + 2 ^ -51) = -2.0000000000000004`: it is below `-2`, and it is not `-2`. -/
theorem correlation_coefficient_estimate_below_minus_two :
    experimental_series (libm.mk Real.cos Real.sin Real.sqrt) 3 (π / 4) (π / 4) 2 36753
      = some (two_opposite_events_table (π / 4) (π / 4), 32747)
    ∧ (two_opposite_events_table (π / 4) (π / 4)).number_of_events = 2
    ∧ (two_opposite_events_table (π / 4) (π / 4)).counter crayton.updown way.minus way.plus = 1
    ∧ (two_opposite_events_table (π / 4) (π / 4)).counter crayton.updown way.plus way.minus = 1
    ∧ correlation_coefficient_estimate_double (two_opposite_events_table (π / 4) (π / 4))
        = double.finite (-(2 + 1 / 2 ^ 51))
    ∧ correlation_coefficient_estimate_double (two_opposite_events_table (π / 4) (π / 4))
        ≠ double.finite (-2)
    ∧ ¬ ((-2 : ℚ) ≤ -(2 + 1 / 2 ^ 51)) := by
  have he := estimate_double_two_opposite_events (π / 4) (π / 4)
  refine ⟨series_returns_two_opposite_events_table, rfl, rfl, rfl, he, ?_, by norm_num⟩
  rw [he]
  intro h
  have := double.finite.inj h
  norm_num at this

end Craytons
